import Mathlib

/-!
# AISDI-Maps: the AVL `TreeMap` of `src/TreeMap.h`

A shallow embedding of the pointer-based tree map.  Nodes live in a store that
is indexed by addresses (natural numbers); the links `Left`, `Right`, `Parent`
of the source are optional addresses, `nullptr` being `none`.  Every operation
threads the container state explicitly and returns a `Res`: a normal return,
a thrown `std::out_of_range`, or `undefined` when the source would follow a
null or dangling link (or a loop does not finish within its bound).
-/

namespace aisdi

/-- The outcome of running a piece of the source. -/
inductive Res (α : Type) where
  /-- Normal return. -/
  | ok (a : α)
  /-- A `std::out_of_range` exception leaves the function. -/
  | out_of_range
  /-- A null or freed node is dereferenced, or a loop exceeds its bound. -/
  | undefined
deriving DecidableEq

/-- Sequencing of outcomes: the first failure wins. -/
def Res.bind {α β : Type} : Res α → (α → Res β) → Res β
  | .ok a, f => f a
  | .out_of_range, _ => .out_of_range
  | .undefined, _ => .undefined

instance : Monad Res where
  pure := Res.ok
  bind := Res.bind

/-- A pointer that is about to be dereferenced: `nullptr` has no pointee. -/
def Res.ofPtr : Option Nat → Res Nat
  | some p => .ok p
  | none => .undefined

/-- The fields of `struct Node`: `Data.first`, `Data.second`, the three links and the cached height. -/
structure Node (K V : Type) where
  key : K
  val : V
  Left : Option Nat
  Right : Option Nat
  Parent : Option Nat
  Height : Int
deriving DecidableEq

/-- The container: the node store (`none` marks a freed cell), `Head` and `count`.
Cached heights are `int` in the source; they never exceed the number of nodes, so they are
modelled by integers without wrap-around.  `count` is a `size_t`; every counted node occupies
memory, so increments are exact, and the decrement wraps as in the source (`decrCount`). -/
structure TreeMap (K V : Type) where
  nodes : List (Option (Node K V))
  Head : Option Nat
  count : Nat
deriving DecidableEq

variable {K V : Type}

/-- Content of the store at an address, `none` when nothing live is there. -/
def TreeMap.cell (m : TreeMap K V) (p : Nat) : Option (Node K V) :=
  (m.nodes.get? p).join

/-- Dereference of a node pointer `p->...`. -/
def TreeMap.deref (m : TreeMap K V) (p : Nat) : Res (Node K V) :=
  match m.cell p with
  | some n => .ok n
  | none => .undefined

/-- Dereference of a possibly-null node pointer. -/
def TreeMap.derefPtr (m : TreeMap K V) : Option Nat → Res (Node K V)
  | some p => m.deref p
  | none => .undefined

/-- Overwrite the cell at `p`. -/
def TreeMap.put (m : TreeMap K V) (p : Nat) (n : Node K V) : TreeMap K V :=
  { m with nodes := m.nodes.set p (some n) }

/-- An assignment `p->field = ...` to a field of the node at `p`. -/
def TreeMap.assign (m : TreeMap K V) (p : Nat) (f : Node K V → Node K V) : Res (TreeMap K V) :=
  match m.cell p with
  | some n => .ok (m.put p (f n))
  | none => .undefined

/-- The default constructor `TreeMap()`. -/
def TreeMap.empty : TreeMap K V := { nodes := [], Head := none, count := 0 }

/-- Source `isEmpty`. -/
def TreeMap.isEmpty (m : TreeMap K V) : Bool := m.count == 0

/-- Source `getSize`. -/
def TreeMap.getSize (m : TreeMap K V) : Nat := m.count

/-- Source `getHeight`: 0 for `nullptr`, the cached height otherwise. -/
def TreeMap.getHeight (m : TreeMap K V) : Option Nat → Res Int
  | none => .ok 0
  | some p => do
    let n ← m.deref p
    pure n.Height

/-- Source `maxHeight`. -/
def TreeMap.maxHeight (m : TreeMap K V) (A B : Option Nat) : Res Int := do
  let a ← m.getHeight A
  let b ← m.getHeight B
  pure (if a > b then a else b)

/-- Source `upgradeHeight`: `current->Height = maxHeight(current->Left, current->Right) + 1`. -/
def TreeMap.upgradeHeight (m : TreeMap K V) (current : Option Nat) : Res (TreeMap K V) := do
  let c ← m.derefPtr current
  let p ← Res.ofPtr current
  let h ← m.maxHeight c.Left c.Right
  m.assign p (fun n => { n with Height := h + 1 })

/-- Source `isBalance`. -/
def TreeMap.isBalance (m : TreeMap K V) : Option Nat → Res Bool
  | none => .ok false
  | some p => do
    let c ← m.deref p
    let l ← m.getHeight c.Left
    let r ← m.getHeight c.Right
    pure (decide (l + 0 = 0 + r) || decide (l + 1 = 0 + r) || decide (l + 0 = 1 + r))

/-- The statement `if (p != nullptr) p->field = ...`. -/
def TreeMap.assignIfPresent (m : TreeMap K V) (p : Option Nat) (f : Node K V → Node K V) :
    Res (TreeMap K V) :=
  match p with
  | some q => m.assign q f
  | none => .ok m

/-- The statement `if (P != nullptr) { if (P->Right == current) P->Right = X; else P->Left = X; }
else Head = X;` shared by both rotations. -/
def TreeMap.relinkParent (m : TreeMap K V) (P : Option Nat) (current : Nat) (X : Option Nat) :
    Res (TreeMap K V) :=
  match P with
  | some p =>
    match m.deref p with
    | .ok pn =>
      if pn.Right = some current then m.assign p (fun n => { n with Right := X })
      else m.assign p (fun n => { n with Left := X })
    | .out_of_range => .out_of_range
    | .undefined => .undefined
  | none => .ok { m with Head := X }

/-- Source `switch_Right_With_Parent`: the left rotation at `current`. -/
def TreeMap.switch_Right_With_Parent (m : TreeMap K V) (current : Option Nat) :
    Res (TreeMap K V) := do
  let c ← m.derefPtr current
  let cur ← Res.ofPtr current
  let P := c.Parent
  let R := c.Right
  let rn ← m.derefPtr R
  let r ← Res.ofPtr R
  let RL := rn.Left
  let m1 ← m.relinkParent P cur R
  let m2 ← m1.assign r (fun n => { n with Parent := P })
  let m3 ← m2.assign r (fun n => { n with Left := some cur })
  let m4 ← m3.assign cur (fun n => { n with Parent := R })
  let m5 ← m4.assign cur (fun n => { n with Right := RL })
  let m6 ← m5.assignIfPresent RL (fun n => { n with Parent := some cur })
  m6.upgradeHeight (some cur)

/-- Source `switch_Left_With_Parent`: the right rotation at `current`. -/
def TreeMap.switch_Left_With_Parent (m : TreeMap K V) (current : Option Nat) :
    Res (TreeMap K V) := do
  let c ← m.derefPtr current
  let cur ← Res.ofPtr current
  let P := c.Parent
  let L := c.Left
  let ln ← m.derefPtr L
  let l ← Res.ofPtr L
  let LR := ln.Right
  let m1 ← m.relinkParent P cur L
  let m2 ← m1.assign l (fun n => { n with Parent := P })
  let m3 ← m2.assign l (fun n => { n with Right := some cur })
  let m4 ← m3.assign cur (fun n => { n with Parent := L })
  let m5 ← m4.assign cur (fun n => { n with Left := LR })
  let m6 ← m5.assignIfPresent LR (fun n => { n with Parent := some cur })
  m6.upgradeHeight (some cur)

/-- The body of the `if (!isBalance(current))` block of `repairsTree`. -/
def TreeMap.rebalance (m : TreeMap K V) (current : Nat) : Res (TreeMap K V) := do
  let c ← m.deref current
  let hl ← m.getHeight c.Left
  let hr ← m.getHeight c.Right
  if hl ≤ hr then do
    let rn ← m.derefPtr c.Right
    let hrl ← m.getHeight rn.Left
    let hrr ← m.getHeight rn.Right
    if hrl ≤ hrr then
      m.switch_Right_With_Parent (some current)
    else do
      let m1 ← m.switch_Left_With_Parent c.Right
      let c1 ← m1.deref current
      let m2 ← m1.upgradeHeight c1.Right
      m2.switch_Right_With_Parent (some current)
  else do
    let ln ← m.derefPtr c.Left
    let hll ← m.getHeight ln.Left
    let hlr ← m.getHeight ln.Right
    if hll ≥ hlr then
      m.switch_Left_With_Parent (some current)
    else do
      let m1 ← m.switch_Right_With_Parent c.Left
      let c1 ← m1.deref current
      let m2 ← m1.upgradeHeight c1.Left
      m2.switch_Left_With_Parent (some current)

/-- One pass of the `while (current != nullptr)` body of `repairsTree`:
the new state and the next value of `current`. -/
def TreeMap.repairStep (m : TreeMap K V) (current : Nat) : Res (TreeMap K V × Option Nat) := do
  let b ← m.isBalance (some current)
  let m1 ← if b then pure m else m.rebalance current
  let m2 ← m1.upgradeHeight (some current)
  let c ← m2.deref current
  pure (m2, c.Parent)

/-- Source `repairsTree`; the loop is bounded by `fuel` passes. -/
def TreeMap.repairsTree : Nat → TreeMap K V → Option Nat → Res (TreeMap K V)
  | _, m, none => .ok m
  | 0, _, some _ => .undefined
  | fuel + 1, m, some current =>
    match m.repairStep current with
    | .ok (m1, next) => TreeMap.repairsTree fuel m1 next
    | .out_of_range => .out_of_range
    | .undefined => .undefined

/-- How the descent loop of `insert` ends. -/
inductive Slot where
  /-- `current->Right == nullptr` with a greater key: link as right child of `current`. -/
  | right (current : Nat)
  /-- `current->Left == nullptr` with a smaller key: link as left child of `current`. -/
  | left (current : Nat)
  /-- An equal key was met: `delete newNode; return`. -/
  | present
deriving DecidableEq

/-- The `while (true)` descent of `insert`, bounded by `fuel` passes. -/
def TreeMap.insertDescend [LinearOrder K] (m : TreeMap K V) (key : K) : Nat → Nat → Res Slot
  | 0, _ => .undefined
  | fuel + 1, current =>
    match m.deref current with
    | .ok c =>
      if key > c.key then
        match c.Right with
        | none => .ok (.right current)
        | some r => TreeMap.insertDescend m key fuel r
      else if key < c.key then
        match c.Left with
        | none => .ok (.left current)
        | some l => TreeMap.insertDescend m key fuel l
      else .ok .present
    | .out_of_range => .out_of_range
    | .undefined => .undefined

/-- The store after `new Node(key, val)` has been linked below `parent`. -/
def TreeMap.link (m : TreeMap K V) (key : K) (val : V) (parent : Option Nat) : TreeMap K V :=
  { m with nodes := m.nodes ++ [some ⟨key, val, none, none, parent, 1⟩] }

/-- Source `insert(Node* newNode)` for `newNode = new Node(key, val)`, with the loop of
`repairsTree` bounded by `fuel` passes.  The new node gets the first unused address when it is
linked into the tree; on the duplicate path the source deletes it again, so the store is as
before. -/
def TreeMap.insertWith [LinearOrder K] (fuel : Nat) (m : TreeMap K V) (key : K) (val : V) :
    Res (TreeMap K V) :=
  let newNode := m.nodes.length
  match m.Head with
  | none => .ok { m.link key val none with Head := some newNode, count := m.count + 1 }
  | some head =>
    match m.insertDescend key (m.nodes.length + 1) head with
    | .ok (.right current) =>
      match m.assign current (fun n => { n with Right := some newNode }) with
      | .ok m1 =>
        let m2 := m1.link key val (some current)
        TreeMap.repairsTree fuel { m2 with count := m2.count + 1 } (some current)
      | .out_of_range => .out_of_range
      | .undefined => .undefined
    | .ok (.left current) =>
      match m.assign current (fun n => { n with Left := some newNode }) with
      | .ok m1 =>
        let m2 := m1.link key val (some current)
        TreeMap.repairsTree fuel { m2 with count := m2.count + 1 } (some current)
      | .out_of_range => .out_of_range
      | .undefined => .undefined
    | .ok .present => .ok m
    | .out_of_range => .out_of_range
    | .undefined => .undefined

/-- Source `insert(Node* newNode)`: two passes of the repair loop per cell of the store are
allowed, which is more than an insertion into a balanced tree needs. -/
def TreeMap.insert [LinearOrder K] (m : TreeMap K V) (key : K) (val : V) : Res (TreeMap K V) :=
  m.insertWith (2 * (m.nodes.length + 1)) key val

/-- The constructor from an initializer list: `insert(new Node(*it))` for each pair in order. -/
def TreeMap.insertAll [LinearOrder K] : TreeMap K V → List (K × V) → Res (TreeMap K V)
  | m, [] => .ok m
  | m, (k, v) :: rest =>
    match m.insert k v with
    | .ok m1 => TreeMap.insertAll m1 rest
    | .out_of_range => .out_of_range
    | .undefined => .undefined

/-- Source `TreeMap(std::initializer_list<value_type> list)`. -/
def TreeMap.ofList [LinearOrder K] (list : List (K × V)) : Res (TreeMap K V) :=
  TreeMap.insertAll TreeMap.empty list

/-- The loop `while (current->Left != nullptr) current = current->Left`, as it occurs in
`findLowNode`, `cbegin`, `remove` and `operator++`; bounded by `fuel` passes. -/
def TreeMap.leftmost (m : TreeMap K V) : Nat → Nat → Res Nat
  | 0, _ => .undefined
  | fuel + 1, current =>
    match m.deref current with
    | .ok c =>
      match c.Left with
      | none => .ok current
      | some l => TreeMap.leftmost m fuel l
    | .out_of_range => .out_of_range
    | .undefined => .undefined

/-- The loop `while (node->Right != nullptr) node = node->Right` of `operator--`. -/
def TreeMap.rightmost (m : TreeMap K V) : Nat → Nat → Res Nat
  | 0, _ => .undefined
  | fuel + 1, node =>
    match m.deref node with
    | .ok c =>
      match c.Right with
      | none => .ok node
      | some r => TreeMap.rightmost m fuel r
    | .out_of_range => .out_of_range
    | .undefined => .undefined

/-- The loop of source `findNode`, bounded by `fuel` passes. -/
def TreeMap.findNodeFrom [LinearOrder K] (m : TreeMap K V) (key : K) :
    Nat → Option Nat → Res (Option Nat)
  | _, none => .ok none
  | 0, some _ => .undefined
  | fuel + 1, some current =>
    match m.deref current with
    | .ok c =>
      if key > c.key then TreeMap.findNodeFrom m key fuel c.Right
      else if key < c.key then TreeMap.findNodeFrom m key fuel c.Left
      else .ok (some current)
    | .out_of_range => .out_of_range
    | .undefined => .undefined

/-- Source `findNode`.  A descent that visits more nodes than the store holds has
entered a cycle and never ends. -/
def TreeMap.findNode [LinearOrder K] (m : TreeMap K V) (key : K) : Res (Option Nat) :=
  m.findNodeFrom key m.nodes.length m.Head

/-- Source `findLowNode`. -/
def TreeMap.findLowNode (m : TreeMap K V) : Option Nat → Res (Option Nat)
  | none => .ok none
  | some current => do
    let low ← m.leftmost m.nodes.length current
    pure (some low)

/-- Source `operator[]`: the new state and the node whose `Data.second` is returned by reference. -/
def TreeMap.index [LinearOrder K] [Inhabited V] (m : TreeMap K V) (key : K) :
    Res (TreeMap K V × Nat) := do
  let found ← m.findNode key
  match found with
  | some current => do
    let _ ← m.deref current
    pure (m, current)
  | none => do
    let current := m.nodes.length
    let m1 ← m.insert key default
    let _ ← m1.deref current
    pure (m1, current)

/-- Source `valueOf` (both overloads): the value the returned reference points to. -/
def TreeMap.valueOf [LinearOrder K] (m : TreeMap K V) (key : K) : Res V := do
  let found ← m.findNode key
  match found with
  | none => Res.out_of_range
  | some current => do
    let c ← m.deref current
    pure c.val

/-- The statement `if (old->Parent->Left == old) old->Parent->Left = repl; else
old->Parent->Right = repl;` guarded by `old->Parent != nullptr`, with `Head = repl` otherwise:
the relinking of the parent that every branch of `remove(Node*)` performs. -/
def TreeMap.replaceInParent (m : TreeMap K V) (old : Nat) (repl : Option Nat) :
    Res (TreeMap K V) := do
  let o ← m.deref old
  match o.Parent with
  | some p => do
    let pn ← m.deref p
    if pn.Left = some old then m.assign p (fun n => { n with Left := repl })
    else m.assign p (fun n => { n with Right := repl })
  | none => pure { m with Head := repl }

/-- The `size_type` decrement `count--`. -/
def decrCount (count : Nat) : Nat :=
  if count = 0 then 18446744073709551615 else count - 1

/-- The `if` / `else if` chain of source `remove(Node* old)`: the four ways in which `old`
is taken out of the links of the tree. -/
def TreeMap.unlink (m : TreeMap K V) (old : Nat) : Res (TreeMap K V) := do
  let o ← m.deref old
  if o.Left = none ∧ o.Right = none then
    m.replaceInParent old none
  else if o.Left = none then do
    let m1 ← m.replaceInParent old o.Right
    let o1 ← m1.deref old
    let r ← Res.ofPtr o1.Right
    m1.assign r (fun n => { n with Parent := o1.Parent })
  else if o.Right = none then do
    let m1 ← m.replaceInParent old o.Left
    let o1 ← m1.deref old
    let l ← Res.ofPtr o1.Left
    m1.assign l (fun n => { n with Parent := o1.Parent })
  else do
    let start ← Res.ofPtr o.Right
    let current ← m.leftmost m.nodes.length start
    let c ← m.deref current
    let cp ← Res.ofPtr c.Parent
    let m1 ← m.assign cp (fun n => { n with Left := c.Right })
    let c1 ← m1.deref current
    let m2 ← if c1.Right ≠ none then m1.assign current (fun n => { n with Right := c1.Parent })
      else pure m1
    let m3 ← m2.replaceInParent old (some current)
    let o3 ← m3.deref old
    let m4 ← m3.assign current (fun n => { n with Parent := o3.Parent })
    let o4 ← m4.deref old
    let m5 ← m4.assign current (fun n => { n with Left := o4.Left })
    let c5 ← m5.deref current
    let l ← Res.ofPtr c5.Left
    m5.assign l (fun n => { n with Parent := some current })

/-- The end of source `remove(Node* old)`: `count--; old->Left = nullptr;
old->Right = nullptr; delete old;`. -/
def TreeMap.dispose (m : TreeMap K V) (old : Nat) : Res (TreeMap K V) := do
  let m2 := { m with count := decrCount m.count }
  let m3 ← m2.assign old (fun n => { n with Left := none })
  let m4 ← m3.assign old (fun n => { n with Right := none })
  pure { m4 with nodes := m4.nodes.set old none }

/-- Source `remove(Node* old)`. -/
def TreeMap.removeNode (m : TreeMap K V) (old : Nat) : Res (TreeMap K V) := do
  let m1 ← m.unlink old
  m1.dispose old

/-- Source `remove(const key_type& key)`. -/
def TreeMap.remove [LinearOrder K] (m : TreeMap K V) (key : K) : Res (TreeMap K V) := do
  let found ← m.findNode key
  match found with
  | none => Res.out_of_range
  | some current => m.removeNode current

/-- What a call of a public member function leaves behind: the container after a normal
return, the container as it is at the moment a `std::out_of_range` leaves the call, or nothing
defined. -/
inductive Outcome (K V : Type) where
  /-- Normal return, with the container after the call. -/
  | returned (m : TreeMap K V)
  /-- A `std::out_of_range` leaves the call; `m` is the container at the `throw`. -/
  | thrown (m : TreeMap K V)
  /-- A null or freed node is dereferenced, or a loop exceeds its bound. -/
  | undefined
deriving DecidableEq

/-- Forgetting the container that a `throw` leaves behind. -/
def Outcome.toRes : Outcome K V → Res (TreeMap K V)
  | .returned m => .ok m
  | .thrown _ => .out_of_range
  | .undefined => .undefined

/-- The outcome of a call that ends with the run `r` of a function without a `throw`
statement (`remove(Node*)`): an exception cannot come out of it. -/
def Outcome.ofRes : Res (TreeMap K V) → Outcome K V
  | .ok m => .returned m
  | .out_of_range => .undefined
  | .undefined => .undefined

/-- Source `remove(const key_type& key)` with the container carried through the `throw`:
`findNode` only reads, so the container at `throw std::out_of_range("remove")` is the one the
call started with. -/
def TreeMap.removeCall [LinearOrder K] (m : TreeMap K V) (key : K) : Outcome K V :=
  match m.findNode key with
  | .ok none => .thrown m
  | .ok (some current) => Outcome.ofRes (m.removeNode current)
  | .out_of_range => .undefined
  | .undefined => .undefined

/-- A cursor: the container it belongs to (by identity) and the node it is positioned at;
`node = none` is the end position. -/
structure ConstIterator where
  tree : Option Nat
  node : Option Nat
deriving DecidableEq

/-- Source `cbegin` / `begin` of the container whose identity is `self`. -/
def TreeMap.cbegin (m : TreeMap K V) (self : Nat) : Res ConstIterator := do
  let low ← m.findLowNode m.Head
  pure ⟨some self, low⟩

/-- Source `cend` / `end` (named `cend` here, `end` being reserved). -/
def TreeMap.cend (_m : TreeMap K V) (self : Nat) : ConstIterator := ⟨some self, none⟩

/-- Source `ConstIterator::operator*`; `m` is the container the cursor points into. -/
def ConstIterator.get (m : TreeMap K V) (it : ConstIterator) : Res (K × V) :=
  match it.node with
  | none => .out_of_range
  | some node => do
    let n ← m.deref node
    pure (n.key, n.val)

/-- The upward `while (true)` loop of `operator++`. -/
def TreeMap.climbNext (m : TreeMap K V) : Nat → Nat → Res (Option Nat)
  | 0, _ => .undefined
  | fuel + 1, node =>
    match m.deref node with
    | .ok n =>
      match n.Parent with
      | none => .ok none
      | some p =>
        match m.deref p with
        | .ok pn => if pn.Left = some node then .ok (some p) else TreeMap.climbNext m fuel p
        | .out_of_range => .out_of_range
        | .undefined => .undefined
    | .out_of_range => .out_of_range
    | .undefined => .undefined

/-- The upward `while (true)` loop of `operator--`. -/
def TreeMap.climbPrev (m : TreeMap K V) : Nat → Nat → Res Nat
  | 0, _ => .undefined
  | fuel + 1, node =>
    match m.deref node with
    | .ok n =>
      match n.Parent with
      | none => .out_of_range
      | some p =>
        match m.deref p with
        | .ok pn => if pn.Right = some node then .ok p else TreeMap.climbPrev m fuel p
        | .out_of_range => .out_of_range
        | .undefined => .undefined
    | .out_of_range => .out_of_range
    | .undefined => .undefined

/-- Source `ConstIterator::operator++`; `m` is the container `it.tree` points to. -/
def ConstIterator.incr (m : TreeMap K V) (it : ConstIterator) : Res ConstIterator :=
  match it.tree, it.node with
  | none, _ => .out_of_range
  | some _, none => .out_of_range
  | some _, some node => do
    let n ← m.deref node
    match n.Right with
    | some r => do
      let low ← m.leftmost m.nodes.length r
      pure { it with node := some low }
    | none => do
      let up ← m.climbNext m.nodes.length node
      pure { it with node := up }

/-- Source `ConstIterator::operator--`; `m` is the container `it.tree` points to. -/
def ConstIterator.decr (m : TreeMap K V) (it : ConstIterator) : Res ConstIterator :=
  match it.tree, m.Head with
  | none, _ => .out_of_range
  | some _, none => .out_of_range
  | some _, some head =>
    match it.node with
    | none => do
      let high ← m.rightmost m.nodes.length head
      pure { it with node := some high }
    | some node => do
      let n ← m.deref node
      match n.Left with
      | some l => do
        let high ← m.rightmost m.nodes.length l
        pure { it with node := some high }
      | none => do
        let up ← m.climbPrev m.nodes.length node
        pure { it with node := some up }

/-- Source `remove(const const_iterator& it)`.  The key `it->first` is read through
`operator*` in the container `pointee` that the cursor points into (`m` itself for a cursor of
this container); then come `findNode`, the identity check and `remove(current)`. -/
def TreeMap.removeAt [LinearOrder K] (m : TreeMap K V) (self : Nat) (pointee : TreeMap K V)
    (it : ConstIterator) : Res (TreeMap K V) := do
  let d ← it.get pointee
  let current ← m.findNode d.1
  if some self ≠ it.tree ∨ current ≠ it.node ∨ current = none then Res.out_of_range
  else do
    let c ← Res.ofPtr current
    m.removeNode c

/-- Source `remove(const const_iterator& it)` with the container carried through the `throw`:
`operator*` and `findNode` only read, so both at the `std::out_of_range("operator*")` of an
end cursor and at `throw std::out_of_range("remove")` the container is the one the call
started with. -/
def TreeMap.removeAtCall [LinearOrder K] (m : TreeMap K V) (self : Nat) (pointee : TreeMap K V)
    (it : ConstIterator) : Outcome K V :=
  match it.get pointee with
  | .ok d =>
    match m.findNode d.1 with
    | .ok current =>
      if some self ≠ it.tree ∨ current ≠ it.node ∨ current = none then .thrown m
      else
        match current with
        | some c => Outcome.ofRes (m.removeNode c)
        | none => .undefined
    | .out_of_range => .undefined
    | .undefined => .undefined
  | .out_of_range => .thrown m
  | .undefined => .undefined

/-- The loop `for (it = ...; it != end(); ++it)` collecting `*it`, as in the copy constructor. -/
def TreeMap.collect (m : TreeMap K V) (stop : ConstIterator) :
    Nat → ConstIterator → Res (List (K × V))
  | 0, _ => .undefined
  | fuel + 1, it =>
    if it = stop then .ok []
    else
      match it.get m with
      | .ok d =>
        match it.incr m with
        | .ok next =>
          match TreeMap.collect m stop fuel next with
          | .ok rest => .ok (d :: rest)
          | .out_of_range => .out_of_range
          | .undefined => .undefined
        | .out_of_range => .out_of_range
        | .undefined => .undefined
      | .out_of_range => .out_of_range
      | .undefined => .undefined

/-- Forward traversal: the entries visited from `begin()` up to `end()`. -/
def TreeMap.traverse (m : TreeMap K V) (self : Nat) : Res (List (K × V)) := do
  let it ← m.cbegin self
  m.collect (m.cend self) (m.nodes.length + 1) it

/-- Stepping back with `--it` and reading `*it` until the cursor equals `first`. -/
def TreeMap.collectBack (m : TreeMap K V) (first : ConstIterator) :
    Nat → ConstIterator → Res (List (K × V))
  | 0, _ => .undefined
  | fuel + 1, it =>
    match it.decr m with
    | .ok prev =>
      match prev.get m with
      | .ok d =>
        if prev = first then .ok [d]
        else
          match TreeMap.collectBack m first fuel prev with
          | .ok rest => .ok (d :: rest)
          | .out_of_range => .out_of_range
          | .undefined => .undefined
      | .out_of_range => .out_of_range
      | .undefined => .undefined
    | .out_of_range => .out_of_range
    | .undefined => .undefined

/-- Backward traversal: the entries visited by decrementing from `end()` down to `begin()`. -/
def TreeMap.traverseBack (m : TreeMap K V) (self : Nat) : Res (List (K × V)) := do
  let first ← m.cbegin self
  m.collectBack first (m.nodes.length + 1) (m.cend self)

/-- The `for` loop of source `operator==`. -/
def TreeMap.equalsLoop [DecidableEq K] [DecidableEq V] (m other : TreeMap K V)
    (stop : ConstIterator) : Nat → ConstIterator → ConstIterator → Res Bool
  | 0, _, _ => .undefined
  | fuel + 1, it, it2 =>
    if it = stop then .ok true
    else
      match it.get m, it2.get other with
      | .ok d, .ok d2 =>
        if d ≠ d2 then .ok false
        else
          match it.incr m, it2.incr other with
          | .ok next, .ok next2 => TreeMap.equalsLoop m other stop fuel next next2
          | .ok _, .out_of_range => .out_of_range
          | .ok _, .undefined => .undefined
          | .out_of_range, _ => .out_of_range
          | .undefined, _ => .undefined
      | .ok _, .out_of_range => .out_of_range
      | .ok _, .undefined => .undefined
      | .out_of_range, _ => .out_of_range
      | .undefined, _ => .undefined

/-- Source `operator==` between the containers with identities `self` and `otherSelf`. -/
def TreeMap.equals [DecidableEq K] [DecidableEq V] (m : TreeMap K V) (self : Nat)
    (other : TreeMap K V) (otherSelf : Nat) : Res Bool :=
  if m.count ≠ other.count then .ok false
  else do
    let it ← m.cbegin self
    let it2 ← other.cbegin otherSelf
    m.equalsLoop other (m.cend self) (m.nodes.length + 1) it it2

/-- The states reached from the empty map by insertions (whatever number of passes the repair
loop needs to finish) and by removals, by key, of nodes that have at most one child. -/
inductive Reach1 [LinearOrder K] : TreeMap K V → Prop where
  | empty : Reach1 TreeMap.empty
  | insert {m m1 : TreeMap K V} (fuel : Nat) (k : K) (v : V) :
    Reach1 m → m.insertWith fuel k v = .ok m1 → Reach1 m1
  | remove {m m1 : TreeMap K V} (k : K) (p : Nat) (n : Node K V) :
    Reach1 m → m.findNode k = .ok (some p) → m.cell p = some n →
    (n.Left = none ∨ n.Right = none) → m.remove k = .ok m1 → Reach1 m1

/-- One call made by a client of the container: `insert(new Node(key, val))` or `remove(key)`. -/
inductive Op (K V : Type) where
  | insert (key : K) (val : V)
  | remove (key : K)
deriving DecidableEq

/-- A client that starts from the state `m` and makes the calls of `ops` in order.  It catches
the `out_of_range` of a `remove` that fails and goes on with the container as the failed call
left it. -/
def TreeMap.runOps [LinearOrder K] : TreeMap K V → List (Op K V) → Res (TreeMap K V)
  | m, [] => .ok m
  | m, .insert key val :: rest =>
    match m.insert key val with
    | .ok m1 => TreeMap.runOps m1 rest
    | .out_of_range => .out_of_range
    | .undefined => .undefined
  | m, .remove key :: rest =>
    match m.removeCall key with
    | .returned m1 => TreeMap.runOps m1 rest
    | .thrown m1 => TreeMap.runOps m1 rest
    | .undefined => .undefined

/-- The number of cells of the store that hold a node: allocated and not yet deleted. -/
def TreeMap.live (m : TreeMap K V) : Nat :=
  (m.nodes.map Option.isSome).count true

/-- The nodes of the tree: what `Head` points to and, step by step, the children of nodes. -/
inductive TreeMap.Reaches (m : TreeMap K V) : Nat → Prop where
  | head {p : Nat} : m.Head = some p → TreeMap.Reaches m p
  | left {q p : Nat} {n : Node K V} :
    TreeMap.Reaches m q → m.cell q = some n → n.Left = some p → TreeMap.Reaches m p
  | right {q p : Nat} {n : Node K V} :
    TreeMap.Reaches m q → m.cell q = some n → n.Right = some p → TreeMap.Reaches m p

/-- The actual height of the subtree below a link, followed for at most `fuel` levels:
0 for `nullptr`, 1 for a node without children. -/
def TreeMap.heightFrom (m : TreeMap K V) : Nat → Option Nat → Nat
  | 0, _ => 0
  | _ + 1, none => 0
  | fuel + 1, some p =>
    match m.cell p with
    | none => 0
    | some n => max (TreeMap.heightFrom m fuel n.Left) (TreeMap.heightFrom m fuel n.Right) + 1

/-- The actual height of the subtree below a link; no path is longer than the store. -/
def TreeMap.subtreeHeight (m : TreeMap K V) (p : Option Nat) : Nat :=
  m.heightFrom m.nodes.length p


/-! ## Abstract view of a well-formed store

A `Tr` is the tree that a part of the store spells out: each node carries its
address and the key, value and cached height of its cell.  `Rep` says that the
cells of the store are linked exactly as the tree is, parent links included. -/

/-- The tree of cells reachable from one node through `Left` and `Right`. -/
inductive Tr (K V : Type) where
  | nil
  | node (l : Tr K V) (a : Nat) (k : K) (v : V) (h : Int) (r : Tr K V)

/-- The pointer to the root of a tree: `nullptr` for the empty tree. -/
def Tr.root : Tr K V → Option Nat
  | .nil => none
  | .node _ a _ _ _ _ => some a

/-- The cached height at the root, as `getHeight` reads it. -/
def Tr.ht : Tr K V → Int
  | .nil => 0
  | .node _ _ _ _ h _ => h

/-- The actual height: 0 for the empty tree, 1 for a leaf. -/
def Tr.height : Tr K V → Nat
  | .nil => 0
  | .node l _ _ _ _ r => max l.height r.height + 1

/-- Number of nodes. -/
def Tr.size : Tr K V → Nat
  | .nil => 0
  | .node l _ _ _ _ r => l.size + 1 + r.size

/-- Addresses in in-order. -/
def Tr.addrs : Tr K V → List Nat
  | .nil => []
  | .node l a _ _ _ r => l.addrs ++ a :: r.addrs

/-- Entries in in-order. -/
def Tr.toList : Tr K V → List (K × V)
  | .nil => []
  | .node l _ k v _ r => l.toList ++ (k, v) :: r.toList

/-- Keys in in-order. -/
def Tr.keys : Tr K V → List K
  | .nil => []
  | .node l _ k _ _ r => l.keys ++ k :: r.keys

/-- The store `c` holds the tree `t` below a node (or root holder) `par`. -/
def Rep (c : Nat → Option (Node K V)) : Option Nat → Tr K V → Prop
  | _, .nil => True
  | par, .node l a k v h r =>
    c a = some ⟨k, v, l.root, r.root, par, h⟩ ∧ Rep c (some a) l ∧ Rep c (some a) r

/-- One step of a path from a node up to the root: the parent cell and the sibling subtree. -/
inductive Frame (K V : Type) where
  /-- The hole is the left child of `a`; `r` is the right subtree. -/
  | L (a : Nat) (k : K) (v : V) (h : Int) (r : Tr K V)
  /-- The hole is the right child of `a`; `l` is the left subtree. -/
  | R (l : Tr K V) (a : Nat) (k : K) (v : V) (h : Int)

/-- Address of the parent cell of a frame. -/
def Frame.addr : Frame K V → Nat
  | .L a _ _ _ _ => a
  | .R _ a _ _ _ => a

/-- The sibling subtree of a frame. -/
def Frame.sib : Frame K V → Tr K V
  | .L _ _ _ _ r => r
  | .R l _ _ _ _ => l

/-- Put a subtree into the hole of a frame. -/
def Frame.fill : Frame K V → Tr K V → Tr K V
  | .L a k v h r, t => .node t a k v h r
  | .R l a k v h, t => .node l a k v h t

/-- Put a subtree into the hole of a path (innermost frame first). -/
def plug (t : Tr K V) : List (Frame K V) → Tr K V
  | [] => t
  | f :: rest => plug (f.fill t) rest

/-- The parent pointer of the node in the hole. -/
def ctxPar : List (Frame K V) → Option Nat
  | [] => none
  | f :: _ => some f.addr

/-- The root pointer of the whole tree, given the root pointer of the hole. -/
def ctxRoot (ro : Option Nat) : List (Frame K V) → Option Nat
  | [] => ro
  | f :: rest => ctxRoot (some f.addr) rest

/-- All addresses on a path, siblings included. -/
def ctxAddrs : List (Frame K V) → List Nat
  | [] => []
  | f :: rest => f.addr :: f.sib.addrs ++ ctxAddrs rest

/-- The store `c` holds the path `ctx` around a hole whose root pointer is `ro`. -/
def RepCtx (c : Nat → Option (Node K V)) : Option Nat → List (Frame K V) → Prop
  | _, [] => True
  | ro, .L a k v h r :: rest =>
    c a = some ⟨k, v, ro, r.root, ctxPar rest, h⟩ ∧ Rep c (some a) r ∧ RepCtx c (some a) rest
  | ro, .R l a k v h :: rest =>
    c a = some ⟨k, v, l.root, ro, ctxPar rest, h⟩ ∧ Rep c (some a) l ∧ RepCtx c (some a) rest

/-- The container state `m` is the tree `plug t ctx`, viewed from the subtree `t`. -/
structure RepZ (m : TreeMap K V) (t : Tr K V) (ctx : List (Frame K V)) : Prop where
  head : m.Head = ctxRoot t.root ctx
  rep : Rep m.cell (ctxPar ctx) t
  repCtx : RepCtx m.cell t.root ctx
  nodup : (t.addrs ++ ctxAddrs ctx).Nodup

/-- A node with its cached height recomputed from its children, as `upgradeHeight` leaves it. -/
def Tr.mk (l : Tr K V) (a : Nat) (k : K) (v : V) (r : Tr K V) : Tr K V :=
  .node l a k v (max l.ht r.ht + 1) r

/-- The test of `isBalance` on the cached heights of two children. -/
def balTest (l r : Int) : Bool :=
  decide (l + 0 = 0 + r) || decide (l + 1 = 0 + r) || decide (l + 0 = 1 + r)

/-- The effect of `rebalance` on the subtree below `current`; `none` when the source
would follow a null link. -/
def Tr.rebalance : Tr K V → Option (Tr K V)
  | .nil => none
  | .node l a k v _ r =>
    if l.ht ≤ r.ht then
      match r with
      | .nil => none
      | .node rl b kb vb hb rr =>
        if rl.ht ≤ rr.ht then some (.node (Tr.mk l a k v rl) b kb vb hb rr)
        else
          match rl with
          | .nil => none
          | .node rll c kc vc _ rlr =>
            some (.node (Tr.mk l a k v rll) c kc vc
              (max rll.ht (Tr.mk rlr b kb vb rr).ht + 1) (Tr.mk rlr b kb vb rr))
    else
      match l with
      | .nil => none
      | .node ll b kb vb hb lr =>
        if ll.ht ≥ lr.ht then some (.node ll b kb vb hb (Tr.mk lr a k v r))
        else
          match lr with
          | .nil => none
          | .node lrl c kc vc _ lrr =>
            some (.node (Tr.mk ll b kb vb lrl) c kc vc
              (max (Tr.mk ll b kb vb lrl).ht lrr.ht + 1) (Tr.mk lrr a k v r))

/-- The effect of one pass of the loop of `repairsTree` on the tree, viewed from `current`:
the next view, or the finished tree once the root has been passed. -/
def stepZ : Tr K V → List (Frame K V) → Option (Tr K V × List (Frame K V) ⊕ Tr K V)
  | .nil, _ => none
  | .node l a k v h r, ctx =>
    if balTest l.ht r.ht then
      match ctx with
      | [] => some (.inr (Tr.mk l a k v r))
      | f :: rest => some (.inl (f.fill (Tr.mk l a k v r), rest))
    else
      match (Tr.node l a k v h r).rebalance with
      | some t1 => some (.inl (t1, ctx))
      | none => none

/-- The effect of `repairsTree` on the tree, bounded by `fuel` passes. -/
def loopZ : Nat → Tr K V → List (Frame K V) → Option (Tr K V)
  | 0, _, _ => none
  | fuel + 1, t, ctx =>
    match stepZ t ctx with
    | some (.inl (t1, ctx1)) => loopZ fuel t1 ctx1
    | some (.inr t1) => some t1
    | none => none

/-- A freshly linked node: no children, cached height 1. -/
def Tr.leaf (a : Nat) (k : K) (v : V) : Tr K V := .node .nil a k v 1 .nil

/-- Where the descent of `insert` ends, seen on the tree. -/
inductive Spot (K V : Type) where
  /-- The new node becomes the right child of `a`. -/
  | right (l : Tr K V) (a : Nat) (k : K) (v : V) (h : Int) (ctx : List (Frame K V))
  /-- The new node becomes the left child of `a`. -/
  | left (a : Nat) (k : K) (v : V) (h : Int) (r : Tr K V) (ctx : List (Frame K V))
  /-- The key is already in the tree. -/
  | present

/-- The slot that the descent of `insert` reports for a spot. -/
def Spot.slot : Spot K V → Slot
  | .right _ a _ _ _ _ => .right a
  | .left a _ _ _ _ _ => .left a
  | .present => .present

/-- The descent of `insert` on the tree. -/
def insZ [LinearOrder K] (key : K) : Tr K V → List (Frame K V) → Spot K V
  | .nil, _ => .present
  | .node l a k v h r, ctx =>
    if key > k then
      match r with
      | .nil => .right l a k v h ctx
      | .node _ _ _ _ _ _ => insZ key r (Frame.R l a k v h :: ctx)
    else if key < k then
      match l with
      | .nil => .left a k v h r ctx
      | .node _ _ _ _ _ _ => insZ key l (Frame.L a k v h r :: ctx)
    else .present

/-- The effect of `insert` on the tree; `new` is the address the new node gets. -/
def Tr.insert [LinearOrder K] (t : Tr K V) (fuel new : Nat) (key : K) (val : V) :
    Option (Tr K V) :=
  match t with
  | .nil => some (Tr.leaf new key val)
  | .node _ _ _ _ _ _ =>
    match insZ key t [] with
    | .present => some t
    | .right l a k v h ctx => loopZ fuel (.node l a k v h (Tr.leaf new key val)) ctx
    | .left a k v h r ctx => loopZ fuel (.node (Tr.leaf new key val) a k v h r) ctx

/-- Insertion into a list of entries sorted by key; an entry with the same key stays as it is. -/
def insL [LinearOrder K] (key : K) (val : V) : List (K × V) → List (K × V)
  | [] => [(key, val)]
  | (k, v) :: rest =>
    if key < k then (key, val) :: (k, v) :: rest
    else if k < key then (k, v) :: insL key val rest
    else (k, v) :: rest

/-- The sorted list of entries that inserting the pairs of `l` in order builds up from `acc`. -/
def buildL [LinearOrder K] : List (K × V) → List (K × V) → List (K × V)
  | acc, [] => acc
  | acc, (k, v) :: rest => buildL (insL k v acc) rest

/-- The entries around a hole, wrapped around the entries `mid` of the hole. -/
def wrap : List (Frame K V) → List (K × V) → List (K × V)
  | [], mid => mid
  | .L _ k v _ r :: rest, mid => wrap rest (mid ++ (k, v) :: r.toList)
  | .R l _ k v _ :: rest, mid => wrap rest (l.toList ++ (k, v) :: mid)

/-- Cached heights are exact and every node is balanced. -/
def Tr.Good : Tr K V → Prop
  | .nil => True
  | .node l _ _ _ h r =>
    l.Good ∧ r.Good ∧ h = max l.ht r.ht + 1 ∧ l.ht ≤ r.ht + 1 ∧ r.ht ≤ l.ht + 1

/-- The keys increase strictly from left to right. -/
def Tr.Bst [LinearOrder K] (t : Tr K V) : Prop :=
  (t.toList.map Prod.fst).Pairwise (· < ·)

/-- A path along which every sibling is good and every cached height fits a hole of height `h0`. -/
def CtxGood : Int → List (Frame K V) → Prop
  | _, [] => True
  | h0, .L _ _ _ h r :: rest =>
    r.Good ∧ h0 ≤ r.ht + 1 ∧ r.ht ≤ h0 + 1 ∧ h = max h0 r.ht + 1 ∧ CtxGood h rest
  | h0, .R l _ _ _ h :: rest =>
    l.Good ∧ h0 ≤ l.ht + 1 ∧ l.ht ≤ h0 + 1 ∧ h = max l.ht h0 + 1 ∧ CtxGood h rest

/-- Nodes in in-order, each with its address and entry. -/
def Tr.items : Tr K V → List (Nat × K × V)
  | .nil => []
  | .node l a k v _ r => l.items ++ (a, k, v) :: r.items

/-- The nodes that follow the hole of a path in in-order. -/
def afterI : List (Frame K V) → List (Nat × K × V)
  | [] => []
  | .L a k v _ r :: rest => (a, k, v) :: r.items ++ afterI rest
  | .R _ _ _ _ _ :: rest => afterI rest

/-- The nodes that precede the hole of a path, nearest first. -/
def beforeI : List (Frame K V) → List (Nat × K × V)
  | [] => []
  | .L _ _ _ _ _ :: rest => beforeI rest
  | .R l a k v _ :: rest => (a, k, v) :: l.items.reverse ++ beforeI rest

/-- The cursor position `nx` has exactly the nodes `A` from itself to the end. -/
def Fwd (m : TreeMap K V) : Option Nat → List (Nat × K × V) → Prop
  | none, A => A = []
  | some a, A => ∃ l k v h r ctx, RepZ m (.node l a k v h r) ctx ∧
      A = (a, k, v) :: r.items ++ afterI ctx

/-- The cursor position `a` has exactly the nodes `B` from itself back to the first. -/
def Bwd (m : TreeMap K V) (a : Nat) (B : List (Nat × K × V)) : Prop :=
  ∃ l k v h r ctx, RepZ m (.node l a k v h r) ctx ∧
    B = (a, k, v) :: l.items.reverse ++ beforeI ctx

/-- The descent of `findNode` on the tree: address and value of the node it stops at. -/
def Tr.find [LinearOrder K] (key : K) : Tr K V → Option (Nat × V)
  | .nil => none
  | .node l a k v _ r =>
    if key > k then r.find key
    else if key < k then l.find key
    else some (a, v)

/-- The value of the first pair with the given key in a list of pairs. -/
def lookupL [DecidableEq K] (key : K) : List (K × V) → Option V
  | [] => none
  | (k, v) :: rest => if k = key then some v else lookupL key rest

/-- The only child of a node with at most one child (empty for a leaf). -/
def Tr.orElse (l r : Tr K V) : Tr K V :=
  match l with
  | .nil => r
  | .node _ _ _ _ _ _ => l

/-- Every cached height is at least 1, as the constructor and `upgradeHeight` leave it. -/
def Tr.Pos : Tr K V → Prop
  | .nil => True
  | .node l _ _ _ h r => l.Pos ∧ r.Pos ∧ 1 ≤ h

/-- The state invariant that insertions and removals of nodes with at most one child keep:
the store spells out a search tree, `count` is its size, cached heights are positive (they
need be neither exact nor balanced). -/
structure Sane [LinearOrder K] (m : TreeMap K V) (t : Tr K V) : Prop where
  rep : RepZ m t []
  count : m.count = t.size
  bst : t.Bst
  pos : t.Pos

/-- The loop invariant of `repairsTree` during an insertion: the children of the focused node
are good, and the subtree is as high as before the insertion (`h0`) or one higher; when it is
out of balance, it is so by exactly two and is one higher. -/
def Inv (h0 : Int) (l r : Tr K V) : Prop :=
  l.Good ∧ r.Good ∧
    ((l.ht ≤ r.ht + 1 ∧ r.ht ≤ l.ht + 1 ∧ h0 ≤ max l.ht r.ht + 1 ∧ max l.ht r.ht ≤ h0) ∨
     ((l.ht = r.ht + 2 ∨ r.ht = l.ht + 2) ∧ max l.ht r.ht = h0))

/-- The state after inserting the keys 1, 2, 3 in this order (one left rotation):
root 2 at address 1, children 1 and 3. -/
def map123 : TreeMap Nat Nat :=
  ⟨[some ⟨1, 10, none, none, some 1, 1⟩, some ⟨2, 20, some 0, some 2, none, 2⟩,
    some ⟨3, 30, none, none, some 1, 1⟩], some 1, 3⟩

/-- The state after removing key 1 from `map123`: root 2 with the single child 3. -/
def map23 : TreeMap Nat Nat :=
  ⟨[none, some ⟨2, 20, none, some 2, none, 2⟩, some ⟨3, 30, none, none, some 1, 1⟩], some 1, 2⟩

/-- The state after inserting the keys 5, 3, 8, 1, 4, 7, 9 in this order: no rotation happens,
the node of the i-th key inserted sits at address i - 1. -/
def map7 : TreeMap Nat Nat :=
  ⟨[some ⟨5, 50, some 1, some 2, none, 3⟩, some ⟨3, 30, some 3, some 4, some 0, 2⟩,
    some ⟨8, 80, some 5, some 6, some 0, 2⟩, some ⟨1, 10, none, none, some 1, 1⟩,
    some ⟨4, 40, none, none, some 1, 1⟩, some ⟨7, 70, none, none, some 2, 1⟩,
    some ⟨9, 90, none, none, some 2, 1⟩], some 0, 7⟩

/-- What `remove(5)` makes of `map7`: the root is the node 7 (address 5) with left child 3
and no right child; the node 8 (address 2) has lost its left child and still names the freed
cell 0 as its parent. -/
def map7Removed5 : TreeMap Nat Nat :=
  ⟨[none, some ⟨3, 30, some 3, some 4, some 5, 2⟩,
    some ⟨8, 80, none, some 6, some 0, 2⟩, some ⟨1, 10, none, none, some 1, 1⟩,
    some ⟨4, 40, none, none, some 1, 1⟩, some ⟨7, 70, some 1, none, none, 1⟩,
    some ⟨9, 90, none, none, some 2, 1⟩], some 5, 6⟩

/-- The least number of nodes of a tree of height `h` that is balanced at every node:
`N(0) = 0`, `N(1) = 1`, `N(h) = N(h-1) + N(h-2) + 1`. -/
def minNodes : Nat → Nat
  | 0 => 0
  | 1 => 1
  | h + 2 => minNodes (h + 1) + minNodes h + 1

/-- The step from `m` to `m1` changed neither `count` nor which cells of the store are live. -/
def Keeps (m m1 : TreeMap K V) : Prop :=
  m1.count = m.count ∧ m1.nodes.map Option.isSome = m.nodes.map Option.isSome

/-- The state after inserting the keys 1, 2 and then removing 2: the node 1 is alone, its
cached height is still 2. -/
def map1Stale : TreeMap Nat Nat :=
  ⟨[some ⟨1, 10, none, none, none, 2⟩, none], some 0, 1⟩

/-- The state after inserting the keys 5, 2, 8, 1, 3, 9, 0, removing the leaf 3 and inserting 7:
the node 2 (address 1) has the left child 1, below which 0 hangs, and no right child. -/
def mapLeaning : TreeMap Nat Nat :=
  ⟨[some ⟨5, 50, some 1, some 2, none, 4⟩, some ⟨2, 20, some 3, none, some 0, 3⟩,
    some ⟨8, 80, some 7, some 5, some 0, 2⟩, some ⟨1, 10, some 6, none, some 1, 2⟩,
    none, some ⟨9, 90, none, none, some 2, 1⟩, some ⟨0, 0, none, none, some 3, 1⟩,
    some ⟨7, 70, none, none, some 2, 1⟩], some 0, 7⟩

/-- The state after inserting the keys 3, 1, 2 in this order (a left rotation at 1, then a
right rotation at 3): root 2 at address 2, children 1 and 3. -/
def map312 : TreeMap Nat Nat :=
  ⟨[some ⟨3, 30, none, none, some 2, 1⟩, some ⟨1, 10, none, none, some 2, 1⟩,
    some ⟨2, 20, some 1, some 0, none, 2⟩], some 2, 3⟩

/-- A state in the middle of the insertion of 3 after 1 and 2: the chain 1, 2, 3 of right
children, after the repair loop has passed the node 2 and before it visits the root 1
(address 0), which is out of balance. -/
def mapChain : TreeMap Nat Nat :=
  ⟨[some ⟨1, 10, none, some 1, none, 2⟩, some ⟨2, 20, none, some 2, some 0, 2⟩,
    some ⟨3, 30, none, none, some 1, 1⟩], some 0, 3⟩

/-- The size invariant of the specification read on the keys alone, with no tree: starting
from the keys `present`, an insertion counts as fresh when its key is not present (and makes it
present), a removal counts when its key is present (and takes it out).  The result is the pair
of the number of fresh insertions and the number of removals that did not fail. -/
def specTally [DecidableEq K] : List K → Nat → Nat → List (Op K V) → Nat × Nat
  | _, fresh, removed, [] => (fresh, removed)
  | present, fresh, removed, .insert key _ :: rest =>
    if key ∈ present then specTally present fresh removed rest
    else specTally (key :: present) (fresh + 1) removed rest
  | present, fresh, removed, .remove key :: rest =>
    if key ∈ present then specTally (present.erase key) fresh (removed + 1) rest
    else specTally present fresh removed rest

/-- What a second `insert` of key 8 makes of `map7Removed5`: the key is not met on the way
down, so a new node 8 (address 7) is linked below the root 7 and `count` becomes 7; the first
node 8 (address 2) and the node 9 are still in the store, out of reach. -/
def map7Reinserted8 : TreeMap Nat Nat :=
  ⟨[none, some ⟨3, 30, some 3, some 4, some 5, 2⟩,
    some ⟨8, 80, none, some 6, some 0, 2⟩, some ⟨1, 10, none, none, some 1, 1⟩,
    some ⟨4, 40, none, none, some 1, 1⟩, some ⟨7, 70, some 1, some 7, none, 3⟩,
    some ⟨9, 90, none, none, some 2, 1⟩, some ⟨8, 88, none, none, some 5, 1⟩], some 5, 7⟩

/-- The state invariant of a map that was built by insertions: the store spells out a
search tree with exact cached heights, balanced at every node, and `count` is its size. -/
structure Valid [LinearOrder K] (m : TreeMap K V) (t : Tr K V) : Prop where
  rep : RepZ m t []
  count : m.count = t.size
  good : t.Good
  bst : t.Bst


/-! ## Store lemmas -/

@[simp] theorem Res.bind_ok {α β : Type} (a : α) (f : α → Res β) : (Res.ok a >>= f) = f a := rfl

@[simp] theorem Res.bind_undefined {α β : Type} (f : α → Res β) :
    ((Res.undefined : Res α) >>= f) = Res.undefined := rfl

@[simp] theorem Res.bind_out_of_range {α β : Type} (f : α → Res β) :
    ((Res.out_of_range : Res α) >>= f) = Res.out_of_range := rfl

@[simp] theorem Res.pure_eq {α : Type} (a : α) : (pure a : Res α) = Res.ok a := rfl

theorem TreeMap.cell_lt {m : TreeMap K V} {p : Nat} {n : Node K V} (h : m.cell p = some n) :
    p < m.nodes.length := by
  unfold TreeMap.cell at h
  by_contra hc
  rw [List.get?_eq_none.mpr (not_lt.mp hc)] at h
  simp at h

theorem TreeMap.cell_put (m : TreeMap K V) (p : Nat) (n : Node K V) (hp : p < m.nodes.length) :
    (m.put p n).cell = Function.update m.cell p (some n) := by
  funext x
  unfold TreeMap.cell TreeMap.put
  by_cases hx : x = p
  · subst hx
    simp [List.get?_eq_getElem?, List.getElem?_set, hp]
  · simp [List.get?_eq_getElem?, List.getElem?_set, hx, Ne.symm hx]

/-- What a successful field assignment does to the store. -/
theorem TreeMap.assign_spec (m : TreeMap K V) (p : Nat) (f : Node K V → Node K V) (n : Node K V)
    (h : m.cell p = some n) :
    ∃ m1, m.assign p f = .ok m1 ∧ m1.cell = Function.update m.cell p (some (f n)) ∧
      m1.Head = m.Head ∧ m1.count = m.count ∧ m1.nodes.length = m.nodes.length := by
  refine ⟨m.put p (f n), ?_, ?_, rfl, rfl, ?_⟩
  · simp [TreeMap.assign, h]
  · exact TreeMap.cell_put m p (f n) (TreeMap.cell_lt h)
  · simp [TreeMap.put]

theorem TreeMap.deref_eq {m : TreeMap K V} {p : Nat} {n : Node K V} (h : m.cell p = some n) :
    m.deref p = .ok n := by
  simp [TreeMap.deref, h]

theorem TreeMap.cell_link (m : TreeMap K V) (k : K) (v : V) (par : Option Nat) (x : Nat) :
    (m.link k v par).cell x =
      if x = m.nodes.length then some ⟨k, v, none, none, par, 1⟩ else m.cell x := by
  unfold TreeMap.cell TreeMap.link
  by_cases hx : x = m.nodes.length
  · subst hx; simp [List.get?_eq_getElem?]
  · rcases Nat.lt_or_gt_of_ne hx with h | h
    · simp [List.get?_eq_getElem?, List.getElem?_append_left h, hx]
    · have h1 : m.nodes.length + 1 ≤ x := h
      simp [List.get?_eq_getElem?, hx, List.getElem?_eq_none, h1, le_of_lt h]

/-! ## Representation lemmas -/

theorem Tr.root_node (l r : Tr K V) (a : Nat) (k : K) (v : V) (h : Int) :
    (Tr.node l a k v h r).root = some a := rfl

theorem Tr.ht_nil : (Tr.nil : Tr K V).ht = 0 := rfl

theorem Tr.ht_node (l r : Tr K V) (a : Nat) (k : K) (v : V) (h : Int) :
    (Tr.node l a k v h r).ht = h := rfl

theorem Tr.ht_mk (l r : Tr K V) (a : Nat) (k : K) (v : V) :
    (Tr.mk l a k v r).ht = max l.ht r.ht + 1 := rfl

theorem Tr.root_mem_addrs {t : Tr K V} {a : Nat} (h : t.root = some a) : a ∈ t.addrs := by
  cases t with
  | nil => simp [Tr.root] at h
  | node l b k v hh r =>
    simp only [Tr.root, Option.some.injEq] at h
    subst h
    simp [Tr.addrs]

/-- Cells outside a tree do not matter for its representation. -/
theorem Rep.frame {c c1 : Nat → Option (Node K V)} {par : Option Nat} {t : Tr K V}
    (h : Rep c par t) (hc : ∀ x ∈ t.addrs, c1 x = c x) : Rep c1 par t := by
  induction t generalizing par with
  | nil => trivial
  | node l a k v hh r ihl ihr =>
    obtain ⟨h1, h2, h3⟩ := h
    refine ⟨?_, ihl h2 ?_, ihr h3 ?_⟩
    · rw [hc a (by simp [Tr.addrs])]; exact h1
    · intro x hx; exact hc x (by simp [Tr.addrs, hx])
    · intro x hx; exact hc x (by simp [Tr.addrs, hx])

/-- Changing only the parent link of the root cell re-hangs a tree below another parent. -/
theorem Rep.rehang {c c1 : Nat → Option (Node K V)} {par par1 : Option Nat} {t : Tr K V}
    (h : Rep c par t) (hnd : t.addrs.Nodup)
    (hroot : ∀ a, t.root = some a → c1 a = (c a).map (fun n => { n with Parent := par1 }))
    (hc : ∀ x ∈ t.addrs, t.root ≠ some x → c1 x = c x) : Rep c1 par1 t := by
  cases t with
  | nil => trivial
  | node l a k v hh r =>
    obtain ⟨h1, h2, h3⟩ := h
    simp only [Tr.addrs, List.nodup_append, List.nodup_cons] at hnd
    obtain ⟨hl, ⟨har, hr⟩, hdis⟩ := hnd
    have hal : a ∉ l.addrs := fun hx => hdis hx (by simp)
    refine ⟨?_, h2.frame ?_, h3.frame ?_⟩
    · rw [hroot a rfl, h1]; rfl
    · intro x hx
      exact hc x (by simp [Tr.addrs, hx]) (by
        simp only [Tr.root, ne_eq, Option.some.injEq]
        rintro rfl; exact hal hx)
    · intro x hx
      exact hc x (by simp [Tr.addrs, hx]) (by
        simp only [Tr.root, ne_eq, Option.some.injEq]
        rintro rfl; exact har hx)

/-- Cells outside a path do not matter for its representation. -/
theorem RepCtx.frame_ctx {c c1 : Nat → Option (Node K V)} {ro : Option Nat} {ctx : List (Frame K V)}
    (h : RepCtx c ro ctx) (hc : ∀ x ∈ ctxAddrs ctx, c1 x = c x) : RepCtx c1 ro ctx := by
  induction ctx generalizing ro with
  | nil => trivial
  | cons f rest ih =>
    cases f with
    | L a k v hh r =>
      obtain ⟨h1, h2, h3⟩ := h
      refine ⟨?_, h2.frame ?_, ih h3 ?_⟩
      · rw [hc a (by simp [ctxAddrs, Frame.addr])]; exact h1
      · intro x hx; exact hc x (by simp [ctxAddrs, Frame.sib, hx])
      · intro x hx; exact hc x (by simp [ctxAddrs, hx])
    | R l a k v hh =>
      obtain ⟨h1, h2, h3⟩ := h
      refine ⟨?_, h2.frame ?_, ih h3 ?_⟩
      · rw [hc a (by simp [ctxAddrs, Frame.addr])]; exact h1
      · intro x hx; exact hc x (by simp [ctxAddrs, Frame.sib, hx])
      · intro x hx; exact hc x (by simp [ctxAddrs, hx])

/-- The cached height read through a root pointer. -/
theorem getHeight_rep {m : TreeMap K V} {par : Option Nat} {t : Tr K V}
    (h : Rep m.cell par t) : m.getHeight t.root = .ok t.ht := by
  cases t with
  | nil => rfl
  | node l a k v hh r =>
    obtain ⟨h1, -, -⟩ := h
    simp [TreeMap.getHeight, Tr.root, Tr.ht, TreeMap.deref_eq h1]

theorem maxHeight_rep {m : TreeMap K V} {p1 p2 : Option Nat} {l r : Tr K V}
    (hl : Rep m.cell p1 l) (hr : Rep m.cell p2 r) :
    m.maxHeight l.root r.root = .ok (max l.ht r.ht) := by
  simp only [TreeMap.maxHeight, getHeight_rep hl, getHeight_rep hr, Res.bind_ok, Res.pure_eq]
  congr 1
  rcases lt_or_le r.ht l.ht with h | h
  · simp [h, max_eq_left (le_of_lt h)]
  · simp [not_lt.mpr h, max_eq_right h]

theorem isBalance_rep {m : TreeMap K V} {par : Option Nat} {l r : Tr K V} {a : Nat} {k : K}
    {v : V} {hh : Int} (h : Rep m.cell par (.node l a k v hh r)) :
    m.isBalance (some a) = .ok (balTest l.ht r.ht) := by
  obtain ⟨h1, h2, h3⟩ := h
  simp [TreeMap.isBalance, TreeMap.deref_eq h1, getHeight_rep h2, getHeight_rep h3, balTest]


theorem upd_of_mem {c : Nat → Option (Node K V)} {x a : Nat} {S : List Nat} {n : Option (Node K V)}
    (hx : x ∈ S) (ha : a ∉ S) : Function.update c a n x = c x :=
  Function.update_noteq (by rintro rfl; exact ha hx) _ _

theorem perm_fill_R (l t c : List Nat) (a : Nat) :
    ((l ++ a :: t) ++ c).Perm (t ++ (a :: l ++ c)) := by
  rw [List.perm_iff_count]
  intro x
  simp only [List.count_append, List.count_cons]
  omega

/-- Moving the focus one node up or down does not change what is represented. -/
theorem RepZ.refocus {m : TreeMap K V} {t : Tr K V} {f : Frame K V} {ctx : List (Frame K V)} :
    RepZ m (f.fill t) ctx ↔ RepZ m t (f :: ctx) := by
  cases f with
  | L a k v h r =>
    constructor
    · rintro ⟨h1, ⟨h2, h3, h4⟩, h5, h6⟩
      exact ⟨h1, h3, ⟨h2, h4, h5⟩, by simpa [Frame.fill, Tr.addrs, ctxAddrs, Frame.addr, Frame.sib] using h6⟩
    · rintro ⟨h1, h3, ⟨h2, h4, h5⟩, h6⟩
      exact ⟨h1, ⟨h2, h3, h4⟩, h5, by simpa [Frame.fill, Tr.addrs, ctxAddrs, Frame.addr, Frame.sib] using h6⟩
  | R l a k v h =>
    constructor
    · rintro ⟨h1, ⟨h2, h3, h4⟩, h5, h6⟩
      exact ⟨h1, h4, ⟨h2, h3, h5⟩, (perm_fill_R l.addrs t.addrs (ctxAddrs ctx) a).nodup_iff.mp h6⟩
    · rintro ⟨h1, h4, ⟨h2, h3, h5⟩, h6⟩
      exact ⟨h1, ⟨h2, h3, h4⟩, h5, (perm_fill_R l.addrs t.addrs (ctxAddrs ctx) a).nodup_iff.mpr h6⟩

/-- Facts about the addresses around a focused node. -/
theorem RepZ.distinct {m : TreeMap K V} {l r : Tr K V} {a : Nat} {k : K} {v : V} {h : Int}
    {ctx : List (Frame K V)} (hz : RepZ m (.node l a k v h r) ctx) :
    a ∉ l.addrs ∧ a ∉ r.addrs ∧ a ∉ ctxAddrs ctx ∧
    (∀ x ∈ l.addrs, x ∉ r.addrs) ∧ (∀ x ∈ l.addrs, x ∉ ctxAddrs ctx) ∧
    (∀ x ∈ r.addrs, x ∉ ctxAddrs ctx) ∧ l.addrs.Nodup ∧ r.addrs.Nodup ∧ (ctxAddrs ctx).Nodup := by
  have h6 := hz.nodup
  simp only [Tr.addrs, List.nodup_append, List.nodup_cons] at h6
  obtain ⟨⟨hl, ⟨har, hr⟩, h1⟩, hc, h2⟩ := h6
  refine ⟨fun hx => h1 hx (List.mem_cons_self _ _), har,
    fun hx => h2 (List.mem_append_right _ (List.mem_cons_self _ _)) hx,
    fun x hx hx1 => h1 hx (List.mem_cons_of_mem _ hx1),
    fun x hx hx1 => h2 (List.mem_append_left _ hx) hx1,
    fun x hx hx1 => h2 (List.mem_append_right _ (List.mem_cons_of_mem _ hx)) hx1, hl, hr, hc⟩

/-- `upgradeHeight` at the focused node. -/
theorem upgradeHeight_spec {m : TreeMap K V} {l r : Tr K V} {a : Nat} {k : K} {v : V} {h : Int}
    {ctx : List (Frame K V)} (hz : RepZ m (.node l a k v h r) ctx) :
    ∃ m1, m.upgradeHeight (some a) = .ok m1 ∧ RepZ m1 (Tr.mk l a k v r) ctx ∧
      m1.count = m.count ∧ m1.nodes.length = m.nodes.length := by
  obtain ⟨hal, har, hac, -, -, -, -, -, -⟩ := hz.distinct
  obtain ⟨h1, ⟨h2, h3, h4⟩, h5, h6⟩ := hz
  obtain ⟨m1, e1, c1, hd1, ct1, ln1⟩ :=
    TreeMap.assign_spec m a (fun n => { n with Height := max l.ht r.ht + 1 }) _ h2
  refine ⟨m1, ?_, ⟨?_, ⟨?_, ?_, ?_⟩, ?_, ?_⟩, ct1, ln1⟩
  · simp [TreeMap.upgradeHeight, TreeMap.derefPtr, TreeMap.deref_eq h2, Res.ofPtr,
      maxHeight_rep h3 h4, e1]
  · rw [hd1, h1]; rfl
  · rw [c1]; simp
  · exact h3.frame (fun x hx => by rw [c1]; exact upd_of_mem hx hal)
  · exact h4.frame (fun x hx => by rw [c1]; exact upd_of_mem hx har)
  · exact RepCtx.frame_ctx h5 (fun x hx => by rw [c1]; exact upd_of_mem hx hac)
  · exact h6


/-- The parent of the focused node is made to point at `X` instead. -/
theorem relinkParent_spec {m : TreeMap K V} {a : Nat} {ctx : List (Frame K V)} (X : Option Nat)
    (hctx : RepCtx m.cell (some a) ctx) (hnd : (ctxAddrs ctx).Nodup) (ha : a ∉ ctxAddrs ctx)
    (hhead : m.Head = ctxRoot (some a) ctx) :
    ∃ m1, m.relinkParent (ctxPar ctx) a X = .ok m1 ∧ RepCtx m1.cell X ctx ∧
      m1.Head = ctxRoot X ctx ∧ (∀ x, x ∉ ctxAddrs ctx → m1.cell x = m.cell x) ∧
      m1.count = m.count ∧ m1.nodes.length = m.nodes.length := by
  cases ctx with
  | nil => exact ⟨{ m with Head := X }, rfl, trivial, rfl, fun _ _ => rfl, rfl, rfl⟩
  | cons f rest =>
    cases f with
    | L p k v h r =>
      obtain ⟨h1, h2, h3⟩ := hctx
      simp only [ctxAddrs, Frame.addr, Frame.sib, List.nodup_cons, List.nodup_append] at hnd ha
      obtain ⟨⟨hpr, hr⟩, hrest, hdis⟩ := hnd
      have hprest : p ∉ ctxAddrs rest := fun hx => hdis (List.mem_cons_self _ _) hx
      have har : a ∉ r.addrs := fun hx => ha (List.mem_append_left _ (List.mem_cons_of_mem _ hx))
      have hne : r.root ≠ some a := fun hh => har (Tr.root_mem_addrs hh)
      obtain ⟨m1, e1, c1, hd1, ct1, ln1⟩ :=
        TreeMap.assign_spec m p (fun n => { n with Left := X }) _ h1
      refine ⟨m1, ?_, ⟨?_, ?_, ?_⟩, ?_, ?_, ct1, ln1⟩
      · simp [TreeMap.relinkParent, ctxPar, Frame.addr, TreeMap.deref_eq h1, hne, e1]
      · rw [c1]; simp
      · exact h2.frame (fun x hx => by rw [c1]; exact upd_of_mem hx hpr)
      · exact RepCtx.frame_ctx h3 (fun x hx => by rw [c1]; exact upd_of_mem hx hprest)
      · rw [hd1, hhead]; rfl
      · intro x hx
        have hxp : x ≠ p := by
          rintro rfl
          exact hx (by simp [ctxAddrs, Frame.addr])
        rw [c1]; exact Function.update_noteq hxp _ _
    | R l p k v h =>
      obtain ⟨h1, h2, h3⟩ := hctx
      simp only [ctxAddrs, Frame.addr, Frame.sib, List.nodup_cons, List.nodup_append] at hnd ha
      obtain ⟨⟨hpr, hr⟩, hrest, hdis⟩ := hnd
      have hprest : p ∉ ctxAddrs rest := fun hx => hdis (List.mem_cons_self _ _) hx
      obtain ⟨m1, e1, c1, hd1, ct1, ln1⟩ :=
        TreeMap.assign_spec m p (fun n => { n with Right := X }) _ h1
      refine ⟨m1, ?_, ⟨?_, ?_, ?_⟩, ?_, ?_, ct1, ln1⟩
      · simp [TreeMap.relinkParent, ctxPar, Frame.addr, TreeMap.deref_eq h1, e1]
      · rw [c1]; simp
      · exact h2.frame (fun x hx => by rw [c1]; exact upd_of_mem hx hpr)
      · exact RepCtx.frame_ctx h3 (fun x hx => by rw [c1]; exact upd_of_mem hx hprest)
      · rw [hd1, hhead]; rfl
      · intro x hx
        have hxp : x ≠ p := by
          rintro rfl
          exact hx (by simp [ctxAddrs, Frame.addr])
        rw [c1]; exact Function.update_noteq hxp _ _

/-- The statement `if (p != nullptr) p->Parent = q` applied to the root of a represented tree. -/
theorem assignParent_spec {m : TreeMap K V} {par : Option Nat} {t : Tr K V} (q : Option Nat)
    (h : Rep m.cell par t) (hnd : t.addrs.Nodup) :
    ∃ m1, m.assignIfPresent t.root (fun n => { n with Parent := q }) = .ok m1 ∧
      Rep m1.cell q t ∧ (∀ x, x ∉ t.addrs → m1.cell x = m.cell x) ∧
      m1.Head = m.Head ∧ m1.count = m.count ∧ m1.nodes.length = m.nodes.length := by
  cases t with
  | nil => exact ⟨m, rfl, trivial, fun _ _ => rfl, rfl, rfl, rfl⟩
  | node l a k v hh r =>
    obtain ⟨m1, e1, c1, hd1, ct1, ln1⟩ :=
      TreeMap.assign_spec m a (fun n => { n with Parent := q }) _ h.1
    refine ⟨m1, e1, ?_, ?_, hd1, ct1, ln1⟩
    · refine h.rehang hnd ?_ ?_
      · intro b hb
        simp only [Tr.root, Option.some.injEq] at hb
        subst hb
        rw [c1, h.1]; simp
      · intro x _ hx
        simp only [Tr.root, ne_eq, Option.some.injEq] at hx
        rw [c1]; exact Function.update_noteq (fun e => hx e.symm) _ _
    · intro x hx
      simp only [Tr.addrs, List.mem_append, List.mem_cons, not_or] at hx
      rw [c1]; exact Function.update_noteq hx.2.1 _ _


/-- The left rotation `switch_Right_With_Parent` on the represented tree. -/
theorem switch_Right_spec {m : TreeMap K V} {l rl rr : Tr K V} {a b : Nat} {k kb : K} {v vb : V}
    {h hb : Int} {ctx : List (Frame K V)}
    (hz : RepZ m (.node l a k v h (.node rl b kb vb hb rr)) ctx) :
    ∃ m1, m.switch_Right_With_Parent (some a) = .ok m1 ∧
      RepZ m1 (.node (Tr.mk l a k v rl) b kb vb hb rr) ctx ∧
      m1.count = m.count ∧ m1.nodes.length = m.nodes.length := by
  obtain ⟨hal, har, hac, hlr, hlc, hrc, ndl, ndr, ndc⟩ := hz.distinct
  obtain ⟨hhead, ⟨ca, hl, cb, hrl, hrr⟩, hctx, hnd⟩ := hz
  simp only [Tr.addrs, List.mem_append, List.mem_cons, not_or] at har hlr hrc
  simp only [Tr.addrs, List.nodup_append, List.nodup_cons] at ndr
  obtain ⟨ndrl, ⟨hbrr, ndrr⟩, hdis⟩ := ndr
  have hbrl : b ∉ rl.addrs := fun hx => hdis hx (List.mem_cons_self _ _)
  have hab : a ≠ b := har.2.1
  have hbc : b ∉ ctxAddrs ctx := hrc b (Or.inr (Or.inl rfl))
  obtain ⟨m1, e1, hctx1, hd1, f1, ct1, ln1⟩ := relinkParent_spec (some b) hctx ndc hac hhead
  have cb1 : m1.cell b = _ := (f1 b hbc).trans cb
  obtain ⟨m2, e2, c2, hd2, ct2, ln2⟩ :=
    TreeMap.assign_spec m1 b (fun n => { n with Parent := ctxPar ctx }) _ cb1
  have cb2 : m2.cell b = some ⟨kb, vb, rl.root, rr.root, ctxPar ctx, hb⟩ := by rw [c2]; simp
  obtain ⟨m3, e3, c3, hd3, ct3, ln3⟩ :=
    TreeMap.assign_spec m2 b (fun n => { n with Left := some a }) _ cb2
  have ca3 : m3.cell a = some ⟨k, v, l.root, some b, ctxPar ctx, h⟩ := by
    rw [c3, Function.update_noteq hab, c2, Function.update_noteq hab, f1 a hac, ca]; rfl
  obtain ⟨m4, e4, c4, hd4, ct4, ln4⟩ :=
    TreeMap.assign_spec m3 a (fun n => { n with Parent := some b }) _ ca3
  have ca4 : m4.cell a = some ⟨k, v, l.root, some b, some b, h⟩ := by rw [c4]; simp
  obtain ⟨m5, e5, c5, hd5, ct5, ln5⟩ :=
    TreeMap.assign_spec m4 a (fun n => { n with Right := rl.root }) _ ca4
  have hout : ∀ x, x ≠ a → x ≠ b → m5.cell x = m1.cell x := by
    intro x hxa hxb
    rw [c5, Function.update_noteq hxa, c4, Function.update_noteq hxa, c3,
      Function.update_noteq hxb, c2, Function.update_noteq hxb]
  have hrl5 : Rep m5.cell (some b) rl := hrl.frame (fun x hx => by
    rw [hout x (by rintro rfl; exact har.1 hx) (by rintro rfl; exact hbrl hx)]
    exact f1 x (hrc x (Or.inl hx)))
  obtain ⟨m6, e6, hrl6, f6, hd6, ct6, ln6⟩ := assignParent_spec (some a) hrl5 ndrl
  have hz6 : RepZ m6 (.node (.node l a k v h rl) b kb vb hb rr) ctx := by
    refine ⟨?_, ⟨?_, ⟨?_, ?_, hrl6⟩, ?_⟩, ?_, ?_⟩
    · rw [hd6, hd5, hd4, hd3, hd2, hd1]; rfl
    · rw [f6 b hbrl, c5, Function.update_noteq (Ne.symm hab), c4,
        Function.update_noteq (Ne.symm hab), c3]; simp [Tr.root]
    · rw [f6 a har.1, c5]; simp
    · exact hl.frame (fun x hx => by
        rw [f6 x (hlr x hx).1, hout x (by rintro rfl; exact hal hx)
          (by rintro rfl; exact (hlr x hx).2.1 rfl)]
        exact f1 x (hlc x hx))
    · exact hrr.frame (fun x hx => by
        rw [f6 x (fun hx1 => hdis hx1 (List.mem_cons_of_mem _ hx)),
          hout x (by rintro rfl; exact har.2.2 hx) (by rintro rfl; exact hbrr hx)]
        exact f1 x (hrc x (Or.inr (Or.inr hx))))
    · exact RepCtx.frame_ctx hctx1 (fun x hx => by
        rw [f6 x (fun hx1 => hrc x (Or.inl hx1) hx),
          hout x (by rintro rfl; exact hac hx) (by rintro rfl; exact hbc hx)])
    · simpa [Tr.addrs, List.append_assoc] using hnd
  have hz6a : RepZ m6 (.node l a k v h rl) (Frame.L b kb vb hb rr :: ctx) :=
    RepZ.refocus.mp hz6
  obtain ⟨m7, e7, hz7, ct7, ln7⟩ := upgradeHeight_spec hz6a
  refine ⟨m7, ?_, RepZ.refocus.mpr hz7, ?_, ?_⟩
  · simp [TreeMap.switch_Right_With_Parent, TreeMap.derefPtr, TreeMap.deref_eq ca,
      TreeMap.deref_eq cb, Res.ofPtr, Tr.root_node, e1, e2, e3, e4, e5, e6, e7]
  · rw [ct7, ct6, ct5, ct4, ct3, ct2, ct1]
  · rw [ln7, ln6, ln5, ln4, ln3, ln2, ln1]


/-- The right rotation `switch_Left_With_Parent` on the represented tree. -/
theorem switch_Left_spec {m : TreeMap K V} {ll lr r : Tr K V} {a b : Nat} {k kb : K} {v vb : V}
    {h hb : Int} {ctx : List (Frame K V)}
    (hz : RepZ m (.node (.node ll b kb vb hb lr) a k v h r) ctx) :
    ∃ m1, m.switch_Left_With_Parent (some a) = .ok m1 ∧
      RepZ m1 (.node ll b kb vb hb (Tr.mk lr a k v r)) ctx ∧
      m1.count = m.count ∧ m1.nodes.length = m.nodes.length := by
  obtain ⟨hal, har, hac, hlr, hlc, hrc, ndl, ndr, ndc⟩ := hz.distinct
  obtain ⟨hhead, ⟨ca, ⟨cb, hll, hlr1⟩, hr⟩, hctx, hnd⟩ := hz
  simp only [Tr.addrs, List.mem_append, List.mem_cons, not_or] at hal hlr hlc
  simp only [Tr.addrs, List.nodup_append, List.nodup_cons] at ndl
  obtain ⟨ndll, ⟨hblr, ndlr⟩, hdis⟩ := ndl
  have hbll : b ∉ ll.addrs := fun hx => hdis hx (List.mem_cons_self _ _)
  have hab : a ≠ b := hal.2.1
  have hbc : b ∉ ctxAddrs ctx := hlc b (Or.inr (Or.inl rfl))
  obtain ⟨m1, e1, hctx1, hd1, f1, ct1, ln1⟩ := relinkParent_spec (some b) hctx ndc hac hhead
  have cb1 : m1.cell b = _ := (f1 b hbc).trans cb
  obtain ⟨m2, e2, c2, hd2, ct2, ln2⟩ :=
    TreeMap.assign_spec m1 b (fun n => { n with Parent := ctxPar ctx }) _ cb1
  have cb2 : m2.cell b = some ⟨kb, vb, ll.root, lr.root, ctxPar ctx, hb⟩ := by rw [c2]; simp
  obtain ⟨m3, e3, c3, hd3, ct3, ln3⟩ :=
    TreeMap.assign_spec m2 b (fun n => { n with Right := some a }) _ cb2
  have ca3 : m3.cell a = some ⟨k, v, some b, r.root, ctxPar ctx, h⟩ := by
    rw [c3, Function.update_noteq hab, c2, Function.update_noteq hab, f1 a hac, ca]; rfl
  obtain ⟨m4, e4, c4, hd4, ct4, ln4⟩ :=
    TreeMap.assign_spec m3 a (fun n => { n with Parent := some b }) _ ca3
  have ca4 : m4.cell a = some ⟨k, v, some b, r.root, some b, h⟩ := by rw [c4]; simp
  obtain ⟨m5, e5, c5, hd5, ct5, ln5⟩ :=
    TreeMap.assign_spec m4 a (fun n => { n with Left := lr.root }) _ ca4
  have hout : ∀ x, x ≠ a → x ≠ b → m5.cell x = m1.cell x := by
    intro x hxa hxb
    rw [c5, Function.update_noteq hxa, c4, Function.update_noteq hxa, c3,
      Function.update_noteq hxb, c2, Function.update_noteq hxb]
  have hlr5 : Rep m5.cell (some b) lr := hlr1.frame (fun x hx => by
    rw [hout x (by rintro rfl; exact hal.2.2 hx) (by rintro rfl; exact hblr hx)]
    exact f1 x (hlc x (Or.inr (Or.inr hx))))
  obtain ⟨m6, e6, hlr6, f6, hd6, ct6, ln6⟩ := assignParent_spec (some a) hlr5 ndlr
  have hz6 : RepZ m6 (.node ll b kb vb hb (.node lr a k v h r)) ctx := by
    refine ⟨?_, ⟨?_, ?_, ⟨?_, hlr6, ?_⟩⟩, ?_, ?_⟩
    · rw [hd6, hd5, hd4, hd3, hd2, hd1]; rfl
    · rw [f6 b hblr, c5, Function.update_noteq (Ne.symm hab), c4,
        Function.update_noteq (Ne.symm hab), c3]; simp [Tr.root]
    · exact hll.frame (fun x hx => by
        rw [f6 x (fun hx1 => hdis hx (List.mem_cons_of_mem _ hx1)),
          hout x (by rintro rfl; exact hal.1 hx) (by rintro rfl; exact hbll hx)]
        exact f1 x (hlc x (Or.inl hx)))
    · rw [f6 a hal.2.2, c5]; simp
    · exact hr.frame (fun x hx => by
        rw [f6 x (fun hx1 => hlr x (Or.inr (Or.inr hx1)) hx),
          hout x (by rintro rfl; exact har hx)
          (by rintro rfl; exact hlr x (Or.inr (Or.inl rfl)) hx)]
        exact f1 x (hrc x hx))
    · exact RepCtx.frame_ctx hctx1 (fun x hx => by
        rw [f6 x (fun hx1 => hlc x (Or.inr (Or.inr hx1)) hx),
          hout x (by rintro rfl; exact hac hx) (by rintro rfl; exact hbc hx)])
    · simpa [Tr.addrs, List.append_assoc] using hnd
  have hz6a : RepZ m6 (.node lr a k v h r) (Frame.R ll b kb vb hb :: ctx) :=
    RepZ.refocus.mp hz6
  obtain ⟨m7, e7, hz7, ct7, ln7⟩ := upgradeHeight_spec hz6a
  refine ⟨m7, ?_, RepZ.refocus.mpr hz7, ?_, ?_⟩
  · simp [TreeMap.switch_Left_With_Parent, TreeMap.derefPtr, TreeMap.deref_eq ca,
      TreeMap.deref_eq cb, Res.ofPtr, Tr.root_node, e1, e2, e3, e4, e5, e6, e7]
  · rw [ct7, ct6, ct5, ct4, ct3, ct2, ct1]
  · rw [ln7, ln6, ln5, ln4, ln3, ln2, ln1]


/-- The `if (!isBalance(current))` block of `repairsTree` on the represented tree. -/
theorem rebalance_spec {m : TreeMap K V} {l r : Tr K V} {a : Nat} {k : K} {v : V} {h : Int}
    {ctx : List (Frame K V)} {t1 : Tr K V}
    (hz : RepZ m (.node l a k v h r) ctx) (hreb : (Tr.node l a k v h r).rebalance = some t1) :
    ∃ m1, m.rebalance a = .ok m1 ∧ RepZ m1 t1 ctx ∧
      m1.count = m.count ∧ m1.nodes.length = m.nodes.length := by
  have ca := hz.rep.1
  have hl := hz.rep.2.1
  have hr := hz.rep.2.2
  unfold Tr.rebalance at hreb
  unfold TreeMap.rebalance
  simp only [TreeMap.deref_eq ca, Res.bind_ok, getHeight_rep hl, getHeight_rep hr]
  by_cases hle : l.ht ≤ r.ht
  · simp only [hle, if_true] at hreb ⊢
    cases r with
    | nil => simp at hreb
    | node rl b kb vb hb rr =>
      have cb := hr.1
      simp only [Tr.root_node, TreeMap.derefPtr, TreeMap.deref_eq cb, Res.bind_ok,
        getHeight_rep hr.2.1, getHeight_rep hr.2.2]
      by_cases hle2 : rl.ht ≤ rr.ht
      · simp only [hle2, if_true, Option.some.injEq] at hreb ⊢
        subst hreb
        exact switch_Right_spec hz
      · simp only [hle2, if_false] at hreb ⊢
        cases rl with
        | nil => simp at hreb
        | node rll c kc vc hc rlr =>
          simp only [Option.some.injEq] at hreb
          subst hreb
          have hzb : RepZ m (.node (.node rll c kc vc hc rlr) b kb vb hb rr)
              (Frame.R l a k v h :: ctx) := RepZ.refocus.mp hz
          obtain ⟨m1, e1, hz1, ct1, ln1⟩ := switch_Left_spec hzb
          obtain ⟨m2, e2, hz2, ct2, ln2⟩ := upgradeHeight_spec hz1
          have hz2a : RepZ m2 (.node l a k v h (Tr.mk rll c kc vc (Tr.mk rlr b kb vb rr))) ctx :=
            RepZ.refocus.mpr hz2
          obtain ⟨m3, e3, hz3, ct3, ln3⟩ := switch_Right_spec hz2a
          have ca1 := (RepZ.refocus.mpr hz1).rep.1
          refine ⟨m3, ?_, hz3, by rw [ct3, ct2, ct1], by rw [ln3, ln2, ln1]⟩
          simp only [e1, Res.bind_ok, TreeMap.deref_eq ca1, Tr.root_node, e2, e3]
  · simp only [hle, if_false] at hreb ⊢
    cases l with
    | nil => simp at hreb
    | node ll b kb vb hb lr =>
      have cb := hl.1
      simp only [Tr.root_node, TreeMap.derefPtr, TreeMap.deref_eq cb, Res.bind_ok,
        getHeight_rep hl.2.1, getHeight_rep hl.2.2]
      by_cases hle2 : ll.ht ≥ lr.ht
      · simp only [hle2, if_true, Option.some.injEq] at hreb ⊢
        subst hreb
        exact switch_Left_spec hz
      · simp only [hle2, if_false] at hreb ⊢
        cases lr with
        | nil => simp at hreb
        | node lrl c kc vc hc lrr =>
          simp only [Option.some.injEq] at hreb
          subst hreb
          have hzb : RepZ m (.node ll b kb vb hb (.node lrl c kc vc hc lrr))
              (Frame.L a k v h r :: ctx) := RepZ.refocus.mp hz
          obtain ⟨m1, e1, hz1, ct1, ln1⟩ := switch_Right_spec hzb
          obtain ⟨m2, e2, hz2, ct2, ln2⟩ := upgradeHeight_spec hz1
          have hz2a : RepZ m2 (.node (Tr.mk (Tr.mk ll b kb vb lrl) c kc vc lrr) a k v h r) ctx :=
            RepZ.refocus.mpr hz2
          obtain ⟨m3, e3, hz3, ct3, ln3⟩ := switch_Left_spec hz2a
          have ca1 := (RepZ.refocus.mpr hz1).rep.1
          refine ⟨m3, ?_, hz3, by rw [ct3, ct2, ct1], by rw [ln3, ln2, ln1]⟩
          simp only [e1, Res.bind_ok, TreeMap.deref_eq ca1, Tr.root_node, e2, e3]


theorem Frame.root_fill (f : Frame K V) (t : Tr K V) : (f.fill t).root = some f.addr := by
  cases f <;> rfl

/-- After a rotation the node that was rotated down hangs directly below the new subtree root. -/
theorem rebalance_shape {l r : Tr K V} {a : Nat} {k : K} {v : V} {h : Int} {t1 : Tr K V}
    (hreb : (Tr.node l a k v h r).rebalance = some t1) :
    ∃ (f : Frame K V) (l1 r1 : Tr K V), t1 = f.fill (Tr.mk l1 a k v r1) := by
  simp only [Tr.rebalance] at hreb
  by_cases hle : l.ht ≤ r.ht
  · simp only [hle, if_true] at hreb
    cases r with
    | nil => simp at hreb
    | node rl b kb vb hb rr =>
      by_cases hle2 : rl.ht ≤ rr.ht
      · simp only [hle2, if_true, Option.some.injEq] at hreb
        exact ⟨Frame.L b kb vb hb rr, l, rl, hreb.symm⟩
      · simp only [hle2, if_false] at hreb
        cases rl with
        | nil => simp at hreb
        | node rll c kc vc hc rlr =>
          simp only [Option.some.injEq] at hreb
          exact ⟨Frame.L c kc vc _ _, l, rll, hreb.symm⟩
  · simp only [hle, if_false] at hreb
    cases l with
    | nil => simp at hreb
    | node ll b kb vb hb lr =>
      by_cases hle2 : ll.ht ≥ lr.ht
      · simp only [hle2, if_true, Option.some.injEq] at hreb
        exact ⟨Frame.R ll b kb vb hb, lr, r, hreb.symm⟩
      · simp only [hle2, if_false] at hreb
        cases lr with
        | nil => simp at hreb
        | node lrl c kc vc hc lrr =>
          simp only [Option.some.injEq] at hreb
          exact ⟨Frame.R _ c kc vc _, lrr, r, hreb.symm⟩

/-- One pass of the loop of `repairsTree` on the represented tree. -/
theorem repairStep_spec {m : TreeMap K V} {l r : Tr K V} {a : Nat} {k : K} {v : V} {h : Int}
    {ctx : List (Frame K V)} {res : Tr K V × List (Frame K V) ⊕ Tr K V}
    (hz : RepZ m (.node l a k v h r) ctx) (hstep : stepZ (.node l a k v h r) ctx = some res) :
    ∃ m2 next, m.repairStep a = .ok (m2, next) ∧
      m2.count = m.count ∧ m2.nodes.length = m.nodes.length ∧
      (match res with
        | .inl (t1, ctx1) => RepZ m2 t1 ctx1 ∧ next = t1.root ∧ t1.root ≠ none
        | .inr t1 => RepZ m2 t1 [] ∧ next = none) := by
  simp only [stepZ] at hstep
  unfold TreeMap.repairStep
  simp only [isBalance_rep hz.rep, Res.bind_ok]
  by_cases hb : balTest l.ht r.ht = true
  · simp only [hb, if_true] at hstep ⊢
    obtain ⟨m2, e2, hz2, ct2, ln2⟩ := upgradeHeight_spec hz
    have ca2 := hz2.rep.1
    simp only [Res.pure_eq, Res.bind_ok, e2, TreeMap.deref_eq ca2]
    refine ⟨m2, _, rfl, ct2, ln2, ?_⟩
    cases ctx with
    | nil =>
      simp only [Option.some.injEq] at hstep
      subst hstep
      exact ⟨hz2, rfl⟩
    | cons f rest =>
      simp only [Option.some.injEq] at hstep
      subst hstep
      exact ⟨RepZ.refocus.mpr hz2, by simp [ctxPar, Frame.root_fill], by simp [Frame.root_fill]⟩
  · simp only [hb, if_false] at hstep ⊢
    cases hreb : (Tr.node l a k v h r).rebalance with
    | none => simp [hreb] at hstep
    | some t1 =>
      simp only [hreb, Bool.false_eq_true, if_false, Option.some.injEq] at hstep
      subst hstep
      obtain ⟨m1, e1, hz1, ct1, ln1⟩ := rebalance_spec hz hreb
      obtain ⟨f, l1, r1, rfl⟩ := rebalance_shape hreb
      have hz1a : RepZ m1 (Tr.mk l1 a k v r1) (f :: ctx) := RepZ.refocus.mp hz1
      obtain ⟨m2, e2, hz2, ct2, ln2⟩ := upgradeHeight_spec hz1a
      have ca2 := hz2.rep.1
      simp only [Bool.false_eq_true, if_false, e1, Res.bind_ok, e2, TreeMap.deref_eq ca2,
        Res.pure_eq]
      refine ⟨m2, _, rfl, by rw [ct2, ct1], by rw [ln2, ln1], RepZ.refocus.mpr hz2, ?_, ?_⟩
      · simp [ctxPar, Frame.root_fill]
      · simp [Frame.root_fill]

/-- The loop of `repairsTree` on the represented tree. -/
theorem repairsTree_spec (fuel : Nat) {m : TreeMap K V} {t t1 : Tr K V} {a : Nat}
    {ctx : List (Frame K V)} (hz : RepZ m t ctx) (hroot : t.root = some a)
    (hloop : loopZ fuel t ctx = some t1) :
    ∃ m1, m.repairsTree fuel (some a) = .ok m1 ∧ RepZ m1 t1 [] ∧
      m1.count = m.count ∧ m1.nodes.length = m.nodes.length := by
  induction fuel generalizing m t a ctx with
  | zero => simp [loopZ] at hloop
  | succ fuel ih =>
    cases t with
    | nil => simp [Tr.root] at hroot
    | node l b k v h r =>
      simp only [Tr.root, Option.some.injEq] at hroot
      subst hroot
      unfold loopZ at hloop
      cases hstep : stepZ (.node l b k v h r) ctx with
      | none => simp [hstep] at hloop
      | some res =>
        obtain ⟨m2, next, e2, ct2, ln2, hres⟩ := repairStep_spec hz hstep
        unfold TreeMap.repairsTree
        simp only [e2]
        cases res with
        | inl p =>
          obtain ⟨t2, ctx2⟩ := p
          simp only [hstep] at hloop
          obtain ⟨hz2, hnext, hne⟩ := hres
          cases hr2 : t2.root with
          | none => exact absurd hr2 hne
          | some a2 =>
            obtain ⟨m3, e3, hz3, ct3, ln3⟩ := ih hz2 hr2 hloop
            rw [hnext, hr2]
            exact ⟨m3, e3, hz3, by rw [ct3, ct2], by rw [ln3, ln2]⟩
        | inr t2 =>
          simp only [hstep, Option.some.injEq] at hloop
          subst hloop
          obtain ⟨hz2, hnext⟩ := hres
          subst hnext
          exact ⟨m2, by cases fuel <;> rfl, hz2, ct2, ln2⟩


theorem Rep.cell_isSome {c : Nat → Option (Node K V)} {par : Option Nat} {t : Tr K V}
    (h : Rep c par t) {x : Nat} (hx : x ∈ t.addrs) : (c x).isSome := by
  induction t generalizing par with
  | nil => simp [Tr.addrs] at hx
  | node l a k v hh r ihl ihr =>
    obtain ⟨h1, h2, h3⟩ := h
    simp only [Tr.addrs, List.mem_append, List.mem_cons] at hx
    rcases hx with hx | rfl | hx
    · exact ihl h2 hx
    · simp [h1]
    · exact ihr h3 hx

theorem RepCtx.cell_isSome_ctx {c : Nat → Option (Node K V)} {ro : Option Nat}
    {ctx : List (Frame K V)} (h : RepCtx c ro ctx) {x : Nat} (hx : x ∈ ctxAddrs ctx) :
    (c x).isSome := by
  induction ctx generalizing ro with
  | nil => simp [ctxAddrs] at hx
  | cons f rest ih =>
    cases f with
    | L a k v hh r =>
      obtain ⟨h1, h2, h3⟩ := h
      simp only [ctxAddrs, Frame.addr, Frame.sib, List.cons_append, List.mem_cons,
        List.mem_append] at hx
      rcases hx with rfl | hx | hx
      · simp [h1]
      · exact h2.cell_isSome hx
      · exact ih h3 hx
    | R l a k v hh =>
      obtain ⟨h1, h2, h3⟩ := h
      simp only [ctxAddrs, Frame.addr, Frame.sib, List.cons_append, List.mem_cons,
        List.mem_append] at hx
      rcases hx with rfl | hx | hx
      · simp [h1]
      · exact h2.cell_isSome hx
      · exact ih h3 hx

theorem TreeMap.lt_of_isSome {m : TreeMap K V} {x : Nat} (h : (m.cell x).isSome) :
    x < m.nodes.length := by
  cases hc : m.cell x with
  | none => simp [hc] at h
  | some n => exact TreeMap.cell_lt hc

/-- Every address of a represented tree is a live cell of the store. -/
theorem RepZ.addr_lt {m : TreeMap K V} {t : Tr K V} {ctx : List (Frame K V)} (hz : RepZ m t ctx)
    {x : Nat} (hx : x ∈ t.addrs ++ ctxAddrs ctx) : x < m.nodes.length := by
  rcases List.mem_append.mp hx with hx | hx
  · exact TreeMap.lt_of_isSome (hz.rep.cell_isSome hx)
  · exact TreeMap.lt_of_isSome (hz.repCtx.cell_isSome_ctx hx)

/-- The descent of `insert` follows the tree. -/
theorem insertDescend_spec [LinearOrder K] {m : TreeMap K V} (key : K) (fuel : Nat) {t : Tr K V}
    {ctx : List (Frame K V)} {a : Nat} (hz : RepZ m t ctx) (hroot : t.root = some a)
    (hfuel : t.height ≤ fuel) :
    m.insertDescend key fuel a = .ok (insZ key t ctx).slot ∧
      (match insZ key t ctx with
        | .right l b k v h ctx1 => RepZ m (.node l b k v h .nil) ctx1
        | .left b k v h r ctx1 => RepZ m (.node .nil b k v h r) ctx1
        | .present => True) := by
  induction t generalizing ctx fuel a with
  | nil => simp [Tr.root] at hroot
  | node l b k v h r ihl ihr =>
    simp only [Tr.root, Option.some.injEq] at hroot
    subst hroot
    cases fuel with
    | zero => simp [Tr.height] at hfuel
    | succ fuel =>
      have ca := hz.rep.1
      simp only [Tr.height, Nat.add_le_add_iff_right, max_le_iff] at hfuel
      simp only [TreeMap.insertDescend, TreeMap.deref_eq ca, insZ]
      by_cases h1 : key > k
      · simp only [h1, if_true]
        cases r with
        | nil => exact ⟨rfl, hz⟩
        | node rl c kc vc hc rr =>
          simp only [Tr.root_node]
          exact ihr fuel ((RepZ.refocus (f := Frame.R l b k v h)).mp hz) rfl hfuel.2
      · simp only [h1, if_false]
        by_cases h2 : key < k
        · simp only [h2, if_true]
          cases l with
          | nil => exact ⟨rfl, hz⟩
          | node ll c kc vc hc lr =>
            simp only [Tr.root_node]
            exact ihl fuel ((RepZ.refocus (f := Frame.L b k v h r)).mp hz) rfl hfuel.1
        · simp only [h2, if_false]
          exact ⟨rfl, trivial⟩

/-- Linking the new node as the right child of the focused node. -/
theorem attach_right_spec {m : TreeMap K V} {l : Tr K V} {a : Nat} {k : K} {v : V} {h : Int}
    {ctx : List (Frame K V)} (key : K) (val : V) (hz : RepZ m (.node l a k v h .nil) ctx) :
    ∃ m1, m.assign a (fun n => { n with Right := some m.nodes.length }) = .ok m1 ∧
      RepZ { m1.link key val (some a) with count := (m1.link key val (some a)).count + 1 }
        (.node l a k v h (Tr.leaf m.nodes.length key val)) ctx ∧
      m1.count = m.count ∧ m1.nodes.length = m.nodes.length := by
  obtain ⟨hal, -, hac, -, -, -, -, -, -⟩ := hz.distinct
  have hlt : ∀ x ∈ (Tr.node l a k v h .nil).addrs ++ ctxAddrs ctx, x < m.nodes.length :=
    fun x hx => hz.addr_lt hx
  obtain ⟨hhead, ⟨ca, hl, -⟩, hctx, hnd⟩ := hz
  obtain ⟨m1, e1, c1, hd1, ct1, ln1⟩ :=
    TreeMap.assign_spec m a (fun n => { n with Right := some m.nodes.length }) _ ca
  have hcell : ∀ x, x ≠ a → x < m.nodes.length →
      TreeMap.cell { m1.link key val (some a) with count := (m1.link key val (some a)).count + 1 } x
        = m.cell x := by
    intro x hxa hxl
    show (m1.link key val (some a)).cell x = m.cell x
    rw [TreeMap.cell_link, ln1, if_neg (Nat.ne_of_lt hxl), c1, Function.update_noteq hxa]
  have hal1 : a < m.nodes.length := TreeMap.cell_lt ca
  refine ⟨m1, e1, ⟨?_, ⟨?_, ?_, ?_⟩, ?_, ?_⟩, ct1, ln1⟩
  · show m1.Head = _
    rw [hd1, hhead]; rfl
  · show (m1.link key val (some a)).cell a = _
    rw [TreeMap.cell_link, ln1, if_neg (Nat.ne_of_lt hal1), c1]; simp [Tr.leaf, Tr.root]
  · exact hl.frame (fun x hx => hcell x (by rintro rfl; exact hal hx)
      (hlt x (by simp [Tr.addrs, hx])))
  · refine ⟨?_, trivial, trivial⟩
    show (m1.link key val (some a)).cell m.nodes.length = _
    rw [TreeMap.cell_link, ln1, if_pos rfl]; rfl
  · exact RepCtx.frame_ctx hctx (fun x hx => hcell x (by rintro rfl; exact hac hx)
      (hlt x (by simp [hx])))
  · have hnew : m.nodes.length ∉ (Tr.node l a k v h .nil).addrs ++ ctxAddrs ctx :=
      fun hx => Nat.lt_irrefl _ (hlt _ hx)
    have hp : ((Tr.node l a k v h (Tr.leaf m.nodes.length key val)).addrs ++ ctxAddrs ctx).Perm
        (m.nodes.length :: ((Tr.node l a k v h .nil).addrs ++ ctxAddrs ctx)) := by
      rw [List.perm_iff_count]
      intro x
      simp only [Tr.addrs, Tr.leaf, List.count_append, List.count_cons, List.count_nil]
      omega
    exact hp.nodup_iff.mpr (List.nodup_cons.mpr ⟨hnew, hnd⟩)

/-- Linking the new node as the left child of the focused node. -/
theorem attach_left_spec {m : TreeMap K V} {r : Tr K V} {a : Nat} {k : K} {v : V} {h : Int}
    {ctx : List (Frame K V)} (key : K) (val : V) (hz : RepZ m (.node .nil a k v h r) ctx) :
    ∃ m1, m.assign a (fun n => { n with Left := some m.nodes.length }) = .ok m1 ∧
      RepZ { m1.link key val (some a) with count := (m1.link key val (some a)).count + 1 }
        (.node (Tr.leaf m.nodes.length key val) a k v h r) ctx ∧
      m1.count = m.count ∧ m1.nodes.length = m.nodes.length := by
  obtain ⟨-, har, hac, -, -, -, -, -, -⟩ := hz.distinct
  have hlt : ∀ x ∈ (Tr.node .nil a k v h r).addrs ++ ctxAddrs ctx, x < m.nodes.length :=
    fun x hx => hz.addr_lt hx
  obtain ⟨hhead, ⟨ca, -, hr⟩, hctx, hnd⟩ := hz
  obtain ⟨m1, e1, c1, hd1, ct1, ln1⟩ :=
    TreeMap.assign_spec m a (fun n => { n with Left := some m.nodes.length }) _ ca
  have hcell : ∀ x, x ≠ a → x < m.nodes.length →
      TreeMap.cell { m1.link key val (some a) with count := (m1.link key val (some a)).count + 1 } x
        = m.cell x := by
    intro x hxa hxl
    show (m1.link key val (some a)).cell x = m.cell x
    rw [TreeMap.cell_link, ln1, if_neg (Nat.ne_of_lt hxl), c1, Function.update_noteq hxa]
  have hal1 : a < m.nodes.length := TreeMap.cell_lt ca
  refine ⟨m1, e1, ⟨?_, ⟨?_, ?_, ?_⟩, ?_, ?_⟩, ct1, ln1⟩
  · show m1.Head = _
    rw [hd1, hhead]; rfl
  · show (m1.link key val (some a)).cell a = _
    rw [TreeMap.cell_link, ln1, if_neg (Nat.ne_of_lt hal1), c1]; simp [Tr.leaf, Tr.root]
  · refine ⟨?_, trivial, trivial⟩
    show (m1.link key val (some a)).cell m.nodes.length = _
    rw [TreeMap.cell_link, ln1, if_pos rfl]; rfl
  · exact hr.frame (fun x hx => hcell x (by rintro rfl; exact har hx)
      (hlt x (by simp [Tr.addrs, hx])))
  · exact RepCtx.frame_ctx hctx (fun x hx => hcell x (by rintro rfl; exact hac hx)
      (hlt x (by simp [hx])))
  · have hnew : m.nodes.length ∉ (Tr.node .nil a k v h r).addrs ++ ctxAddrs ctx :=
      fun hx => Nat.lt_irrefl _ (hlt _ hx)
    have hp : ((Tr.node (Tr.leaf m.nodes.length key val) a k v h r).addrs ++ ctxAddrs ctx).Perm
        (m.nodes.length :: ((Tr.node .nil a k v h r).addrs ++ ctxAddrs ctx)) := by
      rw [List.perm_iff_count]
      intro x
      simp only [Tr.addrs, Tr.leaf, List.count_append, List.count_cons, List.count_nil]
      omega
    exact hp.nodup_iff.mpr (List.nodup_cons.mpr ⟨hnew, hnd⟩)


/-! ## Tree-level facts that need no invariant -/

theorem Tr.size_eq_length (t : Tr K V) : t.size = t.toList.length := by
  induction t with
  | nil => rfl
  | node l a k v h r ihl ihr => simp [Tr.size, Tr.toList, ihl, ihr]; omega

theorem toList_plug (t : Tr K V) (ctx : List (Frame K V)) :
    (plug t ctx).toList = wrap ctx t.toList := by
  induction ctx generalizing t with
  | nil => rfl
  | cons f rest ih =>
    cases f with
    | L a k v h r => simp [plug, wrap, ih, Frame.fill, Tr.toList]
    | R l a k v h => simp [plug, wrap, ih, Frame.fill, Tr.toList]

theorem Tr.toList_mk (l r : Tr K V) (a : Nat) (k : K) (v : V) :
    (Tr.mk l a k v r).toList = l.toList ++ (k, v) :: r.toList := rfl

/-- A rotation keeps the in-order sequence of entries. -/
theorem rebalance_toList {t t1 : Tr K V} (h : t.rebalance = some t1) : t1.toList = t.toList := by
  cases t with
  | nil => simp [Tr.rebalance] at h
  | node l a k v hh r =>
    simp only [Tr.rebalance] at h
    by_cases hle : l.ht ≤ r.ht
    · simp only [hle, if_true] at h
      cases r with
      | nil => simp at h
      | node rl b kb vb hb rr =>
        by_cases hle2 : rl.ht ≤ rr.ht
        · simp only [hle2, if_true, Option.some.injEq] at h
          subst h
          simp [Tr.toList, Tr.mk]
        · simp only [hle2, if_false] at h
          cases rl with
          | nil => simp at h
          | node rll c kc vc hc rlr =>
            simp only [Option.some.injEq] at h
            subst h
            simp [Tr.toList, Tr.mk]
    · simp only [hle, if_false] at h
      cases l with
      | nil => simp at h
      | node ll b kb vb hb lr =>
        by_cases hle2 : ll.ht ≥ lr.ht
        · simp only [hle2, if_true, Option.some.injEq] at h
          subst h
          simp [Tr.toList, Tr.mk]
        · simp only [hle2, if_false] at h
          cases lr with
          | nil => simp at h
          | node lrl c kc vc hc lrr =>
            simp only [Option.some.injEq] at h
            subst h
            simp [Tr.toList, Tr.mk]

/-- One pass of the repair loop keeps the in-order sequence of the whole tree. -/
theorem stepZ_toList {t : Tr K V} {ctx : List (Frame K V)}
    {res : Tr K V × List (Frame K V) ⊕ Tr K V} (h : stepZ t ctx = some res) :
    (match res with
      | .inl (t1, ctx1) => (plug t1 ctx1).toList
      | .inr t1 => t1.toList) = (plug t ctx).toList := by
  cases t with
  | nil => simp [stepZ] at h
  | node l a k v hh r =>
    simp only [stepZ] at h
    by_cases hb : balTest l.ht r.ht = true
    · simp only [hb, if_true] at h
      cases ctx with
      | nil =>
        simp only [Option.some.injEq] at h
        subst h
        rfl
      | cons f rest =>
        simp only [Option.some.injEq] at h
        subst h
        show (plug (f.fill (Tr.mk l a k v r)) rest).toList = (plug (f.fill (.node l a k v hh r)) rest).toList
        rw [toList_plug, toList_plug]
        cases f <;> rfl
    · simp only [hb, if_false] at h
      cases hreb : (Tr.node l a k v hh r).rebalance with
      | none => simp [hreb] at h
      | some t1 =>
        simp only [hreb, Bool.false_eq_true, if_false, Option.some.injEq] at h
        subst h
        show (plug t1 ctx).toList = _
        rw [toList_plug, toList_plug, rebalance_toList hreb]

/-- The repair loop keeps the in-order sequence of the whole tree. -/
theorem loopZ_toList (fuel : Nat) {t t1 : Tr K V} {ctx : List (Frame K V)}
    (h : loopZ fuel t ctx = some t1) : t1.toList = (plug t ctx).toList := by
  induction fuel generalizing t ctx with
  | zero => simp [loopZ] at h
  | succ fuel ih =>
    simp only [loopZ] at h
    cases hstep : stepZ t ctx with
    | none => simp [hstep] at h
    | some res =>
      have hs := stepZ_toList hstep
      cases res with
      | inl p =>
        obtain ⟨t2, ctx2⟩ := p
        simp only [hstep] at h
        rw [ih h]; exact hs
      | inr t2 =>
        simp only [hstep, Option.some.injEq] at h
        subst h
        exact hs

/-- The spot found by the descent is a view of the same tree. -/
theorem insZ_plug [LinearOrder K] (key : K) (t : Tr K V) (ctx : List (Frame K V)) :
    (match insZ key t ctx with
      | .right l a k v h ctx1 => plug (.node l a k v h .nil) ctx1 = plug t ctx
      | .left a k v h r ctx1 => plug (.node .nil a k v h r) ctx1 = plug t ctx
      | .present => True) := by
  induction t generalizing ctx with
  | nil => simp [insZ]
  | node l a k v h r ihl ihr =>
    simp only [insZ]
    by_cases h1 : key > k
    · simp only [h1, if_true]
      cases r with
      | nil => rfl
      | node rl c kc vc hc rr => exact ihr (Frame.R l a k v h :: ctx)
    · simp only [h1, if_false]
      by_cases h2 : key < k
      · simp only [h2, if_true]
        cases l with
        | nil => rfl
        | node ll c kc vc hc lr => exact ihl (Frame.L a k v h r :: ctx)
      · simp only [h2, if_false]

theorem length_wrap (ctx : List (Frame K V)) (m1 m2 : List (K × V)) (n : Nat)
    (h : m1.length = m2.length + n) : (wrap ctx m1).length = (wrap ctx m2).length + n := by
  induction ctx generalizing m1 m2 with
  | nil => exact h
  | cons f rest ih =>
    cases f with
    | L a k v hh r => exact ih _ _ (by simp [h]; omega)
    | R l a k v hh => exact ih _ _ (by simp [h]; omega)


theorem length_le_of_nodup_lt {l : List Nat} {n : Nat} (hnd : l.Nodup) (h : ∀ x ∈ l, x < n) :
    l.length ≤ n := by
  have h1 : l.toFinset ⊆ Finset.range n := by
    intro x hx
    simp only [List.mem_toFinset] at hx
    simpa using h x hx
  have h2 := Finset.card_le_card h1
  rwa [List.toFinset_card_of_nodup hnd, Finset.card_range] at h2

theorem Tr.height_le_size (t : Tr K V) : t.height ≤ t.size := by
  induction t with
  | nil => simp [Tr.height]
  | node l a k v h r ihl ihr => simp only [Tr.height, Tr.size]; omega

theorem Tr.size_eq_addrs (t : Tr K V) : t.size = t.addrs.length := by
  induction t with
  | nil => rfl
  | node l a k v h r ihl ihr => simp [Tr.size, Tr.addrs, ihl, ihr]; omega

/-- A represented tree has no more nodes than the store has cells. -/
theorem RepZ.size_le {m : TreeMap K V} {t : Tr K V} (hz : RepZ m t []) :
    t.size ≤ m.nodes.length := by
  rw [Tr.size_eq_addrs]
  have hnd := hz.nodup
  simp only [ctxAddrs, List.append_nil] at hnd
  exact length_le_of_nodup_lt hnd (fun x hx => hz.addr_lt (by simp [hx]))

theorem TreeMap.length_link (m : TreeMap K V) (k : K) (v : V) (par : Option Nat) :
    (m.link k v par).nodes.length = m.nodes.length + 1 := by
  simp [TreeMap.link]

/-- `insert` on a represented tree: the store afterwards represents `Tr.insert`. -/
theorem insert_spec [LinearOrder K] {m : TreeMap K V} {t t1 : Tr K V} (hz : RepZ m t [])
    (hcount : m.count = t.size) (fuel : Nat) (key : K) (val : V)
    (hins : t.insert fuel m.nodes.length key val = some t1) :
    ∃ m1, m.insertWith fuel key val = .ok m1 ∧ RepZ m1 t1 [] ∧ m1.count = t1.size := by
  cases t with
  | nil =>
    have hh : m.Head = none := hz.head
    simp only [Tr.insert, Option.some.injEq] at hins
    subst hins
    refine ⟨{ m.link key val none with Head := some m.nodes.length, count := m.count + 1 },
      by simp only [TreeMap.insertWith, hh], ⟨rfl, ⟨?_, trivial, trivial⟩, trivial, ?_⟩, ?_⟩
    · show (m.link key val none).cell m.nodes.length = _
      rw [TreeMap.cell_link, if_pos rfl]; rfl
    · simp [Tr.leaf, Tr.addrs, ctxAddrs]
    · show m.count + 1 = _
      rw [hcount]; rfl
  | node l a k v h r =>
    have hh : m.Head = some a := hz.head
    have hfuel : (Tr.node l a k v h r).height ≤ m.nodes.length + 1 :=
      le_trans (Tr.height_le_size _) (le_trans hz.size_le (Nat.le_succ _))
    obtain ⟨hd, hspot⟩ := insertDescend_spec key (m.nodes.length + 1) hz rfl hfuel
    have hplug := insZ_plug key (Tr.node l a k v h r) []
    simp only [Tr.insert] at hins
    simp only [TreeMap.insertWith, hh, hd]
    cases hsp : insZ key (Tr.node l a k v h r) [] with
    | present =>
      simp only [hsp, Option.some.injEq] at hins
      subst hins
      exact ⟨m, rfl, hz, hcount⟩
    | right l1 b kb vb hb ctx1 =>
      simp only [hsp] at hins hspot hplug
      obtain ⟨m1, e1, hz1, ct1, ln1⟩ := attach_right_spec key val hspot
      obtain ⟨m2, e2, hz2, ct2, ln2⟩ := repairsTree_spec _ hz1 rfl hins
      refine ⟨m2, ?_, hz2, ?_⟩
      · simp only [Spot.slot, e1]; exact e2
      · rw [ct2]
        show (m1.link key val (some b)).count + 1 = _
        have hs : t1.size = (Tr.node l a k v h r).size + 1 := by
          rw [Tr.size_eq_length, loopZ_toList _ hins, toList_plug, Tr.size_eq_length,
            show (Tr.node l a k v h r) = plug (Tr.node l a k v h r) [] from rfl, ← hplug,
            toList_plug]
          exact length_wrap _ _ _ 1 (by simp [Tr.toList, Tr.leaf])
        rw [hs, ← hcount, ← ct1]; rfl
    | left b kb vb hb r1 ctx1 =>
      simp only [hsp] at hins hspot hplug
      obtain ⟨m1, e1, hz1, ct1, ln1⟩ := attach_left_spec key val hspot
      obtain ⟨m2, e2, hz2, ct2, ln2⟩ := repairsTree_spec _ hz1 rfl hins
      refine ⟨m2, ?_, hz2, ?_⟩
      · simp only [Spot.slot, e1]; exact e2
      · rw [ct2]
        show (m1.link key val (some b)).count + 1 = _
        have hs : t1.size = (Tr.node l a k v h r).size + 1 := by
          rw [Tr.size_eq_length, loopZ_toList _ hins, toList_plug, Tr.size_eq_length,
            show (Tr.node l a k v h r) = plug (Tr.node l a k v h r) [] from rfl, ← hplug,
            toList_plug]
          exact length_wrap _ _ _ 1 (by simp [Tr.toList, Tr.leaf])
        rw [hs, ← hcount, ← ct1]; rfl


/-! ## Balance is restored by the repair loop -/

theorem balTest_iff (l r : Int) : balTest l r = true ↔ l ≤ r + 1 ∧ r ≤ l + 1 := by
  simp only [balTest, Bool.or_eq_true, decide_eq_true_eq]
  omega

theorem Tr.Good.ht_nonneg {t : Tr K V} (h : t.Good) : 0 ≤ t.ht := by
  induction t with
  | nil => simp [Tr.ht]
  | node l a k v hh r ihl ihr =>
    obtain ⟨h1, h2, h3, -, -⟩ := h
    have := ihl h1
    have := ihr h2
    simp only [Tr.ht_node]
    omega

/-- For a good tree the cached height is the actual height. -/
theorem Tr.Good.ht_eq_height {t : Tr K V} (h : t.Good) : t.ht = t.height := by
  induction t with
  | nil => simp [Tr.ht, Tr.height]
  | node l a k v hh r ihl ihr =>
    obtain ⟨h1, h2, h3, -, -⟩ := h
    have := ihl h1
    have := ihr h2
    simp only [Tr.ht_node, Tr.height]
    omega

theorem Tr.good_mk {l r : Tr K V} {a : Nat} {k : K} {v : V} (hl : l.Good) (hr : r.Good)
    (h1 : l.ht ≤ r.ht + 1) (h2 : r.ht ≤ l.ht + 1) : (Tr.mk l a k v r).Good :=
  ⟨hl, hr, rfl, h1, h2⟩

/-- A node that is out of balance by two is rotated into a node whose children are good and
balanced; the height of the subtree stays or shrinks by one. -/
theorem rebalance_good {l r : Tr K V} {a : Nat} {k : K} {v : V} {h : Int} (hl : l.Good)
    (hr : r.Good) (hd : l.ht = r.ht + 2 ∨ r.ht = l.ht + 2) :
    ∃ l1 b kb vb hb r1, (Tr.node l a k v h r).rebalance = some (.node l1 b kb vb hb r1) ∧
      l1.Good ∧ r1.Good ∧ l1.ht ≤ r1.ht + 1 ∧ r1.ht ≤ l1.ht + 1 ∧
      max l.ht r.ht ≤ max l1.ht r1.ht + 1 ∧ max l1.ht r1.ht + 1 ≤ max l.ht r.ht + 1 := by
  have hl0 := hl.ht_nonneg
  have hr0 := hr.ht_nonneg
  simp only [Tr.rebalance]
  by_cases hle : l.ht ≤ r.ht
  · simp only [hle, if_true]
    cases r with
    | nil => simp only [Tr.ht_nil] at hd hle hl0 hr0; omega
    | node rl b kb vb hb rr =>
      obtain ⟨g1, g2, g3, g4, g5⟩ := hr
      have := g1.ht_nonneg
      have := g2.ht_nonneg
      simp only [Tr.ht_node] at hd hle hl0 hr0
      by_cases hle2 : rl.ht ≤ rr.ht
      · simp only [hle2, if_true]
        refine ⟨_, _, _, _, _, _, rfl, Tr.good_mk hl g1 ?_ ?_, g2, ?_, ?_, ?_, ?_⟩ <;>
          (try simp only [Tr.ht_mk, Tr.ht_node]) <;> omega
      · simp only [hle2, if_false]
        cases rl with
        | nil => simp only [Tr.ht_nil] at hle2 g3 g4 g5; omega
        | node rll c kc vc hc rlr =>
          obtain ⟨e1, e2, e3, e4, e5⟩ := g1
          have := e1.ht_nonneg
          have := e2.ht_nonneg
          simp only [Tr.ht_node] at hle2 g3 g4 g5
          refine ⟨_, _, _, _, _, _, rfl, Tr.good_mk hl e1 ?_ ?_, Tr.good_mk e2 g2 ?_ ?_,
            ?_, ?_, ?_, ?_⟩ <;> (try simp only [Tr.ht_mk, Tr.ht_node]) <;> omega
  · simp only [hle, if_false]
    cases l with
    | nil => simp only [Tr.ht_nil] at hd hle hl0 hr0; omega
    | node ll b kb vb hb lr =>
      obtain ⟨g1, g2, g3, g4, g5⟩ := hl
      have := g1.ht_nonneg
      have := g2.ht_nonneg
      simp only [Tr.ht_node] at hd hle hl0 hr0
      by_cases hle2 : ll.ht ≥ lr.ht
      · simp only [hle2, if_true]
        refine ⟨_, _, _, _, _, _, rfl, g1, Tr.good_mk g2 hr ?_ ?_, ?_, ?_, ?_, ?_⟩ <;>
          (try simp only [Tr.ht_mk, Tr.ht_node]) <;> omega
      · simp only [hle2, if_false]
        cases lr with
        | nil => simp only [Tr.ht_nil] at hle2 g3 g4 g5; omega
        | node lrl c kc vc hc lrr =>
          obtain ⟨e1, e2, e3, e4, e5⟩ := g2
          have := e1.ht_nonneg
          have := e2.ht_nonneg
          simp only [Tr.ht_node] at hle2 g3 g4 g5
          refine ⟨_, _, _, _, _, _, rfl, Tr.good_mk g1 e1 ?_ ?_, Tr.good_mk e2 hr ?_ ?_,
            ?_, ?_, ?_, ?_⟩ <;> (try simp only [Tr.ht_mk, Tr.ht_node]) <;> omega

/-- Under the invariant the repair loop ends within two passes per level and leaves a good tree. -/
theorem loopZ_good (fuel : Nat) {l r : Tr K V} {a : Nat} {k : K} {v : V} {h z : Int}
    {ctx : List (Frame K V)} (hinv : Inv z l r) (hctx : CtxGood z ctx)
    (hfuel : 2 * ctx.length + (if balTest l.ht r.ht = true then 1 else 2) ≤ fuel) :
    ∃ t1, loopZ fuel (.node l a k v h r) ctx = some t1 ∧ t1.Good := by
  induction fuel generalizing l r a k v h z ctx with
  | zero => split at hfuel <;> omega
  | succ fuel ih =>
    obtain ⟨hl, hr, hcase⟩ := hinv
    simp only [loopZ, stepZ]
    by_cases hb : balTest l.ht r.ht = true
    · simp only [hb, if_true] at hfuel ⊢
      have hb1 := (balTest_iff _ _).mp hb
      have hcase1 : z ≤ max l.ht r.ht + 1 ∧ max l.ht r.ht ≤ z := by
        rcases hcase with ⟨-, -, h1, h2⟩ | ⟨h1, -⟩
        · exact ⟨h1, h2⟩
        · omega
      cases ctx with
      | nil => exact ⟨_, rfl, Tr.good_mk hl hr hb1.1 hb1.2⟩
      | cons f rest =>
        simp only [List.length_cons] at hfuel
        have hfuel1 : ∀ b : Bool, 2 * rest.length + (if b = true then 1 else 2) ≤ fuel := by
          intro b; split <;> omega
        cases f with
        | L b kb vb hb2 s =>
          obtain ⟨c1, c2, c3, c4, c5⟩ := hctx
          simp only [Frame.fill]
          refine ih (z := hb2) ⟨Tr.good_mk hl hr hb1.1 hb1.2, c1, ?_⟩ c5 (hfuel1 _)
          simp only [Tr.ht_mk, Tr.ht_node]
          omega
        | R s b kb vb hb2 =>
          obtain ⟨c1, c2, c3, c4, c5⟩ := hctx
          simp only [Frame.fill]
          refine ih (z := hb2) ⟨c1, Tr.good_mk hl hr hb1.1 hb1.2, ?_⟩ c5 (hfuel1 _)
          simp only [Tr.ht_mk, Tr.ht_node]
          omega
    · simp only [hb, Bool.false_eq_true, if_false] at hfuel ⊢
      have hb1 : ¬(l.ht ≤ r.ht + 1 ∧ r.ht ≤ l.ht + 1) := fun hh => hb ((balTest_iff _ _).mpr hh)
      have hcase1 : (l.ht = r.ht + 2 ∨ r.ht = l.ht + 2) ∧ max l.ht r.ht = z := by
        rcases hcase with ⟨h1, h2, -, -⟩ | h1
        · exact absurd ⟨h1, h2⟩ hb1
        · exact h1
      obtain ⟨l1, b, kb, vb, hb2, r1, e, g1, g2, g3, g4, g5, g6⟩ :=
        rebalance_good (a := a) (k := k) (v := v) (h := h) hl hr hcase1.1
      simp only [e, Bool.false_eq_true, if_false]
      have hbal : balTest l1.ht r1.ht = true := (balTest_iff _ _).mpr ⟨g3, g4⟩
      refine ih (z := z) ⟨g1, g2, Or.inl ⟨g3, g4, ?_, ?_⟩⟩ hctx ?_
      · omega
      · omega
      · simp only [hbal, if_true]; omega


/-! ## Sorted insertion on the in-order list -/

theorem insL_append_gt [LinearOrder K] (key : K) (val : V) (l1 l2 : List (K × V))
    (h : ∀ p ∈ l1, p.1 < key) : insL key val (l1 ++ l2) = l1 ++ insL key val l2 := by
  induction l1 with
  | nil => rfl
  | cons p rest ih =>
    obtain ⟨k, v⟩ := p
    have hk : k < key := h (k, v) (List.mem_cons_self _ _)
    simp only [List.cons_append, insL, not_lt.mpr (le_of_lt hk), if_false, hk, if_true]
    exact congrArg ((k, v) :: ·) (ih (fun p hp => h p (List.mem_cons_of_mem _ hp)))

theorem insL_append_lt [LinearOrder K] (key : K) (val : V) (l1 l2 : List (K × V)) (k0 : K)
    (v0 : V) (h : key < k0) :
    insL key val (l1 ++ (k0, v0) :: l2) = insL key val l1 ++ (k0, v0) :: l2 := by
  induction l1 with
  | nil => simp [insL, h]
  | cons p rest ih =>
    obtain ⟨k, v⟩ := p
    simp only [List.cons_append, insL]
    by_cases h1 : key < k
    · simp [h1]
    · simp only [h1, if_false]
      by_cases h2 : k < key
      · simp [h2, ih]
      · simp [h2]

theorem Tr.Bst.parts [LinearOrder K] {l r : Tr K V} {a : Nat} {k : K} {v : V} {h : Int}
    (hb : (Tr.node l a k v h r).Bst) :
    l.Bst ∧ r.Bst ∧ (∀ p ∈ l.toList, p.1 < k) ∧ (∀ p ∈ r.toList, k < p.1) := by
  unfold Tr.Bst at hb ⊢
  simp only [Tr.toList, List.map_append, List.map_cons, List.pairwise_append,
    List.pairwise_cons, List.mem_map, List.mem_cons, forall_exists_index, and_imp] at hb
  obtain ⟨h1, ⟨h2, h3⟩, h4⟩ := hb
  refine ⟨h1, h3, fun p hp => ?_, fun p hp => ?_⟩
  · exact h4 p.1 p hp rfl k (Or.inl rfl)
  · exact h2 p.1 p hp rfl

/-- The descent of `insert` ends where sorted insertion puts the key. -/
theorem insZ_toList [LinearOrder K] (key : K) (val : V) (t : Tr K V) (ctx : List (Frame K V))
    (hb : t.Bst) (hne : t ≠ .nil) :
    (match insZ key t ctx with
      | .right l _ k v _ ctx1 =>
        wrap ctx1 (l.toList ++ (k, v) :: [(key, val)]) = wrap ctx (insL key val t.toList)
      | .left _ k v _ r ctx1 =>
        wrap ctx1 ((key, val) :: (k, v) :: r.toList) = wrap ctx (insL key val t.toList)
      | .present => insL key val t.toList = t.toList) := by
  induction t generalizing ctx with
  | nil => exact absurd rfl hne
  | node l a k v h r ihl ihr =>
    obtain ⟨hbl, hbr, hlt, hgt⟩ := hb.parts
    simp only [insZ]
    by_cases h1 : key > k
    · have h1a : k < key := h1
      have hl : ∀ p ∈ l.toList, p.1 < key := fun p hp => lt_trans (hlt p hp) h1
      have e : insL key val (Tr.node l a k v h r).toList
          = l.toList ++ (k, v) :: insL key val r.toList := by
        simp only [Tr.toList]
        rw [insL_append_gt key val _ _ hl]
        simp [insL, h1a, not_lt.mpr (le_of_lt h1a)]
      simp only [h1, if_true]
      cases r with
      | nil => simp only [e]; rfl
      | node rl c kc vc hc rr =>
        have := ihr (Frame.R l a k v h :: ctx) hbr (by simp)
        simp only [e]
        revert this
        cases insZ key (Tr.node rl c kc vc hc rr) (Frame.R l a k v h :: ctx) with
        | present => intro this; simp only [this]; rfl
        | right l1 b kb vb hb ctx1 => intro this; exact this
        | left b kb vb hb r1 ctx1 => intro this; exact this
    · simp only [h1, if_false]
      by_cases h2 : key < k
      · have e : insL key val (Tr.node l a k v h r).toList
            = insL key val l.toList ++ (k, v) :: r.toList := by
          simp only [Tr.toList]
          exact insL_append_lt key val _ _ k v h2
        simp only [h2, if_true]
        cases l with
        | nil => simp only [e]; rfl
        | node ll c kc vc hc lr =>
          have := ihl (Frame.L a k v h r :: ctx) hbl (by simp)
          simp only [e]
          revert this
          cases insZ key (Tr.node ll c kc vc hc lr) (Frame.L a k v h r :: ctx) with
          | present => intro this; simp only [this]; rfl
          | right l1 b kb vb hb ctx1 => intro this; exact this
          | left b kb vb hb r1 ctx1 => intro this; exact this
      · simp only [h2, if_false]
        have hk : key = k := le_antisymm (not_lt.mp h1) (not_lt.mp h2)
        subst hk
        simp only [Tr.toList]
        rw [insL_append_gt key val _ _ hlt]
        simp [insL]

/-- The spot where the descent ends satisfies what the repair loop needs. -/
theorem insZ_good [LinearOrder K] (key : K) (t : Tr K V) (ctx : List (Frame K V))
    (hg : t.Good) (hctx : CtxGood t.ht ctx) :
    (match insZ key t ctx with
      | .right l _ _ _ h ctx1 =>
        l.Good ∧ CtxGood h ctx1 ∧ h = max l.ht 0 + 1 ∧ l.ht ≤ 1 ∧
          ctx1.length + 1 ≤ ctx.length + t.height
      | .left _ _ _ h r ctx1 =>
        r.Good ∧ CtxGood h ctx1 ∧ h = max 0 r.ht + 1 ∧ r.ht ≤ 1 ∧
          ctx1.length + 1 ≤ ctx.length + t.height
      | .present => True) := by
  induction t generalizing ctx with
  | nil => simp [insZ]
  | node l a k v h r ihl ihr =>
    obtain ⟨g1, g2, g3, g4, g5⟩ := hg
    simp only [insZ]
    by_cases h1 : key > k
    · simp only [h1, if_true]
      cases r with
      | nil =>
        simp only [Tr.ht_nil, Tr.ht_node] at g3 g4 g5 hctx
        exact ⟨g1, hctx, g3, by omega, by simp [Tr.height]⟩
      | node rl c kc vc hc rr =>
        have := ihr (Frame.R l a k v h :: ctx) g2 ⟨g1, g5, g4, g3, hctx⟩
        revert this
        cases insZ key (Tr.node rl c kc vc hc rr) (Frame.R l a k v h :: ctx) with
        | present => intro _; trivial
        | right l1 b kb vb hb ctx1 =>
          rintro ⟨q1, q2, q3, q4, q5⟩
          refine ⟨q1, q2, q3, q4, ?_⟩
          simp only [List.length_cons, Tr.height] at q5 ⊢
          omega
        | left b kb vb hb r1 ctx1 =>
          rintro ⟨q1, q2, q3, q4, q5⟩
          refine ⟨q1, q2, q3, q4, ?_⟩
          simp only [List.length_cons, Tr.height] at q5 ⊢
          omega
    · simp only [h1, if_false]
      by_cases h2 : key < k
      · simp only [h2, if_true]
        cases l with
        | nil =>
          simp only [Tr.ht_nil, Tr.ht_node] at g3 g4 g5 hctx
          exact ⟨g2, hctx, g3, by omega, by simp [Tr.height]⟩
        | node ll c kc vc hc lr =>
          have := ihl (Frame.L a k v h r :: ctx) g1 ⟨g2, g4, g5, g3, hctx⟩
          revert this
          cases insZ key (Tr.node ll c kc vc hc lr) (Frame.L a k v h r :: ctx) with
          | present => intro _; trivial
          | right l1 b kb vb hb ctx1 =>
            rintro ⟨q1, q2, q3, q4, q5⟩
            refine ⟨q1, q2, q3, q4, ?_⟩
            simp only [List.length_cons, Tr.height] at q5 ⊢
            omega
          | left b kb vb hb r1 ctx1 =>
            rintro ⟨q1, q2, q3, q4, q5⟩
            refine ⟨q1, q2, q3, q4, ?_⟩
            simp only [List.length_cons, Tr.height] at q5 ⊢
            omega
      · simp only [h2, if_false]

theorem Tr.good_leaf (a : Nat) (k : K) (v : V) : (Tr.leaf a k v).Good :=
  ⟨trivial, trivial, rfl, by simp [Tr.ht_nil], by simp [Tr.ht_nil]⟩

/-- Insertion into a good search tree: the loop ends, the result is good again and its
in-order sequence is the sorted insertion into the old one. -/
theorem Tr.insert_good [LinearOrder K] {t : Tr K V} (hg : t.Good) (hb : t.Bst)
    (fuel new : Nat) (key : K) (val : V) (hfuel : 2 * t.size + 2 ≤ fuel) :
    ∃ t1, t.insert fuel new key val = some t1 ∧ t1.Good ∧
      t1.toList = insL key val t.toList := by
  cases t with
  | nil => exact ⟨_, rfl, Tr.good_leaf _ _ _, rfl⟩
  | node l a k v h r =>
    have hgd := insZ_good key (Tr.node l a k v h r) [] hg trivial
    have htl := insZ_toList key val (Tr.node l a k v h r) [] hb (by simp)
    have hsz := Tr.height_le_size (Tr.node l a k v h r)
    simp only [Tr.insert]
    cases hsp : insZ key (Tr.node l a k v h r) [] with
    | present =>
      simp only [hsp] at htl
      exact ⟨_, rfl, hg, htl.symm⟩
    | right l1 b kb vb hb1 ctx1 =>
      simp only [hsp, List.length_nil, zero_add] at htl hgd
      obtain ⟨q1, q2, q3, q4, q5⟩ := hgd
      have q0 := q1.ht_nonneg
      have hinv : Inv hb1 l1 (Tr.leaf new key val) := by
        refine ⟨q1, Tr.good_leaf _ _ _, Or.inl ?_⟩
        simp only [Tr.leaf, Tr.ht_node]
        omega
      obtain ⟨t1, e1, g1⟩ := loopZ_good fuel (a := b) (k := kb) (v := vb) (h := hb1) hinv q2
        (by split <;> omega)
      refine ⟨t1, e1, g1, ?_⟩
      rw [loopZ_toList _ e1, toList_plug]
      exact htl
    | left b kb vb hb1 r1 ctx1 =>
      simp only [hsp, List.length_nil, zero_add] at htl hgd
      obtain ⟨q1, q2, q3, q4, q5⟩ := hgd
      have q0 := q1.ht_nonneg
      have hinv : Inv hb1 (Tr.leaf new key val) r1 := by
        refine ⟨Tr.good_leaf _ _ _, q1, Or.inl ?_⟩
        simp only [Tr.leaf, Tr.ht_node]
        omega
      obtain ⟨t1, e1, g1⟩ := loopZ_good fuel (a := b) (k := kb) (v := vb) (h := hb1) hinv q2
        (by split <;> omega)
      refine ⟨t1, e1, g1, ?_⟩
      rw [loopZ_toList _ e1, toList_plug]
      exact htl


theorem mem_insL [LinearOrder K] (key : K) (val : V) (l : List (K × V)) (p : K × V)
    (h : p ∈ insL key val l) : p = (key, val) ∨ p ∈ l := by
  induction l with
  | nil => simpa [insL] using h
  | cons q rest ih =>
    obtain ⟨k, v⟩ := q
    simp only [insL] at h
    by_cases h1 : key < k
    · simp only [h1, if_true, List.mem_cons] at h
      rcases h with h | h | h
      · exact Or.inl h
      · exact Or.inr (by simp [h])
      · exact Or.inr (by simp [h])
    · simp only [h1, if_false] at h
      by_cases h2 : k < key
      · simp only [h2, if_true, List.mem_cons] at h
        rcases h with h | h
        · exact Or.inr (by simp [h])
        · rcases ih h with h | h
          · exact Or.inl h
          · exact Or.inr (by simp [h])
      · simp only [h2, if_false] at h
        exact Or.inr h

/-- Sorted insertion keeps the keys strictly increasing. -/
theorem insL_sorted [LinearOrder K] (key : K) (val : V) (l : List (K × V))
    (h : (l.map Prod.fst).Pairwise (· < ·)) :
    ((insL key val l).map Prod.fst).Pairwise (· < ·) := by
  induction l with
  | nil => simp [insL]
  | cons q rest ih =>
    obtain ⟨k, v⟩ := q
    simp only [List.map_cons, List.pairwise_cons, List.mem_map, forall_exists_index,
      and_imp] at h
    obtain ⟨h1, h2⟩ := h
    simp only [insL]
    by_cases c1 : key < k
    · rw [if_pos c1]
      simp only [List.map_cons, List.pairwise_cons, List.mem_cons, List.mem_map,
        forall_eq_or_imp, forall_exists_index, and_imp]
      exact ⟨⟨c1, fun x p hp hx => lt_trans c1 (h1 x p hp hx)⟩, h1, h2⟩
    · simp only [c1, if_false]
      by_cases c2 : k < key
      · simp only [c2, if_true, List.map_cons, List.pairwise_cons, List.mem_map,
          forall_exists_index, and_imp]
        refine ⟨fun x p hp hx => ?_, ih h2⟩
        rcases mem_insL key val rest p hp with e | e
        · subst e; subst hx; exact c2
        · exact h1 x p e hx
      · simp only [c2, if_false, List.map_cons, List.pairwise_cons, List.mem_map,
          forall_exists_index, and_imp]
        exact ⟨h1, h2⟩

theorem valid_empty [LinearOrder K] : Valid (TreeMap.empty : TreeMap K V) .nil :=
  ⟨⟨rfl, trivial, trivial, by simp [Tr.addrs, ctxAddrs]⟩, rfl, trivial, by simp [Tr.Bst, Tr.toList]⟩

/-- `insert` keeps the invariant and performs a sorted insertion on the in-order sequence. -/
theorem valid_insert [LinearOrder K] {m : TreeMap K V} {t : Tr K V} (hv : Valid m t) (key : K)
    (val : V) :
    ∃ m1 t1, m.insert key val = .ok m1 ∧ Valid m1 t1 ∧ t1.toList = insL key val t.toList := by
  have hsz := hv.rep.size_le
  obtain ⟨t1, e1, g1, l1⟩ := Tr.insert_good hv.good hv.bst (2 * (m.nodes.length + 1))
    m.nodes.length key val (by omega)
  obtain ⟨m1, e2, hz1, ct1⟩ := insert_spec hv.rep hv.count _ key val e1
  refine ⟨m1, t1, e2, ⟨hz1, ct1, g1, ?_⟩, l1⟩
  unfold Tr.Bst
  rw [l1]
  exact insL_sorted key val _ hv.bst

/-- Inserting a list of pairs in order keeps the invariant. -/
theorem valid_insertAll [LinearOrder K] {m : TreeMap K V} {t : Tr K V} (hv : Valid m t)
    (l : List (K × V)) :
    ∃ m1 t1, m.insertAll l = .ok m1 ∧ Valid m1 t1 ∧ t1.toList = buildL t.toList l := by
  induction l generalizing m t with
  | nil => exact ⟨m, t, rfl, hv, rfl⟩
  | cons p rest ih =>
    obtain ⟨k, v⟩ := p
    obtain ⟨m1, t1, e1, hv1, l1⟩ := valid_insert hv k v
    obtain ⟨m2, t2, e2, hv2, l2⟩ := ih hv1
    refine ⟨m2, t2, ?_, hv2, ?_⟩
    · simp only [TreeMap.insertAll, e1]; exact e2
    · rw [l2, l1]; rfl

/-- Every map built from a list of pairs satisfies the invariant. -/
theorem valid_ofList [LinearOrder K] (l : List (K × V)) :
    ∃ m t, TreeMap.ofList l = .ok m ∧ Valid m t ∧ t.toList = buildL [] l := by
  obtain ⟨m, t, e, hv, hl⟩ := valid_insertAll (valid_empty (K := K) (V := V)) l
  exact ⟨m, t, e, hv, hl⟩


/-! ## Cursor stepping on a represented tree -/

theorem Tr.items_toList (t : Tr K V) : t.items.map (fun x => x.2) = t.toList := by
  induction t with
  | nil => rfl
  | node l a k v h r ihl ihr => simp [Tr.items, Tr.toList, ihl, ihr]

theorem Tr.items_addrs (t : Tr K V) : t.items.map (fun x => x.1) = t.addrs := by
  induction t with
  | nil => rfl
  | node l a k v h r ihl ihr => simp [Tr.items, Tr.addrs, ihl, ihr]

theorem items_plug (t : Tr K V) (ctx : List (Frame K V)) :
    (plug t ctx).items = (beforeI ctx).reverse ++ t.items ++ afterI ctx := by
  induction ctx generalizing t with
  | nil => simp [plug, beforeI, afterI]
  | cons f rest ih =>
    cases f with
    | L a k v h r => simp [plug, beforeI, afterI, ih, Frame.fill, Tr.items]
    | R l a k v h => simp [plug, beforeI, afterI, ih, Frame.fill, Tr.items]

theorem RepZ.plug_iff {m : TreeMap K V} {t : Tr K V} {ctx : List (Frame K V)} :
    RepZ m (plug t ctx) [] ↔ RepZ m t ctx := by
  induction ctx generalizing t with
  | nil => rfl
  | cons f rest ih => exact ih.trans RepZ.refocus

theorem length_ctxAddrs (ctx : List (Frame K V)) : ctx.length ≤ (ctxAddrs ctx).length := by
  induction ctx with
  | nil => simp
  | cons f rest ih => simp only [ctxAddrs, List.length_cons, List.length_append]; omega

/-- Paths in a represented tree are no longer than the store. -/
theorem RepZ.height_le {m : TreeMap K V} {t : Tr K V} {ctx : List (Frame K V)}
    (hz : RepZ m t ctx) : t.height + ctx.length ≤ m.nodes.length := by
  have h1 := length_le_of_nodup_lt hz.nodup (fun x hx => hz.addr_lt hx)
  have h2 := Tr.height_le_size t
  have h3 := length_ctxAddrs ctx
  rw [Tr.size_eq_addrs] at h2
  simp only [List.length_append] at h1
  omega

/-- The loop that walks down left children ends at the first node of the subtree. -/
theorem leftmost_spec {m : TreeMap K V} (fuel : Nat) {l r : Tr K V} {a : Nat} {k : K} {v : V}
    {h : Int} {ctx : List (Frame K V)} (hz : RepZ m (.node l a k v h r) ctx)
    (hfuel : (Tr.node l a k v h r).height ≤ fuel) :
    ∃ b, m.leftmost fuel a = .ok b ∧
      Fwd m (some b) ((Tr.node l a k v h r).items ++ afterI ctx) := by
  induction l generalizing fuel a k v h r ctx with
  | nil =>
    cases fuel with
    | zero => simp [Tr.height] at hfuel
    | succ fuel =>
      refine ⟨a, ?_, .nil, k, v, h, r, ctx, hz, by simp [Tr.items]⟩
      simp [TreeMap.leftmost, TreeMap.deref_eq hz.rep.1, Tr.root]
  | node ll c kc vc hc lr ihl _ =>
    cases fuel with
    | zero => simp [Tr.height] at hfuel
    | succ fuel =>
      have hz1 : RepZ m (.node ll c kc vc hc lr) (Frame.L a k v h r :: ctx) :=
        RepZ.refocus.mp hz
      simp only [Tr.height, Nat.add_le_add_iff_right, max_le_iff] at hfuel
      obtain ⟨b, e, hf⟩ := ihl fuel hz1 (by simpa [Tr.height] using hfuel.1)
      refine ⟨b, ?_, ?_⟩
      · simp only [TreeMap.leftmost, TreeMap.deref_eq hz.rep.1, Tr.root_node]; exact e
      · simpa [Tr.items, afterI] using hf

/-- The upward loop of `operator++` ends at the next node in in-order, or at `nullptr`. -/
theorem climbNext_spec {m : TreeMap K V} (fuel : Nat) {l r : Tr K V} {a : Nat} {k : K} {v : V}
    {h : Int} {ctx : List (Frame K V)} (hz : RepZ m (.node l a k v h r) ctx)
    (hfuel : ctx.length + 1 ≤ fuel) :
    ∃ nx, m.climbNext fuel a = .ok nx ∧ Fwd m nx (afterI ctx) := by
  induction ctx generalizing fuel l r a k v h with
  | nil =>
    cases fuel with
    | zero => simp at hfuel
    | succ fuel =>
      refine ⟨none, ?_, rfl⟩
      simp [TreeMap.climbNext, TreeMap.deref_eq hz.rep.1, ctxPar]
  | cons f rest ih =>
    cases fuel with
    | zero => simp at hfuel
    | succ fuel =>
      simp only [List.length_cons, Nat.add_le_add_iff_right] at hfuel
      have hz1 := RepZ.refocus.mpr hz
      cases f with
      | L b kb vb hb s =>
        refine ⟨some b, ?_, _, kb, vb, hb, s, rest, hz1, rfl⟩
        simp [TreeMap.climbNext, TreeMap.deref_eq hz.rep.1, ctxPar, Frame.addr,
          TreeMap.deref_eq hz1.rep.1, Tr.root]
      | R s b kb vb hb =>
        obtain ⟨nx, e, hf⟩ := ih fuel hz1 hfuel
        refine ⟨nx, ?_, hf⟩
        have hne : s.root ≠ some a := by
          intro hh
          have hd := hz1.distinct
          exact hd.2.2.2.1 a (Tr.root_mem_addrs hh) (by simp [Tr.addrs])
        simp only [TreeMap.climbNext, TreeMap.deref_eq hz.rep.1, ctxPar, Frame.addr,
          TreeMap.deref_eq hz1.rep.1, hne, if_false]
        exact e

/-- `operator++` on a cursor positioned at a node. -/
theorem incr_spec {m : TreeMap K V} (self : Nat) {l r : Tr K V} {a : Nat} {k : K} {v : V}
    {h : Int} {ctx : List (Frame K V)} (hz : RepZ m (.node l a k v h r) ctx) :
    ∃ nx, ConstIterator.incr m ⟨some self, some a⟩ = .ok ⟨some self, nx⟩ ∧
      Fwd m nx (r.items ++ afterI ctx) := by
  have hlen := hz.height_le
  simp only [Tr.height] at hlen
  cases r with
  | nil =>
    obtain ⟨nx, e, hf⟩ := climbNext_spec m.nodes.length hz (by omega)
    refine ⟨nx, ?_, by simpa [Tr.items] using hf⟩
    simp [ConstIterator.incr, TreeMap.deref_eq hz.rep.1, Tr.root, e]
  | node rl c kc vc hc rr =>
    have hz1 : RepZ m (.node rl c kc vc hc rr) (Frame.R l a k v h :: ctx) := RepZ.refocus.mp hz
    obtain ⟨b, e, hf⟩ := leftmost_spec m.nodes.length hz1 (by omega)
    refine ⟨some b, ?_, by simpa [afterI] using hf⟩
    simp [ConstIterator.incr, TreeMap.deref_eq hz.rep.1, Tr.root, e]

/-- `cbegin` is positioned at the first node. -/
theorem cbegin_spec {m : TreeMap K V} (self : Nat) {t : Tr K V} (hz : RepZ m t []) :
    ∃ nx, m.cbegin self = .ok ⟨some self, nx⟩ ∧ Fwd m nx t.items := by
  cases t with
  | nil =>
    have hh : m.Head = none := hz.head
    exact ⟨none, by simp [TreeMap.cbegin, TreeMap.findLowNode, hh], rfl⟩
  | node l a k v h r =>
    have hh : m.Head = some a := hz.head
    have hlen := hz.height_le
    obtain ⟨b, e, hf⟩ := leftmost_spec m.nodes.length hz (by omega)
    refine ⟨some b, ?_, by simpa [afterI] using hf⟩
    simp [TreeMap.cbegin, TreeMap.findLowNode, hh, e]

/-- The forward loop visits exactly the nodes from the cursor to the end. -/
theorem collect_spec {m : TreeMap K V} (self : Nat) (fuel : Nat) {nx : Option Nat}
    {A : List (Nat × K × V)} (hf : Fwd m nx A) (hfuel : A.length + 1 ≤ fuel) :
    m.collect (m.cend self) fuel ⟨some self, nx⟩ = .ok (A.map (fun x => x.2)) := by
  induction A generalizing fuel nx with
  | nil =>
    cases nx with
    | none =>
      cases fuel with
      | zero => simp at hfuel
      | succ fuel => simp [TreeMap.collect, TreeMap.cend]
    | some a =>
      obtain ⟨l, k, v, h, r, ctx, -, e⟩ := hf
      exact absurd e (by simp)
  | cons x rest ih =>
    cases nx with
    | none => exact absurd hf (by simp [Fwd])
    | some a =>
      obtain ⟨l, k, v, h, r, ctx, hz, e⟩ := hf
      simp only [List.cons_append, List.cons.injEq] at e
      obtain ⟨rfl, rfl⟩ := e
      cases fuel with
      | zero => simp at hfuel
      | succ fuel =>
        simp only [List.length_cons, Nat.add_le_add_iff_right] at hfuel
        obtain ⟨nx1, e1, hf1⟩ := incr_spec self hz
        have := ih fuel hf1 hfuel
        simp only [TreeMap.cend] at this
        simp [TreeMap.collect, TreeMap.cend, ConstIterator.get, TreeMap.deref_eq hz.rep.1, e1,
          this]

/-- Forward traversal of a represented tree yields its in-order sequence of entries. -/
theorem traverse_spec {m : TreeMap K V} (self : Nat) {t : Tr K V} (hz : RepZ m t []) :
    m.traverse self = .ok t.toList := by
  obtain ⟨nx, e, hf⟩ := cbegin_spec self hz
  have hsz := hz.size_le
  rw [Tr.size_eq_length, ← Tr.items_toList, List.length_map] at hsz
  have := collect_spec self (m.nodes.length + 1) hf (by omega)
  simp only [TreeMap.traverse, e, Res.bind_ok, this, Tr.items_toList]


/-! ## Facts about the list that insertions build -/

theorem keys_insL [LinearOrder K] (key : K) (val : V) (l : List (K × V)) (k : K) :
    k ∈ (insL key val l).map Prod.fst ↔ k = key ∨ k ∈ l.map Prod.fst := by
  induction l with
  | nil => simp [insL]
  | cons q rest ih =>
    obtain ⟨k1, v1⟩ := q
    simp only [insL]
    by_cases h1 : key < k1
    · simp [h1]
    · simp only [h1, if_false]
      by_cases h2 : k1 < key
      · simp only [h2, if_true, List.map_cons, List.mem_cons, ih]
        tauto
      · have : key = k1 := le_antisymm (not_lt.mp h2) (not_lt.mp h1)
        subst this
        simp

theorem keys_buildL [LinearOrder K] (acc l : List (K × V)) (k : K) :
    k ∈ (buildL acc l).map Prod.fst ↔ k ∈ acc.map Prod.fst ∨ k ∈ l.map Prod.fst := by
  induction l generalizing acc with
  | nil => simp [buildL]
  | cons q rest ih =>
    obtain ⟨k1, v1⟩ := q
    simp only [buildL, ih, keys_insL, List.map_cons, List.mem_cons]
    tauto

theorem buildL_sorted [LinearOrder K] (acc l : List (K × V))
    (h : (acc.map Prod.fst).Pairwise (· < ·)) :
    ((buildL acc l).map Prod.fst).Pairwise (· < ·) := by
  induction l generalizing acc with
  | nil => exact h
  | cons q rest ih =>
    obtain ⟨k1, v1⟩ := q
    exact ih _ (insL_sorted k1 v1 acc h)

/-! ## Nodes of the tree -/

theorem plug_append (t : Tr K V) (ctx : List (Frame K V)) (f : Frame K V) :
    plug t (ctx ++ [f]) = f.fill (plug t ctx) := by
  induction ctx generalizing t with
  | nil => rfl
  | cons g rest ih => exact ih (g.fill t)

/-- Every address of a tree is the focus of one of its views. -/
theorem zipper_of_mem {t : Tr K V} {p : Nat} (hp : p ∈ t.addrs) :
    ∃ l k v h r ctx, plug (.node l p k v h r) ctx = t := by
  induction t with
  | nil => simp [Tr.addrs] at hp
  | node l a k v h r ihl ihr =>
    simp only [Tr.addrs, List.mem_append, List.mem_cons] at hp
    rcases hp with hp | rfl | hp
    · obtain ⟨l1, k1, v1, h1, r1, ctx, e⟩ := ihl hp
      exact ⟨l1, k1, v1, h1, r1, ctx ++ [Frame.L a k v h r], by rw [plug_append, e]; rfl⟩
    · exact ⟨l, k, v, h, r, [], rfl⟩
    · obtain ⟨l1, k1, v1, h1, r1, ctx, e⟩ := ihr hp
      exact ⟨l1, k1, v1, h1, r1, ctx ++ [Frame.R l a k v h], by rw [plug_append, e]; rfl⟩

theorem Rep.child_mem {c : Nat → Option (Node K V)} {par : Option Nat} {t : Tr K V}
    (h : Rep c par t) {q : Nat} (hq : q ∈ t.addrs) {n : Node K V} (hn : c q = some n) :
    (∀ p, n.Left = some p → p ∈ t.addrs) ∧ (∀ p, n.Right = some p → p ∈ t.addrs) := by
  induction t generalizing par with
  | nil => simp [Tr.addrs] at hq
  | node l a k v hh r ihl ihr =>
    obtain ⟨h1, h2, h3⟩ := h
    simp only [Tr.addrs, List.mem_append, List.mem_cons] at hq ⊢
    rcases hq with hq | rfl | hq
    · obtain ⟨q1, q2⟩ := ihl h2 hq
      exact ⟨fun p hp => Or.inl (q1 p hp), fun p hp => Or.inl (q2 p hp)⟩
    · rw [h1] at hn
      simp only [Option.some.injEq] at hn
      subst hn
      exact ⟨fun p hp => Or.inl (Tr.root_mem_addrs hp),
        fun p hp => Or.inr (Or.inr (Tr.root_mem_addrs hp))⟩
    · obtain ⟨q1, q2⟩ := ihr h3 hq
      exact ⟨fun p hp => Or.inr (Or.inr (q1 p hp)), fun p hp => Or.inr (Or.inr (q2 p hp))⟩

/-- Every node of the tree is an address of the represented tree. -/
theorem RepZ.mem_of_reaches {m : TreeMap K V} {t : Tr K V} (hz : RepZ m t []) {p : Nat}
    (hp : m.Reaches p) : p ∈ t.addrs := by
  induction hp with
  | head h =>
    rw [hz.head] at h
    exact Tr.root_mem_addrs h
  | left _ hn hl ih => exact (hz.rep.child_mem ih hn).1 _ hl
  | right _ hn hr ih => exact (hz.rep.child_mem ih hn).2 _ hr

/-- A view of a node of the represented tree. -/
theorem RepZ.view {m : TreeMap K V} {t : Tr K V} (hz : RepZ m t []) {p : Nat}
    (hp : p ∈ t.addrs) :
    ∃ l k v h r ctx, plug (.node l p k v h r) ctx = t ∧ RepZ m (.node l p k v h r) ctx := by
  obtain ⟨l, k, v, h, r, ctx, e⟩ := zipper_of_mem hp
  exact ⟨l, k, v, h, r, ctx, e, RepZ.plug_iff.mp (e ▸ hz)⟩

theorem good_of_plug {t : Tr K V} {ctx : List (Frame K V)} (h : (plug t ctx).Good) : t.Good := by
  induction ctx generalizing t with
  | nil => exact h
  | cons f rest ih =>
    have := ih h
    cases f with
    | L a k v hh r => exact this.1
    | R l a k v hh => exact this.2.1

/-- The actual height read off the store is the height of the represented tree. -/
theorem heightFrom_rep {m : TreeMap K V} {par : Option Nat} {t : Tr K V} (fuel : Nat)
    (h : Rep m.cell par t) (hfuel : t.height ≤ fuel) : m.heightFrom fuel t.root = t.height := by
  induction t generalizing par fuel with
  | nil => cases fuel <;> rfl
  | node l a k v hh r ihl ihr =>
    obtain ⟨h1, h2, h3⟩ := h
    cases fuel with
    | zero => simp [Tr.height] at hfuel
    | succ fuel =>
      simp only [Tr.height, Nat.add_le_add_iff_right, max_le_iff] at hfuel
      simp only [TreeMap.heightFrom, Tr.root_node, h1, ihl fuel h2 hfuel.1, ihr fuel h3 hfuel.2,
        Tr.height]


/-- The descent of `insert` stops at a key that is in the search tree. -/
theorem insZ_present [LinearOrder K] (key : K) (t : Tr K V) (ctx : List (Frame K V))
    (hb : t.Bst) (hk : key ∈ t.toList.map Prod.fst) : insZ key t ctx = .present := by
  induction t generalizing ctx with
  | nil => rfl
  | node l a k v h r ihl ihr =>
    obtain ⟨hbl, hbr, hlt, hgt⟩ := hb.parts
    simp only [Tr.toList, List.map_append, List.map_cons, List.mem_append, List.mem_cons,
      List.mem_map] at hk
    simp only [insZ]
    rcases hk with ⟨p, hp, rfl⟩ | rfl | ⟨p, hp, rfl⟩
    · have h1 := hlt p hp
      have hl : p.1 ∈ l.toList.map Prod.fst := List.mem_map_of_mem _ hp
      simp only [gt_iff_lt, not_lt.mpr (le_of_lt h1), if_false, h1, if_true]
      cases l with
      | nil => simp [Tr.toList] at hp
      | node ll c kc vc hc lr => exact ihl _ hbl hl
    · simp
    · have h1 := hgt p hp
      have hr : p.1 ∈ r.toList.map Prod.fst := List.mem_map_of_mem _ hp
      simp only [gt_iff_lt, h1, if_true]
      cases r with
      | nil => simp [Tr.toList] at hp
      | node rl c kc vc hc rr => exact ihr _ hbr hr

/-- Inserting a key that is present returns the state as it is. -/
theorem insert_present [LinearOrder K] {m : TreeMap K V} {t : Tr K V} (hv : Valid m t) (key : K)
    (val : V) (hk : key ∈ t.toList.map Prod.fst) : m.insert key val = .ok m := by
  cases t with
  | nil => simp [Tr.toList] at hk
  | node l a k v h r =>
    have hh : m.Head = some a := hv.rep.head
    have hfuel : (Tr.node l a k v h r).height ≤ m.nodes.length + 1 :=
      le_trans (Tr.height_le_size _) (le_trans hv.rep.size_le (Nat.le_succ _))
    obtain ⟨hd, -⟩ := insertDescend_spec key (m.nodes.length + 1) hv.rep rfl hfuel
    rw [insZ_present key _ [] hv.bst hk] at hd
    simp only [TreeMap.insert, TreeMap.insertWith, hh, hd, Spot.slot]

/-- In a map built by insertions every node is balanced by actual heights. -/
theorem valid_balanced [LinearOrder K] {m : TreeMap K V} {t : Tr K V} (hv : Valid m t) {p : Nat}
    {n : Node K V} (hp : m.Reaches p) (hn : m.cell p = some n) :
    m.subtreeHeight n.Left ≤ m.subtreeHeight n.Right + 1 ∧
      m.subtreeHeight n.Right ≤ m.subtreeHeight n.Left + 1 := by
  obtain ⟨l, k, v, h, r, ctx, e, hz⟩ := hv.rep.view (hv.rep.mem_of_reaches hp)
  have hg : (Tr.node l p k v h r).Good := good_of_plug (e ▸ hv.good)
  obtain ⟨g1, g2, g3, g4, g5⟩ := hg
  obtain ⟨c1, c2, c3⟩ := hz.rep
  rw [c1] at hn
  simp only [Option.some.injEq] at hn
  subst hn
  have hl := hz.height_le
  simp only [Tr.height] at hl
  have e1 := heightFrom_rep m.nodes.length c2 (by omega)
  have e2 := heightFrom_rep m.nodes.length c3 (by omega)
  have e3 := g1.ht_eq_height
  have e4 := g2.ht_eq_height
  simp only [TreeMap.subtreeHeight, e1, e2]
  omega


/-! ## Lookup -/

/-- The loop of `findNode` follows the tree. -/
theorem findNodeFrom_rep [LinearOrder K] {m : TreeMap K V} (key : K) (fuel : Nat)
    {par : Option Nat} {t : Tr K V} (h : Rep m.cell par t) (hfuel : t.height ≤ fuel) :
    m.findNodeFrom key fuel t.root = .ok ((t.find key).map Prod.fst) := by
  induction t generalizing par fuel with
  | nil => cases fuel <;> rfl
  | node l a k v hh r ihl ihr =>
    obtain ⟨h1, h2, h3⟩ := h
    cases fuel with
    | zero => simp [Tr.height] at hfuel
    | succ fuel =>
      simp only [Tr.height, Nat.add_le_add_iff_right, max_le_iff] at hfuel
      simp only [TreeMap.findNodeFrom, Tr.root_node, TreeMap.deref_eq h1, Tr.find]
      by_cases c1 : key > k
      · simp only [c1, if_true]; exact ihr fuel h3 hfuel.2
      · simp only [c1, if_false]
        by_cases c2 : key < k
        · simp only [c2, if_true]; exact ihl fuel h2 hfuel.1
        · simp only [c2, if_false, Option.map_some']

/-- The node that `Tr.find` names holds the value it names. -/
theorem find_cell [LinearOrder K] {c : Nat → Option (Node K V)} (key : K) {par : Option Nat}
    {t : Tr K V} (h : Rep c par t) {a : Nat} {v : V} (hf : t.find key = some (a, v)) :
    ∃ n, c a = some n ∧ n.val = v ∧ n.key = key ∧ a ∈ t.addrs := by
  induction t generalizing par with
  | nil => simp [Tr.find] at hf
  | node l b k w hh r ihl ihr =>
    obtain ⟨h1, h2, h3⟩ := h
    simp only [Tr.find] at hf
    by_cases c1 : key > k
    · simp only [c1, if_true] at hf
      obtain ⟨n, q1, q2, q3, q4⟩ := ihr h3 hf
      exact ⟨n, q1, q2, q3, by simp [Tr.addrs, q4]⟩
    · simp only [c1, if_false] at hf
      by_cases c2 : key < k
      · simp only [c2, if_true] at hf
        obtain ⟨n, q1, q2, q3, q4⟩ := ihl h2 hf
        exact ⟨n, q1, q2, q3, by simp [Tr.addrs, q4]⟩
      · simp only [c2, if_false, Option.some.injEq, Prod.mk.injEq] at hf
        obtain ⟨rfl, rfl⟩ := hf
        exact ⟨_, h1, rfl, (le_antisymm (not_lt.mp c1) (not_lt.mp c2)).symm,
          by simp [Tr.addrs]⟩

theorem lookupL_append_none [DecidableEq K] (key : K) (l1 l2 : List (K × V))
    (h : ∀ p ∈ l1, p.1 ≠ key) : lookupL key (l1 ++ l2) = lookupL key l2 := by
  induction l1 with
  | nil => rfl
  | cons p rest ih =>
    obtain ⟨k, v⟩ := p
    have hp : k ≠ key := h (k, v) (List.mem_cons_self _ _)
    simp only [List.cons_append, lookupL, hp, if_false]
    exact ih (fun q hq => h q (List.mem_cons_of_mem _ hq))

theorem lookupL_none_of [DecidableEq K] (key : K) (l : List (K × V))
    (h : ∀ p ∈ l, p.1 ≠ key) : lookupL key l = none := by
  have := lookupL_append_none key l [] h
  simpa [lookupL] using this

theorem lookupL_none_iff [DecidableEq K] (key : K) (l : List (K × V)) :
    lookupL key l = none ↔ key ∉ l.map Prod.fst := by
  induction l with
  | nil => simp [lookupL]
  | cons p rest ih =>
    obtain ⟨k, v⟩ := p
    by_cases hp : k = key
    · simp [lookupL, hp]
    · simp [lookupL, hp, ih, Ne.symm hp]

theorem lookupL_append_some [DecidableEq K] (key : K) (l1 l2 : List (K × V)) (v : V)
    (h : lookupL key l1 = some v) : lookupL key (l1 ++ l2) = some v := by
  induction l1 with
  | nil => simp [lookupL] at h
  | cons p rest ih =>
    obtain ⟨k, w⟩ := p
    simp only [lookupL, List.cons_append] at h ⊢
    by_cases hp : k = key
    · simpa [hp] using h
    · simp only [hp, if_false] at h ⊢
      exact ih h

/-- In a search tree the descent finds what a scan of the in-order list finds. -/
theorem find_eq_lookupL [LinearOrder K] (key : K) (t : Tr K V) (hb : t.Bst) :
    (t.find key).map Prod.snd = lookupL key t.toList := by
  induction t with
  | nil => rfl
  | node l a k v h r ihl ihr =>
    obtain ⟨hbl, hbr, hlt, hgt⟩ := hb.parts
    simp only [Tr.find, Tr.toList]
    by_cases c1 : key > k
    · simp only [c1, if_true]
      rw [lookupL_append_none key _ _ (fun p hp => ne_of_lt (lt_trans (hlt p hp) c1)), ihr hbr]
      simp [lookupL, ne_of_lt c1]
    · simp only [c1, if_false]
      by_cases c2 : key < k
      · simp only [c2, if_true]
        rw [ihl hbl]
        cases hl : lookupL key l.toList with
        | some w => exact (lookupL_append_some key _ _ w hl).symm
        | none =>
          have hnone : ∀ p ∈ l.toList, p.1 ≠ key := by
            intro p hp he
            exact (lookupL_none_iff key _).mp hl (by rw [← he]; exact List.mem_map_of_mem _ hp)
          rw [lookupL_append_none key _ _ hnone]
          have h2 : lookupL key r.toList = none :=
            lookupL_none_of key _ (fun p hp => ne_of_gt (lt_trans c2 (hgt p hp)))
          simp [lookupL, ne_of_gt c2, h2]
      · simp only [c2, if_false, Option.map_some']
        have hk : key = k := le_antisymm (not_lt.mp c1) (not_lt.mp c2)
        subst hk
        rw [lookupL_append_none key _ _ (fun p hp => ne_of_lt (hlt p hp))]
        simp [lookupL]

/-- `valueOf` on a represented search tree is a scan of its in-order list. -/
theorem valueOf_spec [LinearOrder K] {m : TreeMap K V} {t : Tr K V} (hz : RepZ m t [])
    (hb : t.Bst) (key : K) :
    m.valueOf key = (match lookupL key t.toList with
      | some v => .ok v
      | none => .out_of_range) := by
  have hf := findNodeFrom_rep key m.nodes.length hz.rep
    (le_trans (Tr.height_le_size t) hz.size_le)
  have hh : m.Head = t.root := hz.head
  rw [← hh] at hf
  rw [← find_eq_lookupL key t hb]
  simp only [TreeMap.valueOf, TreeMap.findNode, hf, Res.bind_ok]
  cases hfd : t.find key with
  | none => rfl
  | some p =>
    obtain ⟨a, v⟩ := p
    obtain ⟨n, q1, q2, -, -⟩ := find_cell key hz.rep hfd
    simp [TreeMap.deref_eq q1, q2]

/-! ## What the list built by insertions holds -/

theorem lookupL_insL [LinearOrder K] (key k : K) (val : V) (l : List (K × V))
    (hs : (l.map Prod.fst).Pairwise (· < ·)) :
    lookupL k (insL key val l) =
      (match lookupL k l with
        | some v => some v
        | none => if key = k then some val else none) := by
  induction l with
  | nil => simp [insL, lookupL]
  | cons q rest ih =>
    obtain ⟨k1, v1⟩ := q
    simp only [List.map_cons, List.pairwise_cons, List.mem_map, forall_exists_index,
      and_imp] at hs
    obtain ⟨hs1, hs2⟩ := hs
    simp only [insL]
    by_cases c1 : key < k1
    · simp only [c1, if_true]
      by_cases h1 : k1 = k
      · subst h1
        simp [lookupL, ne_of_lt c1]
      · by_cases h2 : key = k
        · subst h2
          have hn : lookupL key rest = none :=
            lookupL_none_of key _ (fun p hp => ne_of_gt (lt_trans c1 (hs1 p.1 p hp rfl)))
          simp only [lookupL, if_true, h1, if_false, hn]
        · simp only [lookupL, h1, h2, if_false]
          cases lookupL k rest <;> rfl
    · simp only [c1, if_false]
      by_cases c2 : k1 < key
      · simp only [c2, if_true, lookupL]
        by_cases h1 : k1 = k
        · simp [h1]
        · simp only [h1, if_false]; exact ih hs2
      · simp only [c2, if_false, lookupL]
        have hk : key = k1 := le_antisymm (not_lt.mp c2) (not_lt.mp c1)
        by_cases h1 : k1 = k
        · simp [h1]
        · simp only [h1, if_false]
          rw [hk, if_neg h1]
          cases lookupL k rest <;> rfl

/-- A lookup in the list built by insertions finds the first inserted pair with the key. -/
theorem lookupL_buildL [LinearOrder K] (k : K) (acc l : List (K × V))
    (hs : (acc.map Prod.fst).Pairwise (· < ·)) :
    lookupL k (buildL acc l) =
      (match lookupL k acc with
        | some v => some v
        | none => lookupL k l) := by
  induction l generalizing acc with
  | nil => simp only [buildL, lookupL]; cases lookupL k acc <;> rfl
  | cons q rest ih =>
    obtain ⟨k1, v1⟩ := q
    simp only [buildL]
    rw [ih _ (insL_sorted k1 v1 acc hs), lookupL_insL k1 k v1 acc hs]
    cases lookupL k acc with
    | some w => rfl
    | none =>
      by_cases h : k1 = k
      · simp [lookupL, h]
      · simp [lookupL, h]

theorem lookupL_of_mem_nodup [DecidableEq K] (l : List (K × V)) (hnd : (l.map Prod.fst).Nodup)
    (p : K × V) (hp : p ∈ l) : lookupL p.1 l = some p.2 := by
  induction l with
  | nil => simp at hp
  | cons q rest ih =>
    obtain ⟨k1, v1⟩ := q
    simp only [List.map_cons, List.nodup_cons, List.mem_map, not_exists, not_and] at hnd
    rcases List.mem_cons.mp hp with rfl | hp1
    · simp [lookupL]
    · have hne : k1 ≠ p.1 := fun e => hnd.1 p hp1 e.symm
      simp only [lookupL, hne, if_false]
      exact ih hnd.2 hp1


/-! ## Equality of containers -/

/-- The loop of `operator==` over two cursors that see the same entries ahead. -/
theorem equalsLoop_spec [DecidableEq K] [DecidableEq V] {m other : TreeMap K V}
    (self self2 : Nat) (fuel : Nat) {nx nx2 : Option Nat} {A A2 : List (Nat × K × V)}
    (hf : Fwd m nx A) (hf2 : Fwd other nx2 A2)
    (he : A.map (fun x => x.2) = A2.map (fun x => x.2)) (hfuel : A.length + 1 ≤ fuel) :
    m.equalsLoop other (m.cend self) fuel ⟨some self, nx⟩ ⟨some self2, nx2⟩ = .ok true := by
  induction A generalizing fuel nx nx2 A2 with
  | nil =>
    cases nx with
    | none =>
      cases fuel with
      | zero => simp at hfuel
      | succ fuel => simp [TreeMap.equalsLoop, TreeMap.cend]
    | some a =>
      obtain ⟨l, k, v, h, r, ctx, -, e⟩ := hf
      exact absurd e (by simp)
  | cons x rest ih =>
    cases nx with
    | none => exact absurd hf (by simp [Fwd])
    | some a =>
      obtain ⟨l, k, v, h, r, ctx, hz, e⟩ := hf
      simp only [List.cons_append, List.cons.injEq] at e
      obtain ⟨rfl, rfl⟩ := e
      cases A2 with
      | nil => simp at he
      | cons y rest2 =>
        cases nx2 with
        | none => exact absurd hf2 (by simp [Fwd])
        | some a2 =>
          obtain ⟨l2, k2, v2, h2, r2, ctx2, hz2, e2⟩ := hf2
          simp only [List.cons_append, List.cons.injEq] at e2
          obtain ⟨rfl, rfl⟩ := e2
          simp only [List.map_cons, List.cons.injEq, Prod.mk.injEq] at he
          obtain ⟨⟨rfl, rfl⟩, he1⟩ := he
          cases fuel with
          | zero => simp at hfuel
          | succ fuel =>
            simp only [List.length_cons, Nat.add_le_add_iff_right] at hfuel
            obtain ⟨nx1, e1, hf1⟩ := incr_spec self hz
            obtain ⟨nx3, e3, hf3⟩ := incr_spec self2 hz2
            have := ih fuel hf1 hf3 he1 hfuel
            simp only [TreeMap.cend] at this
            simp [TreeMap.equalsLoop, TreeMap.cend, ConstIterator.get,
              TreeMap.deref_eq hz.rep.1, TreeMap.deref_eq hz2.rep.1, e1, e3, this]

/-- Two represented trees with the same in-order entries compare equal. -/
theorem equals_spec [LinearOrder K] [DecidableEq V] {m other : TreeMap K V} {t t2 : Tr K V}
    (hv : Valid m t) (hv2 : Valid other t2) (he : t.toList = t2.toList) (self self2 : Nat) :
    m.equals self other self2 = .ok true := by
  have hc : m.count = other.count := by
    rw [hv.count, hv2.count, Tr.size_eq_length, Tr.size_eq_length, he]
  obtain ⟨nx, e1, hf1⟩ := cbegin_spec self hv.rep
  obtain ⟨nx2, e2, hf2⟩ := cbegin_spec self2 hv2.rep
  have hsz := hv.rep.size_le
  rw [Tr.size_eq_length, ← Tr.items_toList, List.length_map] at hsz
  have := equalsLoop_spec self self2 (m.nodes.length + 1) hf1 hf2
    (by rw [Tr.items_toList, Tr.items_toList, he]) (by omega)
  simp only [TreeMap.equals, hc, ne_eq, not_true_eq_false, if_false, e1, e2, Res.bind_ok, this]

/-! ## The built list does not depend on the insertion order -/

theorem insL_perm [LinearOrder K] (key : K) (val : V) (l : List (K × V))
    (h : key ∉ l.map Prod.fst) : (insL key val l).Perm ((key, val) :: l) := by
  induction l with
  | nil => simp [insL]
  | cons q rest ih =>
    obtain ⟨k, v⟩ := q
    simp only [List.map_cons, List.mem_cons, not_or] at h
    simp only [insL]
    by_cases c1 : key < k
    · simp [c1]
    · simp only [c1, if_false]
      by_cases c2 : k < key
      · simp only [c2, if_true]
        exact ((ih h.2).cons (k, v)).trans (List.Perm.swap _ _ _)
      · exact absurd (le_antisymm (not_lt.mp c2) (not_lt.mp c1)) h.1

theorem buildL_perm [LinearOrder K] (acc l : List (K × V))
    (hnd : ((acc ++ l).map Prod.fst).Nodup) : (buildL acc l).Perm (acc ++ l) := by
  induction l generalizing acc with
  | nil => simp [buildL]
  | cons q rest ih =>
    obtain ⟨k, v⟩ := q
    have hk : k ∉ acc.map Prod.fst := by
      intro hx
      simp only [List.map_append, List.map_cons, List.nodup_append, List.nodup_cons] at hnd
      exact hnd.2.2 hx (List.mem_cons_self _ _)
    have hp := insL_perm k v acc hk
    have hp2 : (insL k v acc ++ rest).Perm (acc ++ (k, v) :: rest) :=
      (hp.append_right rest).trans (by simpa using (List.perm_middle (a := (k, v))).symm)
    simp only [buildL]
    refine (ih _ ?_).trans hp2
    exact ((hp2.map Prod.fst).nodup_iff).mpr hnd

/-- Lists of pairs with the same distinct keys build the same sorted list, in any order. -/
theorem buildL_eq_of_perm [LinearOrder K] (l l2 : List (K × V))
    (hnd : (l.map Prod.fst).Nodup) (hp : l2.Perm l) : buildL [] l2 = buildL [] l := by
  have hnd2 : (l2.map Prod.fst).Nodup := ((hp.map Prod.fst).nodup_iff).mpr hnd
  have p1 := buildL_perm [] l (by simpa using hnd)
  have p2 := buildL_perm [] l2 (by simpa using hnd2)
  have s1 := buildL_sorted [] l (by simp)
  have s2 := buildL_sorted [] l2 (by simp)
  rw [List.pairwise_map] at s1 s2
  have hanti : IsAntisymm (K × V) (fun p q => p.1 < q.1) :=
    ⟨fun a b h1 h2 => absurd h1 (lt_asymm h2)⟩
  simp only [List.nil_append] at p1 p2
  exact List.eq_of_perm_of_sorted (p2.trans (hp.trans p1.symm)) s2 s1


/-! ## Where the inserted node ends up -/

theorem items_plug_congr {t t1 : Tr K V} (ctx : List (Frame K V)) (h : t1.items = t.items) :
    (plug t1 ctx).items = (plug t ctx).items := by
  rw [items_plug, items_plug, h]

/-- A rotation keeps the in-order sequence of nodes. -/
theorem rebalance_items {t t1 : Tr K V} (h : t.rebalance = some t1) : t1.items = t.items := by
  cases t with
  | nil => simp [Tr.rebalance] at h
  | node l a k v hh r =>
    simp only [Tr.rebalance] at h
    by_cases hle : l.ht ≤ r.ht
    · simp only [hle, if_true] at h
      cases r with
      | nil => simp at h
      | node rl b kb vb hb rr =>
        by_cases hle2 : rl.ht ≤ rr.ht
        · simp only [hle2, if_true, Option.some.injEq] at h
          subst h
          simp [Tr.items, Tr.mk]
        · simp only [hle2, if_false] at h
          cases rl with
          | nil => simp at h
          | node rll c kc vc hc rlr =>
            simp only [Option.some.injEq] at h
            subst h
            simp [Tr.items, Tr.mk]
    · simp only [hle, if_false] at h
      cases l with
      | nil => simp at h
      | node ll b kb vb hb lr =>
        by_cases hle2 : ll.ht ≥ lr.ht
        · simp only [hle2, if_true, Option.some.injEq] at h
          subst h
          simp [Tr.items, Tr.mk]
        · simp only [hle2, if_false] at h
          cases lr with
          | nil => simp at h
          | node lrl c kc vc hc lrr =>
            simp only [Option.some.injEq] at h
            subst h
            simp [Tr.items, Tr.mk]

/-- One pass of the repair loop keeps the in-order sequence of nodes of the whole tree. -/
theorem stepZ_items {t : Tr K V} {ctx : List (Frame K V)}
    {res : Tr K V × List (Frame K V) ⊕ Tr K V} (h : stepZ t ctx = some res) :
    (match res with
      | .inl (t1, ctx1) => (plug t1 ctx1).items
      | .inr t1 => t1.items) = (plug t ctx).items := by
  cases t with
  | nil => simp [stepZ] at h
  | node l a k v hh r =>
    simp only [stepZ] at h
    by_cases hb : balTest l.ht r.ht = true
    · simp only [hb, if_true] at h
      cases ctx with
      | nil =>
        simp only [Option.some.injEq] at h
        subst h
        rfl
      | cons f rest =>
        simp only [Option.some.injEq] at h
        subst h
        show (plug (f.fill (Tr.mk l a k v r)) rest).items
          = (plug (f.fill (.node l a k v hh r)) rest).items
        apply items_plug_congr
        cases f <;> rfl
    · simp only [hb, if_false] at h
      cases hreb : (Tr.node l a k v hh r).rebalance with
      | none => simp [hreb] at h
      | some t1 =>
        simp only [hreb, Bool.false_eq_true, if_false, Option.some.injEq] at h
        subst h
        exact items_plug_congr ctx (rebalance_items hreb)

/-- The repair loop keeps the in-order sequence of nodes of the whole tree. -/
theorem loopZ_items (fuel : Nat) {t t1 : Tr K V} {ctx : List (Frame K V)}
    (h : loopZ fuel t ctx = some t1) : t1.items = (plug t ctx).items := by
  induction fuel generalizing t ctx with
  | zero => simp [loopZ] at h
  | succ fuel ih =>
    simp only [loopZ] at h
    cases hstep : stepZ t ctx with
    | none => simp [hstep] at h
    | some res =>
      have hs := stepZ_items hstep
      cases res with
      | inl p =>
        obtain ⟨t2, ctx2⟩ := p
        simp only [hstep] at h
        rw [ih h]; exact hs
      | inr t2 =>
        simp only [hstep, Option.some.injEq] at h
        subst h
        exact hs

/-- The nodes after an insertion: the old ones, and the new one unless the key was present. -/
theorem Tr.insert_items [LinearOrder K] {t t1 : Tr K V} {fuel new : Nat} {key : K} {val : V}
    (h : t.insert fuel new key val = some t1) :
    t1 = t ∨ (t1.items.Perm ((new, key, val) :: t.items)) := by
  cases t with
  | nil =>
    simp only [Tr.insert, Option.some.injEq] at h
    subst h
    exact Or.inr (by simp [Tr.leaf, Tr.items])
  | node l a k v hh r =>
    have hplug := insZ_plug key (Tr.node l a k v hh r) []
    simp only [Tr.insert] at h
    cases hsp : insZ key (Tr.node l a k v hh r) [] with
    | present =>
      simp only [hsp, Option.some.injEq] at h
      exact Or.inl h.symm
    | right l1 b kb vb hb ctx1 =>
      simp only [hsp] at h hplug
      refine Or.inr ?_
      rw [loopZ_items _ h, show (Tr.node l a k v hh r) = plug (Tr.node l a k v hh r) [] from rfl,
        ← hplug, items_plug, items_plug]
      simp only [Tr.items, Tr.leaf, List.nil_append, List.append_assoc, List.cons_append]
      classical
      rw [List.perm_iff_count]
      intro x
      simp only [List.count_append, List.count_cons, List.count_nil]
      omega
    | left b kb vb hb r1 ctx1 =>
      simp only [hsp] at h hplug
      refine Or.inr ?_
      rw [loopZ_items _ h, show (Tr.node l a k v hh r) = plug (Tr.node l a k v hh r) [] from rfl,
        ← hplug, items_plug, items_plug]
      simp only [Tr.items, Tr.leaf, List.nil_append, List.append_assoc, List.cons_append]
      classical
      rw [List.perm_iff_count]
      intro x
      simp only [List.count_append, List.count_cons, List.count_nil]
      omega

/-- The cell of a node of a represented tree. -/
theorem Rep.cell_of_item {c : Nat → Option (Node K V)} {par : Option Nat} {t : Tr K V}
    (h : Rep c par t) {a : Nat} {k : K} {v : V} (hx : (a, k, v) ∈ t.items) :
    ∃ n, c a = some n ∧ n.key = k ∧ n.val = v := by
  induction t generalizing par with
  | nil => simp [Tr.items] at hx
  | node l b kb vb hh r ihl ihr =>
    obtain ⟨h1, h2, h3⟩ := h
    simp only [Tr.items, List.mem_append, List.mem_cons, Prod.mk.injEq] at hx
    rcases hx with hx | ⟨rfl, rfl, rfl⟩ | hx
    · exact ihl h2 hx
    · exact ⟨_, h1, rfl, rfl⟩
    · exact ihr h3 hx

/-- `insert` keeps the invariant; the tree afterwards is `Tr.insert` of the tree before. -/
theorem valid_insert_tr [LinearOrder K] {m : TreeMap K V} {t : Tr K V} (hv : Valid m t)
    (key : K) (val : V) :
    ∃ m1 t1, m.insert key val = .ok m1 ∧ Valid m1 t1 ∧ t1.toList = insL key val t.toList ∧
      t.insert (2 * (m.nodes.length + 1)) m.nodes.length key val = some t1 := by
  have hsz := hv.rep.size_le
  obtain ⟨t1, e1, g1, l1⟩ := Tr.insert_good hv.good hv.bst (2 * (m.nodes.length + 1))
    m.nodes.length key val (by omega)
  obtain ⟨m1, e2, hz1, ct1⟩ := insert_spec hv.rep hv.count _ key val e1
  refine ⟨m1, t1, e2, ⟨hz1, ct1, g1, ?_⟩, l1, e1⟩
  unfold Tr.Bst
  rw [l1]
  exact insL_sorted key val _ hv.bst

theorem length_insL [LinearOrder K] (key : K) (val : V) (l : List (K × V))
    (h : key ∉ l.map Prod.fst) : (insL key val l).length = l.length + 1 := by
  have := (insL_perm key val l h).length_eq
  simpa using this

/-- `operator[]` on a map that satisfies the invariant. -/
theorem index_spec [LinearOrder K] [Inhabited V] {m : TreeMap K V} {t : Tr K V}
    (hv : Valid m t) (key : K) :
    ∃ m1 p n, m.index key = .ok (m1, p) ∧ m1.cell p = some n ∧ n.key = key ∧
      (match lookupL key t.toList with
        | some v => m1 = m ∧ n.val = v
        | none => n.val = default ∧ m1.count = m.count + 1 ∧
            ∃ t1, Valid m1 t1 ∧ t1.toList = insL key default t.toList) := by
  have hf := findNodeFrom_rep key m.nodes.length hv.rep.rep
    (le_trans (Tr.height_le_size t) hv.rep.size_le)
  have hh : m.Head = t.root := hv.rep.head
  rw [← hh] at hf
  have hl := find_eq_lookupL key t hv.bst
  cases hfd : t.find key with
  | some q =>
    obtain ⟨a, v⟩ := q
    obtain ⟨n, q1, q2, q3, -⟩ := find_cell key hv.rep.rep hfd
    rw [hfd] at hl hf
    simp only [Option.map_some'] at hl hf
    refine ⟨m, a, n, ?_, q1, q3, ?_⟩
    · simp [TreeMap.index, TreeMap.findNode, hf, TreeMap.deref_eq q1]
    · rw [← hl]; exact ⟨rfl, q2⟩
  | none =>
    rw [hfd] at hl hf
    simp only [Option.map_none'] at hl hf
    have hk : key ∉ t.toList.map Prod.fst := (lookupL_none_iff key _).mp hl.symm
    obtain ⟨m1, t1, e1, hv1, l1, ti⟩ := valid_insert_tr hv key (default : V)
    have hmem : (m.nodes.length, key, (default : V)) ∈ t1.items := by
      rcases Tr.insert_items ti with h | h
      · exfalso
        rw [h] at l1
        have := keys_insL key (default : V) t.toList key
        rw [← l1] at this
        exact hk (this.mpr (Or.inl rfl))
      · exact h.symm.subset (List.mem_cons_self _ _)
    obtain ⟨n, q1, q2, q3⟩ := hv1.rep.rep.cell_of_item hmem
    refine ⟨m1, m.nodes.length, n, ?_, q1, q2, ?_⟩
    · simp [TreeMap.index, TreeMap.findNode, hf, e1, TreeMap.deref_eq q1]
    · rw [← hl]
      refine ⟨q3, ?_, t1, hv1, l1⟩
      rw [hv1.count, hv.count, Tr.size_eq_length, Tr.size_eq_length, l1, length_insL key _ _ hk]


/-! ## Stepping a cursor backwards -/

theorem ctxRoot_some (a : Nat) (ctx : List (Frame K V)) : ∃ b, ctxRoot (some a) ctx = some b := by
  induction ctx generalizing a with
  | nil => exact ⟨a, rfl⟩
  | cons f rest ih => exact ih f.addr

/-- The loop that walks down right children ends at the last node of the subtree. -/
theorem rightmost_spec {m : TreeMap K V} (fuel : Nat) {l r : Tr K V} {a : Nat} {k : K} {v : V}
    {h : Int} {ctx : List (Frame K V)} (hz : RepZ m (.node l a k v h r) ctx)
    (hfuel : (Tr.node l a k v h r).height ≤ fuel) :
    ∃ b, m.rightmost fuel a = .ok b ∧
      Bwd m b ((Tr.node l a k v h r).items.reverse ++ beforeI ctx) := by
  induction r generalizing fuel a k v h l ctx with
  | nil =>
    cases fuel with
    | zero => simp [Tr.height] at hfuel
    | succ fuel =>
      refine ⟨a, ?_, l, k, v, h, .nil, ctx, hz, by simp [Tr.items]⟩
      simp [TreeMap.rightmost, TreeMap.deref_eq hz.rep.1, Tr.root]
  | node rl c kc vc hc rr _ ihr =>
    cases fuel with
    | zero => simp [Tr.height] at hfuel
    | succ fuel =>
      have hz1 : RepZ m (.node rl c kc vc hc rr) (Frame.R l a k v h :: ctx) :=
        RepZ.refocus.mp hz
      simp only [Tr.height, Nat.add_le_add_iff_right, max_le_iff] at hfuel
      obtain ⟨b, e, hf⟩ := ihr fuel hz1 (by simpa [Tr.height] using hfuel.2)
      refine ⟨b, ?_, ?_⟩
      · simp only [TreeMap.rightmost, TreeMap.deref_eq hz.rep.1, Tr.root_node]; exact e
      · simpa [Tr.items, beforeI] using hf

/-- The upward loop of `operator--` ends at the previous node in in-order, or throws when
there is none. -/
theorem climbPrev_spec {m : TreeMap K V} (fuel : Nat) {l r : Tr K V} {a : Nat} {k : K} {v : V}
    {h : Int} {ctx : List (Frame K V)} (hz : RepZ m (.node l a k v h r) ctx)
    (hfuel : ctx.length + 1 ≤ fuel) :
    (beforeI ctx = [] ∧ m.climbPrev fuel a = .out_of_range) ∨
      (∃ b, m.climbPrev fuel a = .ok b ∧ Bwd m b (beforeI ctx)) := by
  induction ctx generalizing fuel l r a k v h with
  | nil =>
    cases fuel with
    | zero => simp at hfuel
    | succ fuel =>
      refine Or.inl ⟨rfl, ?_⟩
      simp [TreeMap.climbPrev, TreeMap.deref_eq hz.rep.1, ctxPar]
  | cons f rest ih =>
    cases fuel with
    | zero => simp at hfuel
    | succ fuel =>
      simp only [List.length_cons, Nat.add_le_add_iff_right] at hfuel
      have hz1 := RepZ.refocus.mpr hz
      cases f with
      | R s b kb vb hb =>
        refine Or.inr ⟨b, ?_, s, kb, vb, hb, _, rest, hz1, rfl⟩
        simp [TreeMap.climbPrev, TreeMap.deref_eq hz.rep.1, ctxPar, Frame.addr,
          TreeMap.deref_eq hz1.rep.1, Tr.root]
      | L b kb vb hb s =>
        have hne : s.root ≠ some a := by
          intro hh
          have hd := hz1.distinct
          exact hd.2.2.2.1 a (by simp [Tr.addrs]) (Tr.root_mem_addrs hh)
        have e : m.climbPrev (fuel + 1) a = m.climbPrev fuel b := by
          simp only [TreeMap.climbPrev, TreeMap.deref_eq hz.rep.1, ctxPar, Frame.addr,
            TreeMap.deref_eq hz1.rep.1, hne, if_false]
        rw [e]
        exact ih fuel hz1 hfuel

/-- `operator--` on a cursor positioned at a node. -/
theorem decr_spec {m : TreeMap K V} (self : Nat) {l r : Tr K V} {a : Nat} {k : K} {v : V}
    {h : Int} {ctx : List (Frame K V)} (hz : RepZ m (.node l a k v h r) ctx) :
    (l.items.reverse ++ beforeI ctx = [] ∧
        ConstIterator.decr m ⟨some self, some a⟩ = .out_of_range) ∨
      (∃ b, ConstIterator.decr m ⟨some self, some a⟩ = .ok ⟨some self, some b⟩ ∧
        Bwd m b (l.items.reverse ++ beforeI ctx)) := by
  have hlen := hz.height_le
  simp only [Tr.height] at hlen
  obtain ⟨hd, hhd⟩ := ctxRoot_some a ctx
  have hh : m.Head = some hd := by rw [hz.head]; exact hhd
  cases l with
  | nil =>
    rcases climbPrev_spec m.nodes.length hz (by omega) with ⟨e1, e2⟩ | ⟨b, e, hf⟩
    · refine Or.inl ⟨by simpa [Tr.items] using e1, ?_⟩
      simp [ConstIterator.decr, hh, TreeMap.deref_eq hz.rep.1, Tr.root, e2]
    · refine Or.inr ⟨b, ?_, by simpa [Tr.items] using hf⟩
      simp [ConstIterator.decr, hh, TreeMap.deref_eq hz.rep.1, Tr.root, e]
  | node ll c kc vc hc lr =>
    have hz1 : RepZ m (.node ll c kc vc hc lr) (Frame.L a k v h r :: ctx) := RepZ.refocus.mp hz
    obtain ⟨b, e, hf⟩ := rightmost_spec m.nodes.length hz1 (by omega)
    refine Or.inr ⟨b, ?_, by simpa [beforeI] using hf⟩
    simp [ConstIterator.decr, hh, TreeMap.deref_eq hz.rep.1, Tr.root, e]

/-- `operator--` on the end cursor of a non-empty tree. -/
theorem decr_end_spec {m : TreeMap K V} (self : Nat) {l r : Tr K V} {a : Nat} {k : K} {v : V}
    {h : Int} (hz : RepZ m (.node l a k v h r) []) :
    ∃ b, ConstIterator.decr m ⟨some self, none⟩ = .ok ⟨some self, some b⟩ ∧
      Bwd m b (Tr.node l a k v h r).items.reverse := by
  have hlen := hz.height_le
  have hh : m.Head = some a := hz.head
  obtain ⟨b, e, hf⟩ := rightmost_spec m.nodes.length hz (by omega)
  refine ⟨b, ?_, by simpa [beforeI] using hf⟩
  simp [ConstIterator.decr, hh, e]

/-- The backward loop visits exactly the nodes from the cursor back to the first one. -/
theorem collectBack_spec {m : TreeMap K V} (self : Nat) (fuel : Nat) (b0 : Nat)
    {it : ConstIterator} {b : Nat} {B : List (Nat × K × V)}
    (hd : ConstIterator.decr m it = .ok ⟨some self, some b⟩) (hb : Bwd m b B)
    (hnd : (B.map (fun x => x.1)).Nodup) (hlast : (B.map (fun x => x.1)).getLast? = some b0)
    (hfuel : B.length ≤ fuel) :
    m.collectBack ⟨some self, some b0⟩ fuel it = .ok (B.map (fun x => x.2)) := by
  induction B generalizing fuel it b with
  | nil =>
    obtain ⟨l, k, v, h, r, ctx, -, e⟩ := hb
    exact absurd e (by simp)
  | cons x rest ih =>
    obtain ⟨l, k, v, h, r, ctx, hz, e⟩ := hb
    simp only [List.cons_append, List.cons.injEq] at e
    obtain ⟨rfl, e2⟩ := e
    cases fuel with
    | zero => simp at hfuel
    | succ fuel =>
      simp only [List.length_cons, Nat.add_le_add_iff_right] at hfuel
      simp only [List.map_cons, List.nodup_cons] at hnd
      simp only [TreeMap.collectBack, hd, ConstIterator.get, TreeMap.deref_eq hz.rep.1,
        Res.bind_ok, Res.pure_eq, List.map_cons]
      cases rest with
      | nil =>
        simp only [List.map_cons, List.map_nil, List.getLast?_singleton,
          Option.some.injEq] at hlast
        subst hlast
        simp
      | cons y rest2 =>
        have hne : b ≠ b0 := by
          rintro rfl
          have : b ∈ ((y :: rest2).map (fun x => x.1)) := by
            apply List.mem_of_getLast?_eq_some
            simpa [List.getLast?_cons_cons] using hlast
          exact hnd.1 this
        have hne2 : (⟨some self, some b⟩ : ConstIterator) ≠ ⟨some self, some b0⟩ := by
          intro hh
          simp only [ConstIterator.mk.injEq, Option.some.injEq, true_and] at hh
          exact hne hh
        simp only [hne2, if_false]
        rcases decr_spec self hz with ⟨e1, -⟩ | ⟨b1, e1, hb1⟩
        · rw [← e2] at e1; exact absurd e1 (by simp)
        · rw [← e2] at hb1
          have := ih fuel e1 hb1 hnd.2 (by simpa [List.getLast?_cons_cons] using hlast) hfuel
          simp only [this, List.map_cons]

/-- Backward traversal of a non-empty represented tree yields its entries in reverse order. -/
theorem traverseBack_spec {m : TreeMap K V} (self : Nat) {t : Tr K V} (hz : RepZ m t [])
    (hne : t ≠ .nil) : m.traverseBack self = .ok t.toList.reverse := by
  cases t with
  | nil => exact absurd rfl hne
  | node l a k v h r =>
    obtain ⟨nx, e, hf⟩ := cbegin_spec self hz
    obtain ⟨b, e1, hb⟩ := decr_end_spec self hz
    have hsz := hz.size_le
    rw [Tr.size_eq_length, ← Tr.items_toList, List.length_map] at hsz
    have hnd : ((Tr.node l a k v h r).items.map (fun x => x.1)).Nodup := by
      rw [Tr.items_addrs]
      simpa [ctxAddrs] using hz.nodup
    cases nx with
    | none => exact absurd hf (by simp [Fwd, Tr.items])
    | some b0 =>
      obtain ⟨l0, k0, v0, h0, r0, ctx0, hz0, e0⟩ := hf
      have hlast : (((Tr.node l a k v h r).items.reverse).map (fun x => x.1)).getLast?
          = some b0 := by
        rw [e0]; simp
      have := collectBack_spec self (m.nodes.length + 1) b0 e1 hb
        (by rw [List.map_reverse]; exact List.nodup_reverse.mpr hnd) hlast
        (by rw [List.length_reverse]; omega)
      simp only [TreeMap.traverseBack, e, Res.bind_ok, TreeMap.cend, this, List.map_reverse,
        Tr.items_toList]


/-! ## Insertion into a tree whose cached heights may be stale -/

theorem Tr.Pos.ht_nonneg_pos {t : Tr K V} (h : t.Pos) : 0 ≤ t.ht := by
  cases t with
  | nil => simp [Tr.ht_nil]
  | node l a k v hh r => have := h.2.2; simp only [Tr.ht_node]; omega

theorem Tr.pos_mk {l r : Tr K V} {a : Nat} {k : K} {v : V} (hl : l.Pos) (hr : r.Pos) :
    (Tr.mk l a k v r).Pos := by
  have := hl.ht_nonneg_pos
  have := hr.ht_nonneg_pos
  exact ⟨hl, hr, by omega⟩

theorem pos_of_plug {t : Tr K V} {ctx : List (Frame K V)} (h : (plug t ctx).Pos) : t.Pos := by
  induction ctx generalizing t with
  | nil => exact h
  | cons f rest ih =>
    have := ih h
    cases f with
    | L a k v hh r => exact this.1
    | R l a k v hh => exact this.2.1

theorem pos_plug_replace {t t1 : Tr K V} {ctx : List (Frame K V)} (h : (plug t ctx).Pos)
    (h1 : t1.Pos) : (plug t1 ctx).Pos := by
  induction ctx generalizing t t1 with
  | nil => exact h1
  | cons f rest ih =>
    have hf : (f.fill t).Pos := pos_of_plug (show (plug (f.fill t) rest).Pos from h)
    refine ih h ?_
    cases f with
    | L a k v hh r => exact ⟨h1, hf.2.1, hf.2.2⟩
    | R l a k v hh => exact ⟨hf.1, h1, hf.2.2⟩

/-- With positive cached heights the rotation code never meets an absent child. -/
theorem rebalance_total {l r : Tr K V} {a : Nat} {k : K} {v : V} {h : Int} (hl : l.Pos)
    (hr : r.Pos) (hb : balTest l.ht r.ht = false) :
    ∃ t1, (Tr.node l a k v h r).rebalance = some t1 ∧ t1.Pos := by
  have hl0 := hl.ht_nonneg_pos
  have hr0 := hr.ht_nonneg_pos
  have hnb : ¬(l.ht ≤ r.ht + 1 ∧ r.ht ≤ l.ht + 1) := by
    intro hh
    rw [(balTest_iff _ _).mpr hh] at hb
    exact absurd hb (by simp)
  simp only [Tr.rebalance]
  by_cases hle : l.ht ≤ r.ht
  · simp only [hle, if_true]
    cases r with
    | nil => simp only [Tr.ht_nil] at hnb hle hl0; omega
    | node rl b kb vb hb2 rr =>
      obtain ⟨g1, g2, g3⟩ := hr
      by_cases hle2 : rl.ht ≤ rr.ht
      · simp only [hle2, if_true]
        exact ⟨_, rfl, Tr.pos_mk hl g1, g2, g3⟩
      · simp only [hle2, if_false]
        have := g2.ht_nonneg_pos
        cases rl with
        | nil => simp only [Tr.ht_nil] at hle2; omega
        | node rll c kc vc hc rlr =>
          obtain ⟨e1, e2, e3⟩ := g1
          have := e1.ht_nonneg_pos
          have := (Tr.pos_mk (a := b) (k := kb) (v := vb) e2 g2).ht_nonneg_pos
          exact ⟨_, rfl, Tr.pos_mk hl e1, Tr.pos_mk e2 g2, by omega⟩
  · simp only [hle, if_false]
    cases l with
    | nil => simp only [Tr.ht_nil] at hnb hle hr0; omega
    | node ll b kb vb hb2 lr =>
      obtain ⟨g1, g2, g3⟩ := hl
      by_cases hle2 : ll.ht ≥ lr.ht
      · simp only [hle2, if_true]
        exact ⟨_, rfl, g1, Tr.pos_mk g2 hr, g3⟩
      · simp only [hle2, if_false]
        have := g1.ht_nonneg_pos
        cases lr with
        | nil => simp only [Tr.ht_nil] at hle2; omega
        | node lrl c kc vc hc lrr =>
          obtain ⟨e1, e2, e3⟩ := g2
          have := e2.ht_nonneg_pos
          have := (Tr.pos_mk (a := b) (k := kb) (v := vb) g1 e1).ht_nonneg_pos
          exact ⟨_, rfl, Tr.pos_mk g1 e1, Tr.pos_mk e2 hr, by omega⟩

/-- With positive cached heights a pass of the repair loop always has a result, and the
cached heights stay positive. -/
theorem stepZ_total {l r : Tr K V} {a : Nat} {k : K} {v : V} {h : Int}
    {ctx : List (Frame K V)} (hp : (plug (.node l a k v h r) ctx).Pos) :
    ∃ res, stepZ (.node l a k v h r) ctx = some res ∧
      (match res with
        | .inl (t1, ctx1) => (plug t1 ctx1).Pos
        | .inr t1 => t1.Pos) := by
  have hn := pos_of_plug hp
  simp only [stepZ]
  by_cases hb : balTest l.ht r.ht = true
  · simp only [hb, if_true]
    cases ctx with
    | nil => exact ⟨_, rfl, Tr.pos_mk hn.1 hn.2.1⟩
    | cons f rest =>
      refine ⟨_, rfl, ?_⟩
      exact @pos_plug_replace K V _ (Tr.mk l a k v r) (f :: rest) hp (Tr.pos_mk hn.1 hn.2.1)
  · simp only [hb, if_false]
    obtain ⟨t1, e, hp1⟩ := rebalance_total (a := a) (k := k) (v := v) (h := h) hn.1 hn.2.1
      (by simpa using hb)
    simp only [e, Bool.false_eq_true, if_false]
    exact ⟨_, rfl, pos_plug_replace hp hp1⟩

/-- When `repairsTree` returns, the tree-level loop has a result within the same bound,
and the cached heights are still positive. -/
theorem repairsTree_total (fuel : Nat) {m m1 : TreeMap K V} {t : Tr K V} {a : Nat}
    {ctx : List (Frame K V)} (hz : RepZ m t ctx) (hroot : t.root = some a)
    (hp : (plug t ctx).Pos) (hok : m.repairsTree fuel (some a) = .ok m1) :
    ∃ t1, loopZ fuel t ctx = some t1 ∧ t1.Pos := by
  induction fuel generalizing m t a ctx with
  | zero => simp [TreeMap.repairsTree] at hok
  | succ fuel ih =>
    cases t with
    | nil => simp [Tr.root] at hroot
    | node l b k v h r =>
      simp only [Tr.root, Option.some.injEq] at hroot
      subst hroot
      obtain ⟨res, hstep, hpos⟩ := stepZ_total hp
      obtain ⟨m2, next, e2, -, -, hres⟩ := repairStep_spec hz hstep
      simp only [TreeMap.repairsTree, e2] at hok
      simp only [loopZ, hstep]
      cases res with
      | inl p =>
        obtain ⟨t2, ctx2⟩ := p
        obtain ⟨hz2, hnext, hne⟩ := hres
        cases hr2 : t2.root with
        | none => exact absurd hr2 hne
        | some a2 =>
          rw [hnext, hr2] at hok
          exact ih hz2 hr2 hpos hok
      | inr t2 => exact ⟨t2, rfl, hpos⟩

theorem Tr.pos_leaf (a : Nat) (k : K) (v : V) : (Tr.leaf a k v).Pos :=
  ⟨trivial, trivial, le_refl 1⟩

/-- An insertion that returns keeps the weak invariant and performs a sorted insertion. -/
theorem sane_insert [LinearOrder K] {m m1 : TreeMap K V} {t : Tr K V} (hs : Sane m t)
    (fuel : Nat) (key : K) (val : V) (hok : m.insertWith fuel key val = .ok m1) :
    ∃ t1, Sane m1 t1 ∧ t1.toList = insL key val t.toList := by
  have key_fact : ∃ t1, t.insert fuel m.nodes.length key val = some t1 ∧
      t1.Pos ∧ t1.toList = insL key val t.toList := by
    cases t with
    | nil => exact ⟨_, rfl, Tr.pos_leaf _ _ _, rfl⟩
    | node l a k v h r =>
      have hh : m.Head = some a := hs.rep.head
      have hfuel : (Tr.node l a k v h r).height ≤ m.nodes.length + 1 :=
        le_trans (Tr.height_le_size _) (le_trans hs.rep.size_le (Nat.le_succ _))
      obtain ⟨hd, hspot⟩ := insertDescend_spec key (m.nodes.length + 1) hs.rep rfl hfuel
      have hplug := insZ_plug key (Tr.node l a k v h r) []
      have htl := insZ_toList key val (Tr.node l a k v h r) [] hs.bst (by simp)
      simp only [TreeMap.insertWith, hh, hd] at hok
      simp only [Tr.insert]
      cases hsp : insZ key (Tr.node l a k v h r) [] with
      | present =>
        simp only [hsp] at htl
        exact ⟨_, rfl, hs.pos, htl.symm⟩
      | right l1 b kb vb hb ctx1 =>
        simp only [hsp] at hspot hplug htl hok
        obtain ⟨m2, e1, hz1, ct1, ln1⟩ := attach_right_spec key val hspot
        simp only [Spot.slot, e1] at hok
        have hp0 : (plug (Tr.node l1 b kb vb hb .nil) ctx1).Pos := hplug ▸ hs.pos
        have hpn := pos_of_plug hp0
        have hp1 : (plug (Tr.node l1 b kb vb hb (Tr.leaf m.nodes.length key val)) ctx1).Pos :=
          pos_plug_replace hp0 ⟨hpn.1, Tr.pos_leaf _ _ _, hpn.2.2⟩
        obtain ⟨t1, e2, hp2⟩ := repairsTree_total _ hz1 rfl hp1 hok
        refine ⟨t1, e2, hp2, ?_⟩
        rw [loopZ_toList _ e2, toList_plug]
        exact htl
      | left b kb vb hb r1 ctx1 =>
        simp only [hsp] at hspot hplug htl hok
        obtain ⟨m2, e1, hz1, ct1, ln1⟩ := attach_left_spec key val hspot
        simp only [Spot.slot, e1] at hok
        have hp0 : (plug (Tr.node .nil b kb vb hb r1) ctx1).Pos := hplug ▸ hs.pos
        have hpn := pos_of_plug hp0
        have hp1 : (plug (Tr.node (Tr.leaf m.nodes.length key val) b kb vb hb r1) ctx1).Pos :=
          pos_plug_replace hp0 ⟨Tr.pos_leaf _ _ _, hpn.2.1, hpn.2.2⟩
        obtain ⟨t1, e2, hp2⟩ := repairsTree_total _ hz1 rfl hp1 hok
        refine ⟨t1, e2, hp2, ?_⟩
        rw [loopZ_toList _ e2, toList_plug]
        exact htl
  obtain ⟨t1, e1, hp1, hl1⟩ := key_fact
  obtain ⟨m2, e2, hz2, ct2⟩ := insert_spec hs.rep hs.count fuel key val e1
  rw [hok] at e2
  simp only [Res.ok.injEq] at e2
  subst e2
  refine ⟨t1, ⟨hz2, ct2, ?_, hp1⟩, hl1⟩
  unfold Tr.Bst
  rw [hl1]
  exact insL_sorted key val _ hs.bst


/-! ## Removal of a node with at most one child -/

theorem TreeMap.cell_free (m : TreeMap K V) (a x : Nat) :
    TreeMap.cell { m with nodes := m.nodes.set a none } x = if x = a then none else m.cell x := by
  unfold TreeMap.cell
  by_cases hx : x = a
  · subst hx
    by_cases hl : x < m.nodes.length
    · simp [List.get?_eq_getElem?, List.getElem?_set, hl]
    · simp [List.get?_eq_getElem?, List.getElem?_eq_none, not_lt.mp hl]
  · simp [List.get?_eq_getElem?, List.getElem?_set, hx, Ne.symm hx]

/-- The relinking of the parent in `remove(Node*)`: the parent of the focused node is made to
point at `X` instead. -/
theorem replaceInParent_spec {m : TreeMap K V} {l r : Tr K V} {a : Nat} {k : K} {v : V}
    {h : Int} {ctx : List (Frame K V)} (X : Option Nat)
    (hz : RepZ m (.node l a k v h r) ctx) :
    ∃ m1, m.replaceInParent a X = .ok m1 ∧ RepCtx m1.cell X ctx ∧
      m1.Head = ctxRoot X ctx ∧ (∀ x, x ∉ ctxAddrs ctx → m1.cell x = m.cell x) ∧
      m1.count = m.count ∧ m1.nodes.length = m.nodes.length := by
  obtain ⟨-, -, hac, -, -, -, -, -, hnd⟩ := hz.distinct
  have ca := hz.rep.1
  have hhead := hz.head
  have hctx := hz.repCtx
  cases ctx with
  | nil =>
    refine ⟨{ m with Head := X }, ?_, trivial, rfl, fun _ _ => rfl, rfl, rfl⟩
    simp [TreeMap.replaceInParent, TreeMap.deref_eq ca, ctxPar]
  | cons f rest =>
    cases f with
    | L p kp vp hp s =>
      obtain ⟨h1, h2, h3⟩ := hctx
      simp only [ctxAddrs, Frame.addr, Frame.sib, List.nodup_cons, List.nodup_append] at hnd
      obtain ⟨⟨hpr, hr⟩, hrest, hdis⟩ := hnd
      have hprest : p ∉ ctxAddrs rest := fun hx => hdis (List.mem_cons_self _ _) hx
      obtain ⟨m1, e1, c1, hd1, ct1, ln1⟩ :=
        TreeMap.assign_spec m p (fun n => { n with Left := X }) _ h1
      refine ⟨m1, ?_, ⟨?_, ?_, ?_⟩, ?_, ?_, ct1, ln1⟩
      · simp [TreeMap.replaceInParent, TreeMap.deref_eq ca, ctxPar, Frame.addr,
          TreeMap.deref_eq h1, Tr.root, e1]
      · rw [c1]; simp
      · exact h2.frame (fun x hx => by rw [c1]; exact upd_of_mem hx hpr)
      · exact RepCtx.frame_ctx h3 (fun x hx => by rw [c1]; exact upd_of_mem hx hprest)
      · rw [hd1, hhead]; rfl
      · intro x hx
        have hxp : x ≠ p := by
          rintro rfl
          exact hx (by simp [ctxAddrs, Frame.addr])
        rw [c1]; exact Function.update_noteq hxp _ _
    | R s p kp vp hp =>
      obtain ⟨h1, h2, h3⟩ := hctx
      have has : a ∉ s.addrs := fun hx => hac (by simp [ctxAddrs, Frame.sib, hx])
      have hne : s.root ≠ some a := fun hh => has (Tr.root_mem_addrs hh)
      simp only [ctxAddrs, Frame.addr, Frame.sib, List.nodup_cons, List.nodup_append] at hnd
      obtain ⟨⟨hpr, hr⟩, hrest, hdis⟩ := hnd
      have hprest : p ∉ ctxAddrs rest := fun hx => hdis (List.mem_cons_self _ _) hx
      obtain ⟨m1, e1, c1, hd1, ct1, ln1⟩ :=
        TreeMap.assign_spec m p (fun n => { n with Right := X }) _ h1
      refine ⟨m1, ?_, ⟨?_, ?_, ?_⟩, ?_, ?_, ct1, ln1⟩
      · simp [TreeMap.replaceInParent, TreeMap.deref_eq ca, ctxPar, Frame.addr,
          TreeMap.deref_eq h1, hne, e1]
      · rw [c1]; simp
      · exact h2.frame (fun x hx => by rw [c1]; exact upd_of_mem hx hpr)
      · exact RepCtx.frame_ctx h3 (fun x hx => by rw [c1]; exact upd_of_mem hx hprest)
      · rw [hd1, hhead]; rfl
      · intro x hx
        have hxp : x ≠ p := by
          rintro rfl
          exact hx (by simp [ctxAddrs, Frame.addr])
        rw [c1]; exact Function.update_noteq hxp _ _

/-- The end of `remove(Node*)`: the cell is freed and `count` decremented. -/
theorem dispose_spec {m : TreeMap K V} {a : Nat} {n : Node K V} (h : m.cell a = some n) :
    ∃ m1, m.dispose a = .ok m1 ∧ (∀ x, m1.cell x = if x = a then none else m.cell x) ∧
      m1.Head = m.Head ∧ m1.count = decrCount m.count := by
  have h0 : TreeMap.cell { m with count := decrCount m.count } a = some n := h
  obtain ⟨m3, e3, c3, hd3, ct3, ln3⟩ :=
    TreeMap.assign_spec { m with count := decrCount m.count } a
      (fun n => { n with Left := none }) _ h0
  have h3 : m3.cell a = some { n with Left := none } := by rw [c3]; simp
  obtain ⟨m4, e4, c4, hd4, ct4, ln4⟩ :=
    TreeMap.assign_spec m3 a (fun n => { n with Right := none }) _ h3
  refine ⟨{ m4 with nodes := m4.nodes.set a none }, ?_, ?_, ?_, ?_⟩
  · simp only [TreeMap.dispose, e3, Res.bind_ok, e4, Res.pure_eq]
  · intro x
    rw [TreeMap.cell_free]
    by_cases hx : x = a
    · simp [hx]
    · simp only [hx, if_false]
      rw [c4, Function.update_noteq hx, c3, Function.update_noteq hx]
      rfl
  · show m4.Head = m.Head
    rw [hd4, hd3]
  · show m4.count = decrCount m.count
    rw [ct4, ct3]

/-- The unlinking of a node with at most one child: its only child (if any) takes its place. -/
theorem unlink_spec {m : TreeMap K V} {l r : Tr K V} {a : Nat} {k : K} {v : V} {h : Int}
    {ctx : List (Frame K V)} (hz : RepZ m (.node l a k v h r) ctx)
    (hc : l = .nil ∨ r = .nil) :
    ∃ m1, m.unlink a = .ok m1 ∧ RepCtx m1.cell (l.orElse r).root ctx ∧
      Rep m1.cell (ctxPar ctx) (l.orElse r) ∧ m1.Head = ctxRoot (l.orElse r).root ctx ∧
      m1.cell a = m.cell a ∧ m1.count = m.count := by
  obtain ⟨hal, har, hac, hlr, hlc, hrc, ndl, ndr, ndc⟩ := hz.distinct
  have ca := hz.rep.1
  have hl := hz.rep.2.1
  have hr := hz.rep.2.2
  cases l with
  | nil =>
    cases r with
    | nil =>
      obtain ⟨m1, e1, hctx1, hd1, f1, ct1, -⟩ := replaceInParent_spec none hz
      refine ⟨m1, ?_, hctx1, trivial, hd1, f1 a hac, ct1⟩
      simp [TreeMap.unlink, TreeMap.deref_eq ca, Tr.root, e1]
    | node rl b kb vb hb rr =>
      obtain ⟨m1, e1, hctx1, hd1, f1, ct1, -⟩ := replaceInParent_spec (some b) hz
      have ca1 : m1.cell a = _ := (f1 a hac).trans ca
      have hr1 : Rep m1.cell (some a) (.node rl b kb vb hb rr) :=
        hr.frame (fun x hx => f1 x (hrc x hx))
      obtain ⟨m2, e2, hr2, f2, hd2, ct2, -⟩ := assignParent_spec (ctxPar ctx) hr1 ndr
      refine ⟨m2, ?_, ?_, hr2, ?_, ?_, ?_⟩
      · simp only [TreeMap.assignIfPresent, Tr.root_node] at e2
        simp [TreeMap.unlink, TreeMap.deref_eq ca, Tr.root, e1, TreeMap.deref_eq ca1,
          Res.ofPtr, e2]
      · exact RepCtx.frame_ctx hctx1 (fun x hx => f2 x (fun hx1 => hrc x hx1 hx))
      · rw [hd2, hd1]; rfl
      · rw [f2 a har]; exact f1 a hac
      · rw [ct2, ct1]
  | node ll b kb vb hb lr =>
    cases r with
    | node rl c kc vc hc2 rr => rcases hc with hc | hc <;> exact absurd hc (by simp)
    | nil =>
      obtain ⟨m1, e1, hctx1, hd1, f1, ct1, -⟩ := replaceInParent_spec (some b) hz
      have ca1 : m1.cell a = _ := (f1 a hac).trans ca
      have hl1 : Rep m1.cell (some a) (.node ll b kb vb hb lr) :=
        hl.frame (fun x hx => f1 x (hlc x hx))
      obtain ⟨m2, e2, hl2, f2, hd2, ct2, -⟩ := assignParent_spec (ctxPar ctx) hl1 ndl
      refine ⟨m2, ?_, ?_, hl2, ?_, ?_, ?_⟩
      · simp only [TreeMap.assignIfPresent, Tr.root_node] at e2
        simp [TreeMap.unlink, TreeMap.deref_eq ca, Tr.root, e1, TreeMap.deref_eq ca1,
          Res.ofPtr, e2]
      · exact RepCtx.frame_ctx hctx1 (fun x hx => f2 x (fun hx1 => hlc x hx1 hx))
      · rw [hd2, hd1]; rfl
      · rw [f2 a hal]; exact f1 a hac
      · rw [ct2, ct1]

theorem Tr.orElse_addrs_sub (l r : Tr K V) (a : Nat) :
    (l.orElse r).addrs.Sublist (l.addrs ++ a :: r.addrs) := by
  cases l with
  | nil => exact (List.sublist_cons_self a _)
  | node ll b kb vb hb lr => exact List.sublist_append_left _ _

/-- `remove(Node*)` of a node with at most one child. -/
theorem removeNode_spec {m : TreeMap K V} {l r : Tr K V} {a : Nat} {k : K} {v : V} {h : Int}
    {ctx : List (Frame K V)} (hz : RepZ m (.node l a k v h r) ctx)
    (hc : l = .nil ∨ r = .nil) :
    ∃ m1, m.removeNode a = .ok m1 ∧ RepZ m1 (l.orElse r) ctx ∧
      m1.count = decrCount m.count ∧ m1.cell a = none := by
  obtain ⟨hal, har, hac, -, -, -, -, -, -⟩ := hz.distinct
  obtain ⟨m1, e1, hctx1, hrep1, hd1, ca1, ct1⟩ := unlink_spec hz hc
  have ca := hz.rep.1
  obtain ⟨m2, e2, c2, hd2, ct2⟩ := dispose_spec (ca1.trans ca)
  have hsub := Tr.orElse_addrs_sub l r a
  have hao : a ∉ (l.orElse r).addrs := by
    cases l with
    | nil => exact har
    | node ll b kb vb hb lr => exact hal
  refine ⟨m2, ?_, ⟨?_, ?_, ?_, ?_⟩, ?_, ?_⟩
  · simp only [TreeMap.removeNode, e1, Res.bind_ok, e2]
  · rw [hd2, hd1]
  · exact hrep1.frame (fun x hx => by
      rw [c2, if_neg (by rintro rfl; exact hao hx)])
  · exact RepCtx.frame_ctx hctx1 (fun x hx => by
      rw [c2, if_neg (by rintro rfl; exact hac hx)])
  · exact (hsub.append_right _).nodup hz.nodup
  · rw [ct2, ct1]
  · rw [c2, if_pos rfl]


theorem Tr.root_eq_none {t : Tr K V} (h : t.root = none) : t = .nil := by
  cases t with
  | nil => rfl
  | node l a k v hh r => simp [Tr.root] at h

theorem Tr.orElse_toList (l r : Tr K V) (hc : l = .nil ∨ r = .nil) :
    (l.orElse r).toList = l.toList ++ r.toList := by
  cases l with
  | nil => rfl
  | node ll b kb vb hb lr =>
    rcases hc with hc | hc
    · exact absurd hc (by simp)
    · subst hc; simp [Tr.orElse, Tr.toList]

theorem Tr.orElse_pos (l r : Tr K V) (hl : l.Pos) (hr : r.Pos) : (l.orElse r).Pos := by
  cases l with
  | nil => exact hr
  | node ll b kb vb hb lr => exact hl

/-- In a list with strictly increasing keys, dropping the entries with one key drops exactly
the one entry that has it. -/
theorem filter_key [LinearOrder K] (L1 L2 : List (K × V)) (k : K) (v : V)
    (hs : ((L1 ++ (k, v) :: L2).map Prod.fst).Pairwise (· < ·)) :
    (L1 ++ (k, v) :: L2).filter (fun e => decide (e.1 ≠ k)) = L1 ++ L2 := by
  simp only [List.map_append, List.map_cons, List.pairwise_append, List.pairwise_cons,
    List.mem_map, List.mem_cons, forall_exists_index, and_imp] at hs
  obtain ⟨-, ⟨h2, -⟩, h3⟩ := hs
  have f1 : L1.filter (fun e => decide (e.1 ≠ k)) = L1 := by
    rw [List.filter_eq_self]
    intro e he
    simpa using ne_of_lt (h3 e.1 e he rfl k (Or.inl rfl))
  have f2 : L2.filter (fun e => decide (e.1 ≠ k)) = L2 := by
    rw [List.filter_eq_self]
    intro e he
    simpa using ne_of_gt (h2 e.1 e he rfl)
  have hk : decide ((k, v).1 ≠ k) = false := by simp
  rw [List.filter_append, f1, List.filter_cons, hk, f2]
  rfl

theorem toList_plug_split (t : Tr K V) (ctx : List (Frame K V)) :
    (plug t ctx).toList =
      (beforeI ctx).reverse.map (fun x => x.2) ++ t.toList ++ (afterI ctx).map (fun x => x.2) := by
  rw [← Tr.items_toList, items_plug, List.map_append, List.map_append, Tr.items_toList]

/-- Every node of a represented tree is the child that its parent link points to names. -/
theorem parent_ok {m : TreeMap K V} {t : Tr K V} (hz : RepZ m t []) {q : Nat} {nq : Node K V}
    (hq : m.Reaches q) (hc : m.cell q = some nq) :
    (match nq.Parent with
      | none => m.Head = some q
      | some pp => ∃ pn, m.cell pp = some pn ∧ (pn.Left = some q ∨ pn.Right = some q)) := by
  obtain ⟨l, k, v, h, r, ctx, e, hz1⟩ := hz.view (hz.mem_of_reaches hq)
  have c1 := hz1.rep.1
  rw [c1] at hc
  simp only [Option.some.injEq] at hc
  subst hc
  cases ctx with
  | nil => exact hz1.head
  | cons f rest =>
    cases f with
    | L b kb vb hb s => exact ⟨_, hz1.repCtx.1, Or.inl rfl⟩
    | R s b kb vb hb => exact ⟨_, hz1.repCtx.1, Or.inr rfl⟩

/-- How the links around a removed node with at most one child change. -/
theorem link_facts {m m1 : TreeMap K V} {l r sub : Tr K V} {a : Nat} {k : K} {v : V} {h : Int}
    {ctx : List (Frame K V)} (hz : RepZ m (.node l a k v h r) ctx) (hz1 : RepZ m1 sub ctx) :
    (match ctxPar ctx with
      | none => m1.Head = sub.root
      | some pp => ∃ pn pn1, m.cell pp = some pn ∧ m1.cell pp = some pn1 ∧
          ((pn.Left = some a ∧ pn1.Left = sub.root ∧ pn1.Right = pn.Right) ∨
           (pn.Right = some a ∧ pn1.Right = sub.root ∧ pn1.Left = pn.Left))) ∧
      (∀ c, sub.root = some c → ∃ nc, m1.cell c = some nc ∧ nc.Parent = ctxPar ctx) := by
  constructor
  · cases ctx with
    | nil => exact hz1.head
    | cons f rest =>
      cases f with
      | L b kb vb hb s =>
        exact ⟨_, _, hz.repCtx.1, hz1.repCtx.1, Or.inl ⟨rfl, rfl, rfl⟩⟩
      | R s b kb vb hb =>
        exact ⟨_, _, hz.repCtx.1, hz1.repCtx.1, Or.inr ⟨rfl, rfl, rfl⟩⟩
  · intro c hc
    cases sub with
    | nil => simp [Tr.root] at hc
    | node sl b kb vb hb sr =>
      simp only [Tr.root, Option.some.injEq] at hc
      subst hc
      exact ⟨_, hz1.rep.1, rfl⟩

/-- `remove(key)` of a present key whose node has at most one child, in a state that
satisfies the weak invariant. -/
theorem sane_remove [LinearOrder K] {m : TreeMap K V} {t : Tr K V} (hs : Sane m t) (key : K)
    {p : Nat} {n : Node K V} (hf : m.findNode key = .ok (some p)) (hn : m.cell p = some n)
    (hc : n.Left = none ∨ n.Right = none) :
    ∃ m1 t1, m.remove key = .ok m1 ∧ Sane m1 t1 ∧
      t1.toList = t.toList.filter (fun e => decide (e.1 ≠ key)) ∧
      t1.toList.length + 1 = t.toList.length ∧ m1.count + 1 = m.count ∧
      (match n.Parent with
        | none => m1.Head = (if n.Left = none then n.Right else n.Left)
        | some pp => ∃ pn pn1, m.cell pp = some pn ∧ m1.cell pp = some pn1 ∧
            ((pn.Left = some p ∧ pn1.Left = (if n.Left = none then n.Right else n.Left) ∧
                pn1.Right = pn.Right) ∨
             (pn.Right = some p ∧ pn1.Right = (if n.Left = none then n.Right else n.Left) ∧
                pn1.Left = pn.Left))) ∧
      (∀ c, (if n.Left = none then n.Right else n.Left) = some c →
        ∃ nc, m1.cell c = some nc ∧ nc.Parent = n.Parent) := by
  have hfn := findNodeFrom_rep key m.nodes.length hs.rep.rep
    (le_trans (Tr.height_le_size t) hs.rep.size_le)
  have hh : m.Head = t.root := hs.rep.head
  rw [← hh] at hfn
  have hfn1 : m.findNode key = .ok ((t.find key).map Prod.fst) := hfn
  rw [hf] at hfn1
  simp only [Res.ok.injEq] at hfn1
  cases hfd : t.find key with
  | none => rw [hfd] at hfn1; simp at hfn1
  | some q =>
    obtain ⟨p1, v1⟩ := q
    rw [hfd] at hfn1
    simp only [Option.map_some', Option.some.injEq] at hfn1
    subst hfn1
    obtain ⟨n1, q1, q2, q3, q4⟩ := find_cell key hs.rep.rep hfd
    obtain ⟨l, k, v, h, r, ctx, e, hz⟩ := hs.rep.view q4
    have c1 := hz.rep.1
    rw [c1] at hn
    simp only [Option.some.injEq] at hn
    subst hn
    rw [c1] at q1
    simp only [Option.some.injEq] at q1
    subst q1
    simp only at q3 hc
    subst q3
    have hc1 : l = .nil ∨ r = .nil := hc.imp Tr.root_eq_none Tr.root_eq_none
    obtain ⟨m1, e1, hz1, ct1, -⟩ := removeNode_spec hz hc1
    have hroot : (if l.root = none then r.root else l.root) = (l.orElse r).root := by
      cases l with
      | nil => rfl
      | node ll b kb vb hb lr => rfl
    have htl : t.toList = (beforeI ctx).reverse.map (fun x => x.2)
        ++ (l.toList ++ (k, v) :: r.toList) ++ (afterI ctx).map (fun x => x.2) := by
      rw [← e, toList_plug_split]; rfl
    have htl1 : (plug (l.orElse r) ctx).toList = (beforeI ctx).reverse.map (fun x => x.2)
        ++ (l.toList ++ r.toList) ++ (afterI ctx).map (fun x => x.2) := by
      rw [toList_plug_split, Tr.orElse_toList l r hc1]
    have hbst := hs.bst
    unfold Tr.Bst at hbst
    rw [htl] at hbst
    have hfil : t.toList.filter (fun e => decide (e.1 ≠ k)) = (plug (l.orElse r) ctx).toList := by
      rw [htl, htl1]
      have := filter_key ((beforeI ctx).reverse.map (fun x => x.2) ++ l.toList)
        (r.toList ++ (afterI ctx).map (fun x => x.2)) k v (by simpa using hbst)
      simpa using this
    have hlen : (plug (l.orElse r) ctx).toList.length + 1 = t.toList.length := by
      rw [htl, htl1]; simp; omega
    have hcnt : m.count = t.toList.length := by rw [hs.count, Tr.size_eq_length]
    have hdec : decrCount m.count + 1 = m.count := by
      unfold decrCount
      have : m.count ≠ 0 := by omega
      simp only [this, if_false]
      omega
    have hlinks := link_facts hz hz1
    refine ⟨m1, plug (l.orElse r) ctx, ?_, ⟨RepZ.plug_iff.mpr hz1, ?_, ?_, ?_⟩, hfil.symm, hlen,
      by rw [ct1]; exact hdec, ?_, ?_⟩
    · simp only [TreeMap.remove, hf, Res.bind_ok]; exact e1
    · rw [Tr.size_eq_length]; omega
    · unfold Tr.Bst
      rw [← hfil]
      exact (hs.bst.sublist ((List.filter_sublist _).map Prod.fst))
    · have hp := hs.pos
      rw [← e] at hp
      have hpn := pos_of_plug hp
      exact pos_plug_replace hp (Tr.orElse_pos l r hpn.1 hpn.2.1)
    · simp only [hroot]; exact hlinks.1
    · simp only [hroot]; exact hlinks.2

/-- Every state reached by insertions and removals of nodes with at most one child satisfies
the weak invariant. -/
theorem reach1_sane [LinearOrder K] {m : TreeMap K V} (hr : Reach1 m) : ∃ t, Sane m t := by
  induction hr with
  | empty =>
    exact ⟨.nil, ⟨rfl, trivial, trivial, by simp [Tr.addrs, ctxAddrs]⟩, rfl,
      by simp [Tr.Bst, Tr.toList], trivial⟩
  | insert fuel k v _ hok ih =>
    obtain ⟨t, hs⟩ := ih
    obtain ⟨t1, hs1, -⟩ := sane_insert hs fuel k v hok
    exact ⟨t1, hs1⟩
  | remove k p n _ hf hn hc hok ih =>
    obtain ⟨t, hs⟩ := ih
    obtain ⟨m2, t1, e, hs1, -⟩ := sane_remove hs k hf hn hc
    rw [hok] at e
    simp only [Res.ok.injEq] at e
    subst e
    exact ⟨t1, hs1⟩

/-- Maps built from a list of pairs are among the states reached by insertions. -/
theorem reach1_insertAll [LinearOrder K] {m m1 : TreeMap K V} (hr : Reach1 m)
    (l : List (K × V)) (h : m.insertAll l = .ok m1) : Reach1 m1 := by
  induction l generalizing m with
  | nil =>
    simp only [TreeMap.insertAll, Res.ok.injEq] at h
    subst h
    exact hr
  | cons q rest ih =>
    obtain ⟨k, v⟩ := q
    simp only [TreeMap.insertAll] at h
    cases hi : m.insert k v with
    | ok m2 =>
      rw [hi] at h
      exact ih (Reach1.insert _ k v hr hi) h
    | out_of_range => rw [hi] at h; simp at h
    | undefined => rw [hi] at h; simp at h


/-! ## Cursor steps at the ends of the sequence -/

/-- In a list sorted by key, an entry is the last one exactly when no key exceeds its key, and
the first one exactly when no key is below its key. -/
theorem sorted_split_ends [LinearOrder K] (X Y : List (K × V)) (k : K) (v : V)
    (hs : ((X ++ (k, v) :: Y).map Prod.fst).Pairwise (· < ·)) :
    (Y = [] ↔ ∀ e ∈ X ++ (k, v) :: Y, e.1 ≤ k) ∧
      (X = [] ↔ ∀ e ∈ X ++ (k, v) :: Y, k ≤ e.1) := by
  rw [List.map_append, List.map_cons, List.pairwise_append, List.pairwise_cons] at hs
  obtain ⟨-, ⟨hY, -⟩, hXY⟩ := hs
  have hX : ∀ e ∈ X, e.1 < k := fun e he =>
    hXY e.1 (List.mem_map_of_mem _ he) k (List.mem_cons_self _ _)
  have hY1 : ∀ e ∈ Y, k < e.1 := fun e he => hY e.1 (List.mem_map_of_mem _ he)
  constructor
  · constructor
    · rintro rfl e he
      rcases List.mem_append.mp he with h | h
      · exact le_of_lt (hX e h)
      · simp only [List.mem_singleton] at h
        subst h
        exact le_refl _
    · intro h
      cases Y with
      | nil => rfl
      | cons y rest =>
        have h1 := h y (List.mem_append_right _ (List.mem_cons_of_mem _ (List.mem_cons_self _ _)))
        have h2 := hY1 y (List.mem_cons_self _ _)
        exact absurd h1 (not_le.mpr h2)
  · constructor
    · rintro rfl e he
      simp only [List.nil_append, List.mem_cons] at he
      rcases he with h | h
      · subst h
        exact le_refl _
      · exact le_of_lt (hY1 e h)
    · intro h
      cases X with
      | nil => rfl
      | cons x rest =>
        have h1 := h x (List.mem_append_left _ (List.mem_cons_self _ _))
        have h2 := hX x (List.mem_cons_self _ _)
        exact absurd h1 (not_le.mpr h2)

theorem Fwd.none_iff {m : TreeMap K V} {nx : Option Nat} {A : List (Nat × K × V)}
    (h : Fwd m nx A) : nx = none ↔ A = [] := by
  cases nx with
  | none => exact ⟨fun _ => h, fun _ => rfl⟩
  | some a =>
    obtain ⟨l, k, v, hh, r, ctx, -, e⟩ := h
    constructor
    · intro h0
      exact absurd h0 (by simp)
    · intro h0
      rw [h0] at e
      simp at e

theorem Bwd.ne_nil {m : TreeMap K V} {b : Nat} {B : List (Nat × K × V)} (h : Bwd m b B) :
    B ≠ [] := by
  obtain ⟨l, k, v, hh, r, ctx, -, e⟩ := h
  rw [e]
  simp

/-- A cursor at a node of a well-formed search tree: `++` always returns, and reaches the end
position exactly from the largest key; `--` throws exactly at the smallest key. -/
theorem cursor_steps [LinearOrder K] {m : TreeMap K V} {t : Tr K V} (hz : RepZ m t [])
    (hb : t.Bst) (self : Nat) {q : Nat} {n : Node K V} (hq : m.Reaches q)
    (hn : m.cell q = some n) :
    (∃ nx, ConstIterator.incr m ⟨some self, some q⟩ = .ok ⟨some self, nx⟩ ∧
        (nx = none ↔ ∀ e ∈ t.toList, e.1 ≤ n.key)) ∧
      ((∀ e ∈ t.toList, n.key ≤ e.1) →
        ConstIterator.decr m ⟨some self, some q⟩ = .out_of_range) ∧
      (¬ (∀ e ∈ t.toList, n.key ≤ e.1) →
        ∃ b, ConstIterator.decr m ⟨some self, some q⟩ = .ok ⟨some self, some b⟩) := by
  obtain ⟨l, k, v, h, r, ctx, hplug, hz1⟩ := hz.view (hz.mem_of_reaches hq)
  have hcell := hz1.rep.1
  rw [hn] at hcell
  simp only [Option.some.injEq] at hcell
  subst hcell
  have hsplit : t.toList =
      ((l.items.reverse ++ beforeI ctx).reverse.map (fun x => x.2)) ++
        (k, v) :: ((r.items ++ afterI ctx).map (fun x => x.2)) := by
    rw [← hplug, toList_plug_split]
    simp only [Tr.toList, List.reverse_append, List.reverse_reverse, List.map_append,
      Tr.items_toList, List.append_assoc, List.cons_append]
  have hs : (t.toList.map Prod.fst).Pairwise (· < ·) := hb
  rw [hsplit] at hs
  obtain ⟨hlast, hfirst⟩ := sorted_split_ends _ _ k v hs
  rw [← hsplit] at hlast hfirst
  refine ⟨?_, ?_, ?_⟩
  · obtain ⟨nx, e, hf⟩ := incr_spec self hz1
    refine ⟨nx, e, ?_⟩
    rw [hf.none_iff, ← hlast]
    simp
  · intro hall
    have hnil := hfirst.mpr hall
    rcases decr_spec self hz1 with ⟨-, e⟩ | ⟨b, -, hbw⟩
    · exact e
    · exfalso
      apply hbw.ne_nil
      have h2 : beforeI ctx = [] ∧ l.items = [] := by simpa using hnil
      simp [h2.1, h2.2]
  · intro hnot
    rcases decr_spec self hz1 with ⟨h0, -⟩ | ⟨b, e, -⟩
    · exfalso
      apply hnot
      apply hfirst.mp
      rw [h0]
      rfl
    · exact ⟨b, e⟩

/-- Stepping back from the end position: it throws on the empty tree and reaches a node
otherwise. -/
theorem decr_end_cases {m : TreeMap K V} {t : Tr K V} (hz : RepZ m t []) (self : Nat) :
    (t.toList = [] → ConstIterator.decr m ⟨some self, none⟩ = .out_of_range) ∧
      (t.toList ≠ [] → ∃ b, ConstIterator.decr m ⟨some self, none⟩ = .ok ⟨some self, some b⟩) := by
  cases t with
  | nil =>
    refine ⟨fun _ => ?_, fun h => absurd rfl h⟩
    have hh : m.Head = none := hz.head
    simp only [ConstIterator.decr, hh]
  | node l a k v h r =>
    refine ⟨fun h0 => ?_, fun _ => ?_⟩
    · simp [Tr.toList] at h0
    · obtain ⟨b, e, -⟩ := decr_end_spec self hz
      exact ⟨b, e⟩


/-! ## Removal through a cursor -/

theorem bst_of_plug [LinearOrder K] {t : Tr K V} {ctx : List (Frame K V)}
    (h : (plug t ctx).Bst) : t.Bst := by
  unfold Tr.Bst at h ⊢
  rw [toList_plug_split] at h
  simp only [List.map_append, List.pairwise_append] at h
  exact h.1.2.1

theorem find_fill [LinearOrder K] (f : Frame K V) (t : Tr K V) (key : K)
    (hb : (f.fill t).Bst) (hk : key ∈ t.toList.map Prod.fst) :
    (f.fill t).find key = t.find key := by
  cases f with
  | L a k v h r =>
    have hb1 : ((t.toList ++ (k, v) :: r.toList).map Prod.fst).Pairwise (· < ·) := hb
    rw [List.map_append, List.map_cons, List.pairwise_append] at hb1
    have hlt : key < k := hb1.2.2 key hk k (List.mem_cons_self _ _)
    simp only [Frame.fill, Tr.find, gt_iff_lt, not_lt.mpr (le_of_lt hlt), if_false, hlt, if_true]
  | R l a k v h =>
    have hb1 : ((l.toList ++ (k, v) :: t.toList).map Prod.fst).Pairwise (· < ·) := hb
    rw [List.map_append, List.map_cons, List.pairwise_append, List.pairwise_cons] at hb1
    have hlt : k < key := hb1.2.1.1 key hk
    simp only [Frame.fill, Tr.find, gt_iff_lt, hlt, if_true]

theorem find_plug [LinearOrder K] (key : K) (ctx : List (Frame K V)) :
    ∀ (t : Tr K V), (plug t ctx).Bst → key ∈ t.toList.map Prod.fst →
      (plug t ctx).find key = t.find key := by
  induction ctx with
  | nil => intro t _ _; rfl
  | cons f rest ih =>
    intro t hb hk
    have hb1 : (plug (f.fill t) rest).Bst := hb
    have hk1 : key ∈ (f.fill t).toList.map Prod.fst := by
      cases f with
      | L a k v h r =>
        simp only [Frame.fill, Tr.toList, List.map_append, List.mem_append]
        exact Or.inl hk
      | R l a k v h =>
        simp only [Frame.fill, Tr.toList, List.map_append, List.mem_append, List.map_cons,
          List.mem_cons]
        exact Or.inr (Or.inr hk)
    show (plug (f.fill t) rest).find key = t.find key
    rw [ih (f.fill t) hb1 hk1, find_fill f t key (bst_of_plug hb1) hk]

/-- In a well-formed search tree `findNode` applied to the key of a node returns that node. -/
theorem findNode_of_view [LinearOrder K] {m : TreeMap K V} {l r : Tr K V} {q : Nat} {k : K}
    {v : V} {h : Int} {ctx : List (Frame K V)} (hz : RepZ m (.node l q k v h r) ctx)
    (hb : (plug (.node l q k v h r) ctx).Bst) : m.findNode k = .ok (some q) := by
  have hz0 : RepZ m (plug (.node l q k v h r) ctx) [] := RepZ.plug_iff.mpr hz
  have hf := findNodeFrom_rep k m.nodes.length hz0.rep
    (le_trans (Tr.height_le_size _) hz0.size_le)
  have hh : m.Head = (plug (.node l q k v h r) ctx).root := hz0.head
  rw [← hh] at hf
  have hfind : (plug (.node l q k v h r) ctx).find k = some (q, v) := by
    rw [find_plug k ctx _ hb (by simp [Tr.toList])]
    simp only [Tr.find, gt_iff_lt, lt_irrefl, if_false]
  rw [hfind] at hf
  exact hf

/-- In a well-formed tree `findNode` returns, whatever the key. -/
theorem findNode_total [LinearOrder K] {m : TreeMap K V} {t : Tr K V} (hz : RepZ m t [])
    (key : K) : ∃ r, m.findNode key = .ok r := by
  have hf := findNodeFrom_rep key m.nodes.length hz.rep
    (le_trans (Tr.height_le_size _) hz.size_le)
  have hh : m.Head = t.root := hz.head
  rw [← hh] at hf
  exact ⟨_, hf⟩

theorem removeAt_end [LinearOrder K] (m pointee : TreeMap K V) (self : Nat)
    (tree : Option Nat) : m.removeAt self pointee ⟨tree, none⟩ = .out_of_range := by
  simp only [TreeMap.removeAt, ConstIterator.get]
  rfl

theorem removeAt_foreign [LinearOrder K] {m m2 : TreeMap K V} {t : Tr K V} (hz : RepZ m t [])
    (self other : Nat) (hne : other ≠ self) {q : Nat} {n : Node K V} (hn : m2.cell q = some n) :
    m.removeAt self m2 ⟨some other, some q⟩ = .out_of_range := by
  obtain ⟨r, hr⟩ := findNode_total hz n.key
  have hne1 : some self ≠ some other := fun h => hne (Option.some.inj h).symm
  simp only [TreeMap.removeAt, ConstIterator.get, TreeMap.deref_eq hn, Res.bind_ok, Res.pure_eq,
    hr, hne1, ne_eq, not_false_eq_true, true_or, if_true]

theorem removeAt_own [LinearOrder K] {m : TreeMap K V} {t : Tr K V} (hz : RepZ m t [])
    (hb : t.Bst) (self : Nat) {q : Nat} (hq : m.Reaches q) :
    m.removeAt self m ⟨some self, some q⟩ = m.removeNode q := by
  obtain ⟨l, k, v, h, r, ctx, hplug, hz1⟩ := hz.view (hz.mem_of_reaches hq)
  have hcell := hz1.rep.1
  have hf := findNode_of_view hz1 (by rw [hplug]; exact hb)
  simp only [TreeMap.removeAt, ConstIterator.get, TreeMap.deref_eq hcell, Res.bind_ok,
    Res.pure_eq, hf, ne_eq, not_true_eq_false, false_or, if_false, Res.ofPtr, reduceCtorEq]


/-! ## The shape of small trees, and the height of balanced trees -/

theorem Tr.toList_eq_nil {t : Tr K V} (h : t.toList = []) : t = .nil := by
  cases t with
  | nil => rfl
  | node l a k v hh r => simp [Tr.toList] at h

theorem Tr.Good.single {t : Tr K V} (hg : t.Good) {e : K × V} (h : t.toList = [e]) :
    ∃ p, t = .node .nil p e.1 e.2 1 .nil := by
  cases t with
  | nil => simp [Tr.toList] at h
  | node l a k v hh r =>
    simp only [Tr.toList] at h
    have hl : l.toList = [] := by
      cases hl : l.toList with
      | nil => rfl
      | cons x xs =>
        rw [hl] at h
        have := congrArg List.length h
        simp at this
    rw [hl] at h
    simp only [List.nil_append, List.cons.injEq] at h
    obtain ⟨he, hr⟩ := h
    have hl1 := Tr.toList_eq_nil hl
    have hr1 := Tr.toList_eq_nil hr
    subst hl1 hr1 he
    obtain ⟨-, -, h3, -, -⟩ := hg
    simp only [Tr.ht_nil, max_self, zero_add] at h3
    exact ⟨a, by rw [h3]⟩

theorem Tr.Good.two_le_ht {t : Tr K V} (hg : t.Good) (h : 2 ≤ t.toList.length) : 2 ≤ t.ht := by
  cases t with
  | nil => simp [Tr.toList] at h
  | node l a k v hh r =>
    obtain ⟨gl, gr, h3, -, -⟩ := hg
    simp only [Tr.toList, List.length_append, List.length_cons] at h
    rw [Tr.ht_node, h3]
    have h1 := gl.ht_nonneg
    have h2 := gr.ht_nonneg
    rcases Nat.eq_zero_or_pos l.toList.length with h0 | h0
    · have hpos : 0 < r.toList.length := by omega
      have hr : 1 ≤ r.ht := by
        cases r with
        | nil => simp [Tr.toList] at hpos
        | node rl b kb vb hb rr =>
          obtain ⟨g1, g2, g3, -, -⟩ := gr
          rw [Tr.ht_node, g3]
          have := g1.ht_nonneg
          have := g2.ht_nonneg
          omega
      omega
    · have hl : 1 ≤ l.ht := by
        cases l with
        | nil => simp [Tr.toList] at h0
        | node ll b kb vb hb lr =>
          obtain ⟨g1, g2, g3, -, -⟩ := gl
          rw [Tr.ht_node, g3]
          have := g1.ht_nonneg
          have := g2.ht_nonneg
          omega
      omega

/-- A tree with three entries that is balanced at every node, with exact cached heights, has
the middle entry at the root and the other two as its children, both leaves. -/
theorem Tr.Good.three {t : Tr K V} (hg : t.Good) {x y z : K × V} (h : t.toList = [x, y, z]) :
    ∃ pa pb pc, t = .node (.node .nil pa x.1 x.2 1 .nil) pb y.1 y.2 2
      (.node .nil pc z.1 z.2 1 .nil) := by
  cases t with
  | nil => simp [Tr.toList] at h
  | node l a k v hh r =>
    obtain ⟨gl, gr, h3, h4, h5⟩ := hg
    simp only [Tr.toList] at h
    have hlen := congrArg List.length h
    simp only [List.length_append, List.length_cons, List.length_nil] at hlen
    have hl0 : 0 ≤ l.ht := gl.ht_nonneg
    have hr0 : 0 ≤ r.ht := gr.ht_nonneg
    cases hl : l.toList with
    | nil =>
      exfalso
      rw [hl] at hlen
      have hl1 := Tr.toList_eq_nil hl
      subst hl1
      have := gr.two_le_ht (by simp at hlen; omega)
      simp only [Tr.ht_nil] at h5
      omega
    | cons e1 rest1 =>
      cases rest1 with
      | nil =>
        rw [hl] at h
        simp only [List.singleton_append, List.cons.injEq] at h
        obtain ⟨he1, hkv, hr⟩ := h
        obtain ⟨pa, hpa⟩ := gl.single hl
        obtain ⟨pc, hpc⟩ := gr.single hr
        subst hpa hpc he1 hkv
        simp only [Tr.ht_node, max_self] at h3
        exact ⟨pa, a, pc, by rw [h3]; rfl⟩
      | cons e2 rest2 =>
        exfalso
        rw [hl] at hlen
        simp only [List.length_cons] at hlen
        have hr : r.toList = [] := List.eq_nil_of_length_eq_zero (by omega)
        have hr1 := Tr.toList_eq_nil hr
        subst hr1
        have := gl.two_le_ht (by rw [hl]; simp)
        simp only [Tr.ht_nil] at h4
        omega

theorem minNodes_mono_succ (h : Nat) : minNodes h ≤ minNodes (h + 1) := by
  induction h using Nat.strong_induction_on with
  | _ h ih =>
    match h with
    | 0 => simp [minNodes]
    | 1 => simp [minNodes]
    | h + 2 =>
      have := ih (h + 1) (by omega)
      simp only [minNodes] at this ⊢
      omega

theorem minNodes_mono {a b : Nat} (h : a ≤ b) : minNodes a ≤ minNodes b := by
  induction h with
  | refl => exact le_refl _
  | step _ ih => exact le_trans ih (minNodes_mono_succ _)

theorem pow_half_le_minNodes (h : Nat) : 2 ^ (h / 2) ≤ minNodes h + 1 := by
  induction h using Nat.strong_induction_on with
  | _ h ih =>
    match h with
    | 0 => simp [minNodes]
    | 1 => simp [minNodes]
    | h + 2 =>
      have h1 := ih h (by omega)
      have h2 := minNodes_mono_succ h
      have e : (h + 2) / 2 = h / 2 + 1 := by omega
      rw [e, pow_succ]
      simp only [minNodes]
      omega

/-- A tree that is balanced at every node has at least `minNodes` of its height many nodes. -/
theorem Tr.Good.minNodes_le {t : Tr K V} (hg : t.Good) : minNodes t.height ≤ t.size := by
  induction t with
  | nil => simp [Tr.height, minNodes]
  | node l a k v hh r ihl ihr =>
    obtain ⟨gl, gr, -, h4, h5⟩ := hg
    have il := ihl gl
    have ir := ihr gr
    rw [gl.ht_eq_height, gr.ht_eq_height] at h4 h5
    simp only [Tr.height, Tr.size]
    rcases le_total l.height r.height with hle | hle
    · rw [max_eq_right hle]
      cases hr : r.height with
      | zero => simp only [minNodes]; omega
      | succ n =>
        rw [hr] at ir hle h5
        have hl : n ≤ l.height := by omega
        have := minNodes_mono hl
        simp only [minNodes]
        omega
    · rw [max_eq_left hle]
      cases hl : l.height with
      | zero => simp only [minNodes]; omega
      | succ n =>
        rw [hl] at il hle h4
        have hr : n ≤ r.height := by omega
        have := minNodes_mono hr
        simp only [minNodes]
        omega

theorem subtreeHeight_head {m : TreeMap K V} {t : Tr K V} (hz : RepZ m t []) :
    m.subtreeHeight m.Head = t.height := by
  have hh : m.Head = t.root := hz.head
  rw [hh]
  have := hz.height_le
  exact heightFrom_rep m.nodes.length hz.rep (by simpa using this)

/-- The descent of `findNode` needs no more passes than the tree is high. -/
theorem findNode_fuel [LinearOrder K] {m : TreeMap K V} {t : Tr K V} (hz : RepZ m t [])
    (key : K) :
    ∃ r, m.findNode key = .ok r ∧ m.findNodeFrom key (m.subtreeHeight m.Head) m.Head = .ok r := by
  have hf := findNodeFrom_rep key m.nodes.length hz.rep
    (le_trans (Tr.height_le_size _) hz.size_le)
  have hf2 := findNodeFrom_rep key t.height hz.rep (le_refl _)
  have hh : m.Head = t.root := hz.head
  rw [subtreeHeight_head hz]
  rw [← hh] at hf hf2
  exact ⟨_, hf, hf2⟩


/-! ## Bookkeeping of `count`: which steps keep the live cells and the counter -/

theorem Res.bind_eq_ok {α β : Type} {x : Res α} {f : α → Res β} {b : β} :
    (x >>= f) = .ok b ↔ ∃ a, x = .ok a ∧ f a = .ok b := by
  cases x with
  | ok a => simp
  | out_of_range => simp
  | undefined => simp

theorem keeps_refl (m : TreeMap K V) : Keeps m m := ⟨rfl, rfl⟩

theorem Keeps.trans {m m1 m2 : TreeMap K V} (h1 : Keeps m m1) (h2 : Keeps m1 m2) :
    Keeps m m2 := ⟨h2.1.trans h1.1, h2.2.trans h1.2⟩

theorem keeps_head (m : TreeMap K V) (X : Option Nat) : Keeps m { m with Head := X } :=
  ⟨rfl, rfl⟩

theorem Keeps.live_eq {m m1 : TreeMap K V} (h : Keeps m m1) : m1.live = m.live := by
  unfold TreeMap.live
  rw [h.2]

theorem TreeMap.getElem?_of_cell {m : TreeMap K V} {p : Nat} {n : Node K V}
    (h : m.cell p = some n) : m.nodes[p]? = some (some n) := by
  unfold TreeMap.cell at h
  rw [List.get?_eq_getElem?] at h
  cases hg : m.nodes[p]? with
  | none => rw [hg] at h; simp at h
  | some o =>
    rw [hg] at h
    simp only [Option.join] at h
    rw [show o = some n from h]

theorem map_isSome_set {α : Type} (l : List (Option α)) (p : Nat) (n x : α)
    (h : l[p]? = some (some n)) : (l.set p (some x)).map Option.isSome = l.map Option.isSome := by
  induction l generalizing p with
  | nil => rfl
  | cons y ys ih =>
    cases p with
    | zero =>
      simp only [List.getElem?_cons_zero, Option.some.injEq] at h
      subst h
      rfl
    | succ q =>
      simp only [List.getElem?_cons_succ] at h
      simp only [List.set_cons_succ, List.map_cons, ih q h]

theorem keeps_assign {m m1 : TreeMap K V} {p : Nat} {f : Node K V → Node K V}
    (h : m.assign p f = .ok m1) : Keeps m m1 := by
  unfold TreeMap.assign at h
  cases hc : m.cell p with
  | none => rw [hc] at h; simp at h
  | some n =>
    rw [hc] at h
    simp only [Res.ok.injEq] at h
    subst h
    exact ⟨rfl, map_isSome_set m.nodes p n (f n) (TreeMap.getElem?_of_cell hc)⟩

theorem cell_of_assign {m m1 : TreeMap K V} {p : Nat} {f : Node K V → Node K V}
    (h : m.assign p f = .ok m1) : ∃ n, m.cell p = some n := by
  unfold TreeMap.assign at h
  cases hc : m.cell p with
  | none => rw [hc] at h; simp at h
  | some n => exact ⟨n, rfl⟩

theorem keeps_upgradeHeight {m m1 : TreeMap K V} {cur : Option Nat}
    (h : m.upgradeHeight cur = .ok m1) : Keeps m m1 := by
  simp only [TreeMap.upgradeHeight, Res.bind_eq_ok] at h
  obtain ⟨c, -, p, -, hh, -, ha⟩ := h
  exact keeps_assign ha

theorem keeps_assignIfPresent {m m1 : TreeMap K V} {p : Option Nat}
    {f : Node K V → Node K V} (h : m.assignIfPresent p f = .ok m1) : Keeps m m1 := by
  cases p with
  | none =>
    simp only [TreeMap.assignIfPresent, Res.ok.injEq] at h
    subst h
    exact keeps_refl m
  | some q => exact keeps_assign h

theorem keeps_relinkParent {m m1 : TreeMap K V} {P : Option Nat} {cur : Nat} {X : Option Nat}
    (h : m.relinkParent P cur X = .ok m1) : Keeps m m1 := by
  cases P with
  | none =>
    simp only [TreeMap.relinkParent, Res.ok.injEq] at h
    subst h
    exact keeps_head m X
  | some p =>
    simp only [TreeMap.relinkParent] at h
    cases hd : m.deref p with
    | ok pn =>
      rw [hd] at h
      simp only at h
      split_ifs at h
      · exact keeps_assign h
      · exact keeps_assign h
    | out_of_range => rw [hd] at h; simp at h
    | undefined => rw [hd] at h; simp at h

theorem keeps_switch_Right {m m1 : TreeMap K V} {cur : Option Nat}
    (h : m.switch_Right_With_Parent cur = .ok m1) : Keeps m m1 := by
  simp only [TreeMap.switch_Right_With_Parent, Res.bind_eq_ok] at h
  obtain ⟨c, -, p, -, rn, -, r, -, a1, h1, a2, h2, a3, h3, a4, h4, a5, h5, a6, h6, h7⟩ := h
  exact (keeps_relinkParent h1).trans ((keeps_assign h2).trans ((keeps_assign h3).trans
    ((keeps_assign h4).trans ((keeps_assign h5).trans ((keeps_assignIfPresent h6).trans
      (keeps_upgradeHeight h7))))))

theorem keeps_switch_Left {m m1 : TreeMap K V} {cur : Option Nat}
    (h : m.switch_Left_With_Parent cur = .ok m1) : Keeps m m1 := by
  simp only [TreeMap.switch_Left_With_Parent, Res.bind_eq_ok] at h
  obtain ⟨c, -, p, -, rn, -, r, -, a1, h1, a2, h2, a3, h3, a4, h4, a5, h5, a6, h6, h7⟩ := h
  exact (keeps_relinkParent h1).trans ((keeps_assign h2).trans ((keeps_assign h3).trans
    ((keeps_assign h4).trans ((keeps_assign h5).trans ((keeps_assignIfPresent h6).trans
      (keeps_upgradeHeight h7))))))

theorem keeps_rebalance {m m1 : TreeMap K V} {cur : Nat} (h : m.rebalance cur = .ok m1) :
    Keeps m m1 := by
  simp only [TreeMap.rebalance, Res.bind_eq_ok] at h
  obtain ⟨c, -, hl, -, hr, -, h⟩ := h
  split_ifs at h
  · simp only [Res.bind_eq_ok] at h
    obtain ⟨rn, -, hrl, -, hrr, -, h⟩ := h
    split_ifs at h
    · exact keeps_switch_Right h
    · simp only [Res.bind_eq_ok] at h
      obtain ⟨a1, h1, c1, -, a2, h2, h3⟩ := h
      exact (keeps_switch_Left h1).trans ((keeps_upgradeHeight h2).trans (keeps_switch_Right h3))
  · simp only [Res.bind_eq_ok] at h
    obtain ⟨ln, -, hll, -, hlr, -, h⟩ := h
    split_ifs at h
    · exact keeps_switch_Left h
    · simp only [Res.bind_eq_ok] at h
      obtain ⟨a1, h1, c1, -, a2, h2, h3⟩ := h
      exact (keeps_switch_Right h1).trans ((keeps_upgradeHeight h2).trans (keeps_switch_Left h3))

theorem keeps_repairStep {m m1 : TreeMap K V} {cur : Nat} {next : Option Nat}
    (h : m.repairStep cur = .ok (m1, next)) : Keeps m m1 := by
  unfold TreeMap.repairStep at h
  simp only [Res.bind_eq_ok] at h
  obtain ⟨b, -, h⟩ := h
  split_ifs at h
  · simp only [Res.bind_eq_ok, Res.pure_eq, Res.ok.injEq, Prod.mk.injEq] at h
    obtain ⟨y, hy, a2, h2, c, -, e, -⟩ := h
    subst hy e
    exact keeps_upgradeHeight h2
  · simp only [Res.bind_eq_ok, Res.pure_eq, Res.ok.injEq, Prod.mk.injEq] at h
    obtain ⟨y, hy, a2, h2, c, -, e, -⟩ := h
    subst e
    exact (keeps_rebalance hy).trans (keeps_upgradeHeight h2)

theorem keeps_repairsTree (fuel : Nat) :
    ∀ {m m1 : TreeMap K V} {cur : Option Nat}, m.repairsTree fuel cur = .ok m1 → Keeps m m1 := by
  induction fuel with
  | zero =>
    intro m m1 cur h
    cases cur with
    | none =>
      simp only [TreeMap.repairsTree, Res.ok.injEq] at h
      subst h
      exact keeps_refl m
    | some c => simp [TreeMap.repairsTree] at h
  | succ fuel ih =>
    intro m m1 cur h
    cases cur with
    | none =>
      simp only [TreeMap.repairsTree, Res.ok.injEq] at h
      subst h
      exact keeps_refl m
    | some c =>
      simp only [TreeMap.repairsTree] at h
      cases hs : m.repairStep c with
      | ok res =>
        obtain ⟨m2, next⟩ := res
        rw [hs] at h
        exact (keeps_repairStep hs).trans (ih h)
      | out_of_range => rw [hs] at h; simp at h
      | undefined => rw [hs] at h; simp at h

theorem keeps_replaceInParent {m m1 : TreeMap K V} {old : Nat} {repl : Option Nat}
    (h : m.replaceInParent old repl = .ok m1) : Keeps m m1 := by
  simp only [TreeMap.replaceInParent, Res.bind_eq_ok] at h
  obtain ⟨o, -, h⟩ := h
  cases hp : o.Parent with
  | none =>
    rw [hp] at h
    simp only [Res.pure_eq, Res.ok.injEq] at h
    subst h
    exact keeps_head m repl
  | some p =>
    rw [hp] at h
    simp only [Res.bind_eq_ok] at h
    obtain ⟨pn, -, h⟩ := h
    split_ifs at h
    · exact keeps_assign h
    · exact keeps_assign h

theorem keeps_unlink {m m1 : TreeMap K V} {old : Nat} (h : m.unlink old = .ok m1) :
    Keeps m m1 := by
  simp only [TreeMap.unlink, Res.bind_eq_ok] at h
  obtain ⟨o, -, h⟩ := h
  split_ifs at h
  · exact keeps_replaceInParent h
  · simp only [Res.bind_eq_ok] at h
    obtain ⟨a1, h1, o1, -, r, -, h2⟩ := h
    exact (keeps_replaceInParent h1).trans (keeps_assign h2)
  · simp only [Res.bind_eq_ok] at h
    obtain ⟨a1, h1, o1, -, r, -, h2⟩ := h
    exact (keeps_replaceInParent h1).trans (keeps_assign h2)
  · simp only [Res.bind_eq_ok] at h
    obtain ⟨start, -, current, -, c, -, cp, -, a1, h1, c1, -, h⟩ := h
    split_ifs at h
    · simp only [Res.bind_eq_ok] at h
      obtain ⟨a2, h2, a3, h3, o3, -, a4, h4, o4, -, a5, h5, c5, -, l, -, h6⟩ := h
      exact (keeps_assign h1).trans ((keeps_assign h2).trans ((keeps_replaceInParent h3).trans
        ((keeps_assign h4).trans ((keeps_assign h5).trans (keeps_assign h6)))))
    · simp only [Res.bind_eq_ok, Res.pure_eq, Res.ok.injEq] at h
      obtain ⟨a2, h2, a3, h3, o3, -, a4, h4, o4, -, a5, h5, c5, -, l, -, h6⟩ := h
      subst h2
      exact (keeps_assign h1).trans ((keeps_replaceInParent h3).trans
        ((keeps_assign h4).trans ((keeps_assign h5).trans (keeps_assign h6))))


/-! ## `count` is the number of live cells -/

theorem count_true_free {α : Type} (l : List (Option α)) (a : Nat) (n : α)
    (h : l[a]? = some (some n)) :
    ((l.set a none).map Option.isSome).count true + 1 = (l.map Option.isSome).count true := by
  induction l generalizing a with
  | nil => simp at h
  | cons y ys ih =>
    cases a with
    | zero =>
      simp only [List.getElem?_cons_zero, Option.some.injEq] at h
      subst h
      simp
    | succ q =>
      simp only [List.getElem?_cons_succ] at h
      have := ih q h
      simp only [List.set_cons_succ, List.map_cons, List.count_cons]
      omega

theorem live_link (m : TreeMap K V) (k : K) (v : V) (par : Option Nat) :
    (m.link k v par).live = m.live + 1 := by
  simp [TreeMap.live, TreeMap.link]

theorem findNodeFrom_none [LinearOrder K] (m : TreeMap K V) (key : K) (fuel : Nat) :
    m.findNodeFrom key fuel none = .ok none := by
  cases fuel <;> rfl

/-- The descent of `insert` follows the path of `findNode`: it meets the key exactly when
`findNode` finds it. -/
theorem insertDescend_of_find [LinearOrder K] (m : TreeMap K V) (key : K) (fuel : Nat) :
    ∀ (cur : Nat) (found : Option Nat), m.findNodeFrom key fuel (some cur) = .ok found →
      (found = none → ∃ c, m.insertDescend key (fuel + 1) cur = .ok (.right c) ∨
          m.insertDescend key (fuel + 1) cur = .ok (.left c)) ∧
        (found ≠ none → m.insertDescend key (fuel + 1) cur = .ok .present) := by
  induction fuel with
  | zero =>
    intro cur found h
    simp [TreeMap.findNodeFrom] at h
  | succ fuel ih =>
    intro cur found h
    rw [TreeMap.findNodeFrom] at h
    rw [TreeMap.insertDescend]
    cases hd : m.deref cur with
    | ok c =>
      rw [hd] at h
      simp only at h ⊢
      by_cases h1 : key > c.key
      · simp only [h1, if_true] at h ⊢
        cases hr : c.Right with
        | none =>
          rw [hr, findNodeFrom_none] at h
          simp only [Res.ok.injEq] at h
          subst h
          exact ⟨fun _ => ⟨cur, Or.inl rfl⟩, fun hne => absurd rfl hne⟩
        | some r =>
          rw [hr] at h
          exact ih r found h
      · simp only [h1, if_false] at h ⊢
        by_cases h2 : key < c.key
        · simp only [h2, if_true] at h ⊢
          cases hl : c.Left with
          | none =>
            rw [hl, findNodeFrom_none] at h
            simp only [Res.ok.injEq] at h
            subst h
            exact ⟨fun _ => ⟨cur, Or.inr rfl⟩, fun hne => absurd rfl hne⟩
          | some l =>
            rw [hl] at h
            exact ih l found h
        · simp only [h2, if_false, Res.ok.injEq] at h ⊢
          subst h
          exact ⟨fun h0 => by simp at h0, fun _ => trivial⟩
    | out_of_range => rw [hd] at h; simp at h
    | undefined => rw [hd] at h; simp at h

/-- What an insertion does to `count` and to the number of live cells: both grow by one when
`findNode` does not find the key, and the state stays as it is when it does. -/
theorem insertWith_tally [LinearOrder K] {m m1 : TreeMap K V} {fuel : Nat} {key : K} {val : V}
    {found : Option Nat} (hf : m.findNode key = .ok found)
    (hi : m.insertWith fuel key val = .ok m1) :
    (found = none → m1.count = m.count + 1 ∧ m1.live = m.live + 1) ∧ (found ≠ none → m1 = m) := by
  unfold TreeMap.insertWith at hi
  unfold TreeMap.findNode at hf
  cases hh : m.Head with
  | none =>
    rw [hh] at hi hf
    rw [findNodeFrom_none] at hf
    simp only [Res.ok.injEq] at hi hf
    subst hi hf
    exact ⟨fun _ => ⟨rfl, live_link m key val none⟩, fun hne => absurd rfl hne⟩
  | some head =>
    rw [hh] at hi hf
    simp only at hi
    obtain ⟨hnone, hsome⟩ := insertDescend_of_find m key m.nodes.length head found hf
    constructor
    · intro h0
      obtain ⟨c, hc | hc⟩ := hnone h0
      · rw [hc] at hi
        simp only at hi
        cases ha : m.assign c (fun n => { n with Right := some m.nodes.length }) with
        | ok m2 =>
          rw [ha] at hi
          simp only at hi
          have k1 := keeps_assign ha
          have k2 := keeps_repairsTree fuel hi
          refine ⟨?_, ?_⟩
          · rw [k2.1]
            show m2.count + 1 = m.count + 1
            rw [k1.1]
          · rw [k2.live_eq]
            show (m2.link key val (some c)).live = m.live + 1
            rw [live_link, k1.live_eq]
        | out_of_range => rw [ha] at hi; simp at hi
        | undefined => rw [ha] at hi; simp at hi
      · rw [hc] at hi
        simp only at hi
        cases ha : m.assign c (fun n => { n with Left := some m.nodes.length }) with
        | ok m2 =>
          rw [ha] at hi
          simp only at hi
          have k1 := keeps_assign ha
          have k2 := keeps_repairsTree fuel hi
          refine ⟨?_, ?_⟩
          · rw [k2.1]
            show m2.count + 1 = m.count + 1
            rw [k1.1]
          · rw [k2.live_eq]
            show (m2.link key val (some c)).live = m.live + 1
            rw [live_link, k1.live_eq]
        | out_of_range => rw [ha] at hi; simp at hi
        | undefined => rw [ha] at hi; simp at hi
    · intro hne
      rw [hsome hne] at hi
      simp only [Res.ok.injEq] at hi
      exact hi.symm

/-- What `remove(Node*)` does to `count` and to the number of live cells when `count` is the
number of live cells: both drop by one. -/
theorem removeNode_tally {m m1 : TreeMap K V} {old : Nat} (hc : m.count = m.live)
    (h : m.removeNode old = .ok m1) : m1.count + 1 = m.count ∧ m1.count = m1.live := by
  simp only [TreeMap.removeNode, Res.bind_eq_ok] at h
  obtain ⟨a1, h1, h⟩ := h
  simp only [TreeMap.dispose, Res.bind_eq_ok, Res.pure_eq, Res.ok.injEq] at h
  obtain ⟨a3, h3, a4, h4, e⟩ := h
  have k1 := keeps_unlink h1
  have k3 := keeps_assign h3
  have k4 := keeps_assign h4
  obtain ⟨n4, hn4⟩ : ∃ n, a4.cell old = some n := by
    obtain ⟨n, hn⟩ := cell_of_assign h4
    obtain ⟨x, hx, hcell, -⟩ := TreeMap.assign_spec a3 old
      (fun n => { n with Right := none }) n hn
    rw [h4] at hx
    simp only [Res.ok.injEq] at hx
    subst hx
    exact ⟨{ n with Right := none }, by rw [hcell]; simp⟩
  have hfree := count_true_free a4.nodes old n4 (TreeMap.getElem?_of_cell hn4)
  have hl4 : a4.live = m.live := by
    rw [k4.live_eq, k3.live_eq]
    show a1.live = m.live
    exact k1.live_eq
  have hc4 : a4.count = decrCount m.count := by
    rw [k4.1, k3.1]
    show decrCount a1.count = decrCount m.count
    rw [k1.1]
  have hlive1 : m1.live + 1 = a4.live := by
    rw [← e]
    exact hfree
  have hcount1 : m1.count = a4.count := by rw [← e]
  have hpos : 0 < m.count := by omega
  have hd : decrCount m.count = m.count - 1 := by
    unfold decrCount
    rw [if_neg (by omega)]
  omega

theorem remove_tally [LinearOrder K] {m m1 : TreeMap K V} {key : K} (hc : m.count = m.live)
    (h : m.remove key = .ok m1) : m1.count + 1 = m.count ∧ m1.count = m1.live := by
  simp only [TreeMap.remove, Res.bind_eq_ok] at h
  obtain ⟨found, -, h⟩ := h
  cases found with
  | none => simp at h
  | some p => exact removeNode_tally hc h


/-! ## Rotations and the safety of rebalancing, stated on the store -/

/-- In a well-formed tree every child link leads to a node whose parent link leads back. -/
theorem child_ok {m : TreeMap K V} {t : Tr K V} (hz : RepZ m t []) {q : Nat} {nq : Node K V}
    (hq : m.Reaches q) (hc : m.cell q = some nq) (c : Nat)
    (hch : nq.Left = some c ∨ nq.Right = some c) :
    ∃ cn, m.cell c = some cn ∧ cn.Parent = some q := by
  obtain ⟨l, k, v, h, r, ctx, -, hz1⟩ := hz.view (hz.mem_of_reaches hq)
  obtain ⟨c1, c2, c3⟩ := hz1.rep
  rw [c1] at hc
  simp only [Option.some.injEq] at hc
  subst hc
  rcases hch with h1 | h1
  · cases l with
    | nil => simp [Tr.root] at h1
    | node ll b kb vb hb lr =>
      simp only [Tr.root_node, Option.some.injEq] at h1
      subst h1
      exact ⟨_, c2.1, rfl⟩
  · cases r with
    | nil => simp [Tr.root] at h1
    | node rl b kb vb hb rr =>
      simp only [Tr.root_node, Option.some.injEq] at h1
      subst h1
      exact ⟨_, c3.1, rfl⟩

/-- The left rotation `switch_Right_With_Parent(X)` at a node `X` of a well-formed tree whose
right child `C` is present. -/
theorem rotate_left_facts {m : TreeMap K V} {t : Tr K V} (hz : RepZ m t []) (self : Nat)
    {x c : Nat} {nx nc : Node K V} (hx : m.Reaches x) (hnx : m.cell x = some nx)
    (hr : nx.Right = some c) (hnc : m.cell c = some nc) :
    ∃ m1 nx1 nc1 t1, m.switch_Right_With_Parent (some x) = .ok m1 ∧
      RepZ m1 t1 [] ∧ t1.toList = t.toList ∧ m1.traverse self = m.traverse self ∧
      m1.cell x = some nx1 ∧ m1.cell c = some nc1 ∧
      (match nx.Parent with
        | none => m1.Head = some c
        | some pp => ∃ pn pn1, m.cell pp = some pn ∧ m1.cell pp = some pn1 ∧
            ((pn.Left = some x ∧ pn1.Left = some c ∧ pn1.Right = pn.Right) ∨
             (pn.Right = some x ∧ pn1.Right = some c ∧ pn1.Left = pn.Left))) ∧
      nc1.Parent = nx.Parent ∧ nc1.Left = some x ∧ nc1.Right = nc.Right ∧
      nx1.Parent = some c ∧ nx1.Left = nx.Left ∧ nx1.Right = nc.Left ∧
      (∀ g, nc.Left = some g → ∃ ng, m1.cell g = some ng ∧ ng.Parent = some x) ∧
      (∃ hl hr, m1.getHeight nx1.Left = .ok hl ∧ m1.getHeight nx1.Right = .ok hr ∧
        nx1.Height = 1 + max hl hr) := by
  obtain ⟨l, k, v, h, r, ctx, hplug, hz1⟩ := hz.view (hz.mem_of_reaches hx)
  have c1 := hz1.rep.1
  rw [hnx] at c1
  simp only [Option.some.injEq] at c1
  subst c1
  cases r with
  | nil => simp [Tr.root] at hr
  | node rl b kb vb hb rr =>
    simp only [Tr.root_node, Option.some.injEq] at hr
    subst hr
    have c2 := hz1.rep.2.2.1
    rw [hnc] at c2
    simp only [Option.some.injEq] at c2
    subst c2
    obtain ⟨m1, e1, hz2, -, -⟩ := switch_Right_spec hz1
    have hz3 : RepZ m1 (plug (.node (Tr.mk l x k v rl) b kb vb hb rr) ctx) [] :=
      RepZ.plug_iff.mpr hz2
    have hl : (plug (.node (Tr.mk l x k v rl) b kb vb hb rr) ctx).toList = t.toList := by
      rw [← hplug, toList_plug, toList_plug]
      simp only [Tr.toList, Tr.toList_mk, List.append_assoc, List.cons_append]
    obtain ⟨d1, d2, d3⟩ := hz2.rep
    obtain ⟨d4, d5, d6⟩ := d2
    obtain ⟨f1, f2⟩ := link_facts hz1 hz2
    refine ⟨m1, _, _, _, e1, hz3, hl, ?_, d4, d1, f1, rfl, rfl, rfl, rfl, rfl, rfl, ?_, ?_⟩
    · rw [traverse_spec self hz3, traverse_spec self hz, hl]
    · intro g hg
      cases rl with
      | nil => simp [Tr.root] at hg
      | node rll g1 kg vg hg1 rlr =>
        simp only [Tr.root_node, Option.some.injEq] at hg
        subst hg
        exact ⟨_, d6.1, rfl⟩
    · exact ⟨l.ht, rl.ht, getHeight_rep d5, getHeight_rep d6, by
        show max l.ht rl.ht + 1 = 1 + max l.ht rl.ht
        omega⟩

/-- The right rotation `switch_Left_With_Parent(X)` at a node `X` of a well-formed tree whose
left child `C` is present. -/
theorem rotate_right_facts {m : TreeMap K V} {t : Tr K V} (hz : RepZ m t []) (self : Nat)
    {x c : Nat} {nx nc : Node K V} (hx : m.Reaches x) (hnx : m.cell x = some nx)
    (hr : nx.Left = some c) (hnc : m.cell c = some nc) :
    ∃ m1 nx1 nc1 t1, m.switch_Left_With_Parent (some x) = .ok m1 ∧
      RepZ m1 t1 [] ∧ t1.toList = t.toList ∧ m1.traverse self = m.traverse self ∧
      m1.cell x = some nx1 ∧ m1.cell c = some nc1 ∧
      (match nx.Parent with
        | none => m1.Head = some c
        | some pp => ∃ pn pn1, m.cell pp = some pn ∧ m1.cell pp = some pn1 ∧
            ((pn.Left = some x ∧ pn1.Left = some c ∧ pn1.Right = pn.Right) ∨
             (pn.Right = some x ∧ pn1.Right = some c ∧ pn1.Left = pn.Left))) ∧
      nc1.Parent = nx.Parent ∧ nc1.Right = some x ∧ nc1.Left = nc.Left ∧
      nx1.Parent = some c ∧ nx1.Right = nx.Right ∧ nx1.Left = nc.Right ∧
      (∀ g, nc.Right = some g → ∃ ng, m1.cell g = some ng ∧ ng.Parent = some x) ∧
      (∃ hl hr, m1.getHeight nx1.Left = .ok hl ∧ m1.getHeight nx1.Right = .ok hr ∧
        nx1.Height = 1 + max hl hr) := by
  obtain ⟨l, k, v, h, r, ctx, hplug, hz1⟩ := hz.view (hz.mem_of_reaches hx)
  have c1 := hz1.rep.1
  rw [hnx] at c1
  simp only [Option.some.injEq] at c1
  subst c1
  cases l with
  | nil => simp [Tr.root] at hr
  | node ll b kb vb hb lr =>
    simp only [Tr.root_node, Option.some.injEq] at hr
    subst hr
    have c2 := hz1.rep.2.1.1
    rw [hnc] at c2
    simp only [Option.some.injEq] at c2
    subst c2
    obtain ⟨m1, e1, hz2, -, -⟩ := switch_Left_spec hz1
    have hz3 : RepZ m1 (plug (.node ll b kb vb hb (Tr.mk lr x k v r)) ctx) [] :=
      RepZ.plug_iff.mpr hz2
    have hl : (plug (.node ll b kb vb hb (Tr.mk lr x k v r)) ctx).toList = t.toList := by
      rw [← hplug, toList_plug, toList_plug]
      simp only [Tr.toList, Tr.toList_mk, List.append_assoc, List.cons_append]
    obtain ⟨d1, d2, d3⟩ := hz2.rep
    obtain ⟨d4, d5, d6⟩ := d3
    obtain ⟨f1, f2⟩ := link_facts hz1 hz2
    refine ⟨m1, _, _, _, e1, hz3, hl, ?_, d4, d1, f1, rfl, rfl, rfl, rfl, rfl, rfl, ?_, ?_⟩
    · rw [traverse_spec self hz3, traverse_spec self hz, hl]
    · intro g hg
      cases lr with
      | nil => simp [Tr.root] at hg
      | node lrl g1 kg vg hg1 lrr =>
        simp only [Tr.root_node, Option.some.injEq] at hg
        subst hg
        exact ⟨_, d5.1, rfl⟩
    · exact ⟨lr.ht, r.ht, getHeight_rep d5, getHeight_rep d6, by
        show max lr.ht r.ht + 1 = 1 + max lr.ht r.ht
        omega⟩

/-- One pass of the loop of `repairsTree` at a node of a well-formed tree with positive cached
heights returns, and leaves such a tree. -/
theorem repairStep_safe {m : TreeMap K V} {t : Tr K V} (hz : RepZ m t []) (hp : t.Pos)
    {x : Nat} (hx : m.Reaches x) :
    ∃ m2 next t2, m.repairStep x = .ok (m2, next) ∧ RepZ m2 t2 [] ∧ t2.Pos := by
  obtain ⟨l, k, v, h, r, ctx, hplug, hz1⟩ := hz.view (hz.mem_of_reaches hx)
  obtain ⟨res, hs, hres⟩ := stepZ_total (hplug ▸ hp : (plug (.node l x k v h r) ctx).Pos)
  obtain ⟨m2, next, e, -, -, hm⟩ := repairStep_spec hz1 hs
  cases res with
  | inl p =>
    obtain ⟨t1, ctx1⟩ := p
    exact ⟨m2, next, plug t1 ctx1, e, RepZ.plug_iff.mpr hm.1, hres⟩
  | inr t1 => exact ⟨m2, next, t1, e, hm.1, hres⟩

/-- When `repairsTree` finds a node of a well-formed tree with positive cached heights out of
balance, every link that the rotations follow is present. -/
theorem rebalance_safe {m : TreeMap K V} {t : Tr K V} (hz : RepZ m t []) (hp : t.Pos)
    {x : Nat} {n : Node K V} (hx : m.Reaches x) (hn : m.cell x = some n)
    (hb : m.isBalance (some x) = .ok false) :
    ∃ hl hr m1 t1, m.getHeight n.Left = .ok hl ∧ m.getHeight n.Right = .ok hr ∧
      m.rebalance x = .ok m1 ∧ RepZ m1 t1 [] ∧ t1.Pos ∧
      (hl ≤ hr → ∃ c nc hcl hcr, n.Right = some c ∧ m.cell c = some nc ∧
        m.getHeight nc.Left = .ok hcl ∧ m.getHeight nc.Right = .ok hcr ∧
        (¬ hcl ≤ hcr → ∃ g ng, nc.Left = some g ∧ m.cell g = some ng)) ∧
      (¬ hl ≤ hr → ∃ c nc hcl hcr, n.Left = some c ∧ m.cell c = some nc ∧
        m.getHeight nc.Left = .ok hcl ∧ m.getHeight nc.Right = .ok hcr ∧
        (¬ hcl ≥ hcr → ∃ g ng, nc.Right = some g ∧ m.cell g = some ng)) := by
  obtain ⟨l, k, v, h, r, ctx, hplug, hz1⟩ := hz.view (hz.mem_of_reaches hx)
  obtain ⟨c1, c2, c3⟩ := hz1.rep
  rw [hn] at c1
  simp only [Option.some.injEq] at c1
  subst c1
  have hbal := isBalance_rep hz1.rep
  rw [hb] at hbal
  simp only [Res.ok.injEq] at hbal
  have hnb : ¬ (l.ht ≤ r.ht + 1 ∧ r.ht ≤ l.ht + 1) := by
    rw [← balTest_iff, ← hbal]
    simp
  have hpos : (Tr.node l x k v h r).Pos := pos_of_plug (hplug ▸ hp)
  obtain ⟨pl, pr, -⟩ := hpos
  obtain ⟨t1, hreb, hp1⟩ := rebalance_total (a := x) (k := k) (v := v) (h := h) pl pr hbal.symm
  obtain ⟨m1, e1, hz2, -, -⟩ := rebalance_spec hz1 hreb
  have hp2 : (plug t1 ctx).Pos := pos_plug_replace (hplug ▸ hp) hp1
  have hl0 := pl.ht_nonneg_pos
  have hr0 := pr.ht_nonneg_pos
  refine ⟨l.ht, r.ht, m1, plug t1 ctx, getHeight_rep c2, getHeight_rep c3, e1,
    RepZ.plug_iff.mpr hz2, hp2, ?_, ?_⟩
  · intro hle
    cases r with
    | nil =>
      exfalso
      simp only [Tr.ht_nil] at hle hnb
      omega
    | node rl b kb vb hb1 rr =>
      obtain ⟨d1, d2, d3⟩ := c3
      refine ⟨b, _, rl.ht, rr.ht, rfl, d1, getHeight_rep d2, getHeight_rep d3, ?_⟩
      intro hgt
      have hrr0 := pr.2.1.ht_nonneg_pos
      cases rl with
      | nil =>
        exfalso
        simp only [Tr.ht_nil] at hgt
        omega
      | node rll g kg vg hg rlr => exact ⟨g, _, rfl, d2.1⟩
  · intro hgt
    cases l with
    | nil =>
      exfalso
      simp only [Tr.ht_nil] at hgt hnb
      omega
    | node ll b kb vb hb1 lr =>
      obtain ⟨d1, d2, d3⟩ := c2
      refine ⟨b, _, ll.ht, lr.ht, rfl, d1, getHeight_rep d2, getHeight_rep d3, ?_⟩
      intro hlt
      have hll0 := pl.1.ht_nonneg_pos
      cases lr with
      | nil =>
        exfalso
        simp only [Tr.ht_nil] at hlt
        omega
      | node lrl g kg vg hg lrr => exact ⟨g, _, rfl, d3.1⟩

/-- In a map built by insertions every cached height is exact. -/
theorem valid_heights [LinearOrder K] {m : TreeMap K V} {t : Tr K V} (hv : Valid m t) {p : Nat}
    {n : Node K V} (hp : m.Reaches p) (hn : m.cell p = some n) :
    n.Height = 1 + max (m.subtreeHeight n.Left : Int) (m.subtreeHeight n.Right : Int) ∧
      ∃ hl hr, m.getHeight n.Left = .ok hl ∧ m.getHeight n.Right = .ok hr ∧
        n.Height = 1 + max hl hr ∧ hl = m.subtreeHeight n.Left ∧ hr = m.subtreeHeight n.Right := by
  obtain ⟨l, k, v, h, r, ctx, e, hz⟩ := hv.rep.view (hv.rep.mem_of_reaches hp)
  have hg : (Tr.node l p k v h r).Good := good_of_plug (e ▸ hv.good)
  obtain ⟨g1, g2, g3, g4, g5⟩ := hg
  obtain ⟨c1, c2, c3⟩ := hz.rep
  rw [c1] at hn
  simp only [Option.some.injEq] at hn
  subst hn
  have hl := hz.height_le
  simp only [Tr.height] at hl
  have e1 := heightFrom_rep m.nodes.length c2 (by omega)
  have e2 := heightFrom_rep m.nodes.length c3 (by omega)
  have e3 := g1.ht_eq_height
  have e4 := g2.ht_eq_height
  simp only [TreeMap.subtreeHeight, e1, e2]
  refine ⟨by omega, l.ht, r.ht, getHeight_rep c2, getHeight_rep c3, by omega, e3, e4⟩

/-! ## Example states as trees -/

theorem repZ_map123 :
    RepZ map123 (.node (.node .nil 0 1 10 1 .nil) 1 2 20 2 (.node .nil 2 3 30 1 .nil)) [] :=
  ⟨rfl, ⟨rfl, ⟨rfl, trivial, trivial⟩, ⟨rfl, trivial, trivial⟩⟩, trivial, by decide⟩

theorem valid_map123 :
    Valid map123 (.node (.node .nil 0 1 10 1 .nil) 1 2 20 2 (.node .nil 2 3 30 1 .nil)) :=
  ⟨repZ_map123, rfl, by simp [Tr.Good, Tr.ht], by simp [Tr.Bst, Tr.toList]⟩

theorem repZ_mapChain :
    RepZ mapChain (.node .nil 0 1 10 2 (.node .nil 1 2 20 2 (.node .nil 2 3 30 1 .nil))) [] :=
  ⟨rfl, ⟨rfl, trivial, ⟨rfl, trivial, ⟨rfl, trivial, trivial⟩⟩⟩, trivial, by decide⟩


/-! ## The container that a failed removal leaves behind -/

theorem Res.bind_ne_throw {α β : Type} {x : Res α} {f : α → Res β}
    (hx : x ≠ .out_of_range) (hf : ∀ a, f a ≠ .out_of_range) : (x >>= f) ≠ .out_of_range := by
  cases x with
  | ok a => exact hf a
  | out_of_range => exact absurd rfl hx
  | undefined => simp

theorem deref_ne_throw (m : TreeMap K V) (p : Nat) : m.deref p ≠ .out_of_range := by
  unfold TreeMap.deref
  cases m.cell p <;> simp

theorem ofPtr_ne_throw (p : Option Nat) : Res.ofPtr p ≠ .out_of_range := by
  cases p <;> simp [Res.ofPtr]

theorem assign_ne_throw (m : TreeMap K V) (p : Nat) (f : Node K V → Node K V) :
    m.assign p f ≠ .out_of_range := by
  unfold TreeMap.assign
  cases m.cell p <;> simp

theorem leftmost_ne_throw (m : TreeMap K V) (fuel : Nat) :
    ∀ cur, m.leftmost fuel cur ≠ .out_of_range := by
  induction fuel with
  | zero => intro cur; simp [TreeMap.leftmost]
  | succ fuel ih =>
    intro cur
    rw [TreeMap.leftmost]
    cases hd : m.deref cur with
    | ok c =>
      simp only
      cases hl : c.Left with
      | none => simp
      | some l => exact ih l
    | out_of_range => exact absurd hd (deref_ne_throw m cur)
    | undefined => simp

theorem findNodeFrom_ne_throw [LinearOrder K] (m : TreeMap K V) (key : K) (fuel : Nat) :
    ∀ cur, m.findNodeFrom key fuel cur ≠ .out_of_range := by
  induction fuel with
  | zero =>
    intro cur
    cases cur <;> simp [TreeMap.findNodeFrom]
  | succ fuel ih =>
    intro cur
    cases cur with
    | none => simp [TreeMap.findNodeFrom]
    | some c =>
      rw [TreeMap.findNodeFrom]
      cases hd : m.deref c with
      | ok n =>
        simp only
        split_ifs
        · exact ih _
        · exact ih _
        · simp
      | out_of_range => exact absurd hd (deref_ne_throw m c)
      | undefined => simp

theorem findNode_ne_throw [LinearOrder K] (m : TreeMap K V) (key : K) :
    m.findNode key ≠ .out_of_range :=
  findNodeFrom_ne_throw m key _ _

theorem replaceInParent_ne_throw (m : TreeMap K V) (old : Nat) (repl : Option Nat) :
    m.replaceInParent old repl ≠ .out_of_range := by
  unfold TreeMap.replaceInParent
  refine Res.bind_ne_throw (deref_ne_throw _ _) (fun o => ?_)
  cases o.Parent with
  | none => simp
  | some p =>
    refine Res.bind_ne_throw (deref_ne_throw _ _) (fun pn => ?_)
    split_ifs
    · exact assign_ne_throw _ _ _
    · exact assign_ne_throw _ _ _

theorem unlink_ne_throw (m : TreeMap K V) (old : Nat) : m.unlink old ≠ .out_of_range := by
  unfold TreeMap.unlink
  refine Res.bind_ne_throw (deref_ne_throw _ _) (fun o => ?_)
  split_ifs
  · exact replaceInParent_ne_throw _ _ _
  · refine Res.bind_ne_throw (replaceInParent_ne_throw _ _ _) (fun m1 => ?_)
    refine Res.bind_ne_throw (deref_ne_throw _ _) (fun o1 => ?_)
    exact Res.bind_ne_throw (ofPtr_ne_throw _) (fun r => assign_ne_throw _ _ _)
  · refine Res.bind_ne_throw (replaceInParent_ne_throw _ _ _) (fun m1 => ?_)
    refine Res.bind_ne_throw (deref_ne_throw _ _) (fun o1 => ?_)
    exact Res.bind_ne_throw (ofPtr_ne_throw _) (fun r => assign_ne_throw _ _ _)
  · refine Res.bind_ne_throw (ofPtr_ne_throw _) (fun start => ?_)
    refine Res.bind_ne_throw (leftmost_ne_throw _ _ _) (fun current => ?_)
    refine Res.bind_ne_throw (deref_ne_throw _ _) (fun c => ?_)
    refine Res.bind_ne_throw (ofPtr_ne_throw _) (fun cp => ?_)
    refine Res.bind_ne_throw (assign_ne_throw _ _ _) (fun m1 => ?_)
    refine Res.bind_ne_throw (deref_ne_throw _ _) (fun c1 => ?_)
    have tail : ∀ m2 : TreeMap K V, (do
        let m3 ← m2.replaceInParent old (some current)
        let o3 ← m3.deref old
        let m4 ← m3.assign current (fun n => { n with Parent := o3.Parent })
        let o4 ← m4.deref old
        let m5 ← m4.assign current (fun n => { n with Left := o4.Left })
        let c5 ← m5.deref current
        let l ← Res.ofPtr c5.Left
        m5.assign l (fun n => { n with Parent := some current })) ≠ Res.out_of_range := by
      intro m2
      refine Res.bind_ne_throw (replaceInParent_ne_throw _ _ _) (fun m3 => ?_)
      refine Res.bind_ne_throw (deref_ne_throw _ _) (fun o3 => ?_)
      refine Res.bind_ne_throw (assign_ne_throw _ _ _) (fun m4 => ?_)
      refine Res.bind_ne_throw (deref_ne_throw _ _) (fun o4 => ?_)
      refine Res.bind_ne_throw (assign_ne_throw _ _ _) (fun m5 => ?_)
      refine Res.bind_ne_throw (deref_ne_throw _ _) (fun c5 => ?_)
      exact Res.bind_ne_throw (ofPtr_ne_throw _) (fun l => assign_ne_throw _ _ _)
    split_ifs
    · exact Res.bind_ne_throw (assign_ne_throw _ _ _) tail
    · exact Res.bind_ne_throw (by simp) tail

theorem dispose_ne_throw (m : TreeMap K V) (old : Nat) : m.dispose old ≠ .out_of_range := by
  unfold TreeMap.dispose
  refine Res.bind_ne_throw (assign_ne_throw _ _ _) (fun m3 => ?_)
  exact Res.bind_ne_throw (assign_ne_throw _ _ _) (fun m4 => by simp)

/-- No exception comes out of `remove(Node*)`: it has no `throw` statement. -/
theorem removeNode_ne_throw (m : TreeMap K V) (old : Nat) :
    m.removeNode old ≠ .out_of_range := by
  unfold TreeMap.removeNode
  exact Res.bind_ne_throw (unlink_ne_throw _ _) (fun m1 => dispose_ne_throw _ _)

theorem Outcome.toRes_ofRes {r : Res (TreeMap K V)} (h : r ≠ .out_of_range) :
    (Outcome.ofRes r).toRes = r := by
  cases r with
  | ok m => rfl
  | out_of_range => exact absurd rfl h
  | undefined => rfl

/-- The two embeddings of `remove(const key_type&)` agree: forgetting the container that the
`throw` leaves behind gives `remove`. -/
theorem removeCall_toRes [LinearOrder K] (m : TreeMap K V) (key : K) :
    (m.removeCall key).toRes = m.remove key := by
  unfold TreeMap.removeCall TreeMap.remove
  cases hf : m.findNode key with
  | ok found =>
    cases found with
    | none => rfl
    | some c =>
      simp only [Res.bind_ok]
      exact Outcome.toRes_ofRes (removeNode_ne_throw m c)
  | out_of_range => exact absurd hf (findNode_ne_throw m key)
  | undefined => rfl

/-- The two embeddings of `remove(const const_iterator&)` agree. -/
theorem removeAtCall_toRes [LinearOrder K] (m : TreeMap K V) (self : Nat)
    (pointee : TreeMap K V) (it : ConstIterator) :
    (m.removeAtCall self pointee it).toRes = m.removeAt self pointee it := by
  unfold TreeMap.removeAtCall TreeMap.removeAt
  cases hg : it.get pointee with
  | ok d =>
    simp only [Res.bind_ok]
    cases hf : m.findNode d.1 with
    | ok current =>
      simp only [Res.bind_ok]
      split_ifs with hc
      · rfl
      · cases current with
        | none => simp at hc
        | some c =>
          simp only [Res.ofPtr, Res.bind_ok]
          exact Outcome.toRes_ofRes (removeNode_ne_throw m c)
    | out_of_range => exact absurd hf (findNode_ne_throw m _)
    | undefined => rfl
  | out_of_range => rfl
  | undefined => rfl

theorem removeCall_absent [LinearOrder K] {m : TreeMap K V} {key : K}
    (h : m.findNode key = .ok none) : m.removeCall key = .thrown m := by
  simp only [TreeMap.removeCall, h]

theorem removeAtCall_end [LinearOrder K] (m pointee : TreeMap K V) (self : Nat)
    (tree : Option Nat) : m.removeAtCall self pointee ⟨tree, none⟩ = .thrown m := by
  simp only [TreeMap.removeAtCall, ConstIterator.get]

theorem removeAtCall_foreign [LinearOrder K] {m m2 : TreeMap K V} {t : Tr K V}
    (hz : RepZ m t []) (self other : Nat) (hne : other ≠ self) {q : Nat} {n : Node K V}
    (hn : m2.cell q = some n) :
    m.removeAtCall self m2 ⟨some other, some q⟩ = .thrown m := by
  obtain ⟨r, hr⟩ := findNode_total hz n.key
  have hne1 : some self ≠ some other := fun h => hne (Option.some.inj h).symm
  simp only [TreeMap.removeAtCall, ConstIterator.get, TreeMap.deref_eq hn, Res.bind_ok,
    Res.pure_eq, hr, hne1, ne_eq, not_false_eq_true, true_or, if_true]

theorem removeAtCall_own [LinearOrder K] {m : TreeMap K V} {t : Tr K V} (hz : RepZ m t [])
    (hb : t.Bst) (self : Nat) {q : Nat} (hq : m.Reaches q) :
    m.removeAtCall self m ⟨some self, some q⟩ = Outcome.ofRes (m.removeNode q) := by
  obtain ⟨l, k, v, h, r, ctx, hplug, hz1⟩ := hz.view (hz.mem_of_reaches hq)
  have hcell := hz1.rep.1
  have hf := findNode_of_view hz1 (by rw [hplug]; exact hb)
  simp only [TreeMap.removeAtCall, ConstIterator.get, TreeMap.deref_eq hcell, Res.bind_ok,
    Res.pure_eq, hf, ne_eq, not_true_eq_false, false_or, if_false, reduceCtorEq]


/-! ## The claims -/

/-- C1: for every finite sequence of insertions into an empty map, forward traversal from
`begin()` to `end()` visits the keys in strictly increasing order, and the keys visited are
exactly the keys that were inserted. -/
theorem C1_traversal_sorted_and_complete [LinearOrder K] (l : List (K × V)) (self : Nat) :
    ∃ m tr, TreeMap.ofList l = .ok m ∧ m.traverse self = .ok tr ∧
      (tr.map Prod.fst).Pairwise (· < ·) ∧
      ∀ k, k ∈ tr.map Prod.fst ↔ k ∈ l.map Prod.fst := by
  obtain ⟨m, t, e, hv, hl⟩ := valid_ofList l
  refine ⟨m, t.toList, e, traverse_spec self hv.rep, hv.bst, fun k => ?_⟩
  rw [hl, keys_buildL]
  simp

/-- C2: for every finite sequence of insertions into an empty map, every node of the resulting
tree has left and right subtrees whose actual heights differ by at most 1. -/
theorem C2_insertions_balanced [LinearOrder K] (l : List (K × V)) :
    ∃ m, TreeMap.ofList l = .ok m ∧
      ∀ p n, m.Reaches p → m.cell p = some n →
        m.subtreeHeight n.Left ≤ m.subtreeHeight n.Right + 1 ∧
        m.subtreeHeight n.Right ≤ m.subtreeHeight n.Left + 1 := by
  obtain ⟨m, t, e, hv, -⟩ := valid_ofList l
  exact ⟨m, e, fun p n hp hn => valid_balanced hv hp hn⟩

/-- C3: for every list of pairs inserted in order into an empty map and every key `k`,
`valueOf(k)` returns the value of the first pair of the list whose key is `k`; it throws
`out_of_range` exactly when no pair of the list has key `k`; and when the keys of the list are
pairwise distinct, looking up the key of any pair returns the value inserted with it. -/
theorem C3_valueOf_first_inserted [LinearOrder K] (l : List (K × V)) (k : K) :
    ∃ m, TreeMap.ofList l = .ok m ∧
      m.valueOf k = (match lookupL k l with
        | some v => .ok v
        | none => .out_of_range) ∧
      (m.valueOf k = .out_of_range ↔ k ∉ l.map Prod.fst) ∧
      ((l.map Prod.fst).Nodup → ∀ p ∈ l, m.valueOf p.1 = .ok p.2) := by
  obtain ⟨m, t, e, hv, hl⟩ := valid_ofList l
  have hval : ∀ k1, m.valueOf k1 = (match lookupL k1 l with
      | some v => .ok v
      | none => .out_of_range) := by
    intro k1
    rw [valueOf_spec hv.rep hv.bst k1, hl, lookupL_buildL k1 [] l (by simp)]
    rfl
  refine ⟨m, e, hval k, ?_, ?_⟩
  · rw [hval k, ← lookupL_none_iff]
    cases lookupL k l <;> simp
  · intro hnd p hp
    rw [hval p.1, lookupL_of_mem_nodup l hnd p hp]

/-- C4: for every map built by insertions and every key already present in it, the plain
`insert` of a pair with that key returns the very same state: size, values, links and cached
heights are all as before. -/
theorem C4_duplicate_insert_noop [LinearOrder K] (l : List (K × V)) (m : TreeMap K V) (k : K)
    (v1 : V) (hm : TreeMap.ofList l = .ok m) (hk : k ∈ l.map Prod.fst) :
    m.insert k v1 = .ok m := by
  obtain ⟨m1, t, e, hv, hl⟩ := valid_ofList l
  rw [hm] at e
  simp only [Res.ok.injEq] at e
  subst e
  exact insert_present hv k v1 (by rw [hl, keys_buildL]; exact Or.inr hk)

/-- Witness for C4: the map built from 1, 2, 3 and a second insertion of key 2. -/
theorem C4_duplicate_insert_noop_witness :
    (TreeMap.ofList [(1, 10), (2, 20), (3, 30)] : Res (TreeMap Nat Nat)) = .ok map123 ∧
      (2 : Nat) ∈ [(1, 10), (2, 20), (3, 30)].map Prod.fst ∧
      map123.insert 2 99 = .ok map123 :=
  ⟨by decide, by decide,
    C4_duplicate_insert_noop [(1, 10), (2, 20), (3, 30)] map123 2 99 (by decide) (by decide)⟩

/-- C5: for every list of pairs with pairwise distinct keys and every permutation of it, the
map built by inserting the list in order and the map built by inserting the permutation in
order compare equal under `operator==`. -/
theorem C5_equal_for_any_insertion_order [LinearOrder K] [DecidableEq V] (l l2 : List (K × V))
    (self self2 : Nat) (hnd : (l.map Prod.fst).Nodup) (hp : l2.Perm l) :
    ∃ m m2, TreeMap.ofList l = .ok m ∧ TreeMap.ofList l2 = .ok m2 ∧
      m.equals self m2 self2 = .ok true := by
  obtain ⟨m, t, e, hv, hl⟩ := valid_ofList l
  obtain ⟨m2, t2, e2, hv2, hl2⟩ := valid_ofList l2
  refine ⟨m, m2, e, e2, equals_spec hv hv2 ?_ self self2⟩
  rw [hl, hl2, buildL_eq_of_perm l l2 hnd hp]

/-- Witness for C5: the keys 1, 2, 3 inserted in two orders that build different shapes. -/
theorem C5_equal_for_any_insertion_order_witness :
    ([(1, 10), (2, 20), (3, 30)].map Prod.fst).Nodup ∧
      [(3, 30), (1, 10), (2, 20)].Perm [(1, 10), (2, 20), (3, 30)] ∧
      ∃ m m2 : TreeMap Nat Nat, TreeMap.ofList [(1, 10), (2, 20), (3, 30)] = .ok m ∧
        TreeMap.ofList [(3, 30), (1, 10), (2, 20)] = .ok m2 ∧ m.equals 0 m2 1 = .ok true :=
  ⟨by decide, by decide,
    C5_equal_for_any_insertion_order [(1, 10), (2, 20), (3, 30)] [(3, 30), (1, 10), (2, 20)] 0 1
      (by decide) (by decide)⟩

/-- C6: for every map built by insertions and every key `k`, `operator[](k)` returns a
reference into a node with key `k`.  If `k` is present the state is unchanged and the value
referred to is the one stored for `k`.  If `k` is absent exactly one entry `(k, default)` is
added in sorted position, the size grows by one, the reference is to the new default value,
and the value of every other key is as before. -/
theorem C6_index_is_get_or_insert [LinearOrder K] [Inhabited V] (l : List (K × V)) (k : K)
    (self : Nat) :
    ∃ m m1 p n tr, TreeMap.ofList l = .ok m ∧ m.index k = .ok (m1, p) ∧
      m1.cell p = some n ∧ n.key = k ∧ m.traverse self = .ok tr ∧
      (k ∈ l.map Prod.fst → m1 = m ∧ m.valueOf k = .ok n.val) ∧
      (k ∉ l.map Prod.fst → n.val = default ∧ m1.getSize = m.getSize + 1 ∧
        m1.traverse self = .ok (insL k default tr) ∧
        (insL k default tr).length = tr.length + 1 ∧
        ∀ k1, k1 ≠ k → m1.valueOf k1 = m.valueOf k1) := by
  obtain ⟨m, t, e, hv, hl⟩ := valid_ofList l
  obtain ⟨m1, p, n, e1, c1, hk, hcase⟩ := index_spec hv k
  have hkeys : k ∈ l.map Prod.fst ↔ k ∈ t.toList.map Prod.fst := by
    rw [hl, keys_buildL]; simp
  refine ⟨m, m1, p, n, t.toList, e, e1, c1, hk, traverse_spec self hv.rep, ?_, ?_⟩
  · intro hin
    cases hlk : lookupL k t.toList with
    | none => exact absurd (hkeys.mp hin) ((lookupL_none_iff k _).mp hlk)
    | some v =>
      rw [hlk] at hcase
      refine ⟨hcase.1, ?_⟩
      rw [valueOf_spec hv.rep hv.bst k, hlk, hcase.2]
  · intro hnin
    have hlk : lookupL k t.toList = none :=
      (lookupL_none_iff k _).mpr (fun hx => hnin (hkeys.mpr hx))
    rw [hlk] at hcase
    obtain ⟨h1, h2, t1, hv1, hl1⟩ := hcase
    refine ⟨h1, h2, ?_, length_insL k _ _ (fun hx => hnin (hkeys.mpr hx)), fun k1 hne => ?_⟩
    · rw [← hl1]; exact traverse_spec self hv1.rep
    · rw [valueOf_spec hv1.rep hv1.bst k1, valueOf_spec hv.rep hv.bst k1, hl1,
        lookupL_insL k k1 default _ hv.bst, if_neg (Ne.symm hne)]
      cases lookupL k1 t.toList <;> rfl

/-- C7: for every map built by insertions and every key that is not present, `remove(key)`
throws `out_of_range`, and the container at the moment the exception leaves the call is the
very state the call started with: nodes, links, values, cached heights, `Head` and `count` are
all as before (the lookup came back empty and nothing was written). -/
theorem C7_remove_absent_key_throws [LinearOrder K] (l : List (K × V)) (m : TreeMap K V) (k : K)
    (hm : TreeMap.ofList l = .ok m) (hk : k ∉ l.map Prod.fst) :
    m.findNode k = .ok none ∧ m.remove k = .out_of_range ∧ m.removeCall k = .thrown m := by
  obtain ⟨m1, t, e, hv, hl⟩ := valid_ofList l
  rw [hm] at e
  simp only [Res.ok.injEq] at e
  subst e
  have hf := findNodeFrom_rep k m.nodes.length hv.rep.rep
    (le_trans (Tr.height_le_size t) hv.rep.size_le)
  have hh : m.Head = t.root := hv.rep.head
  rw [← hh] at hf
  have hnone : lookupL k t.toList = none := by
    rw [lookupL_none_iff, hl, keys_buildL]; simpa using hk
  have hfind : t.find k = none := by
    have := find_eq_lookupL k t hv.bst
    rw [hnone] at this
    cases hq : t.find k with
    | none => rfl
    | some q => rw [hq] at this; simp at this
  rw [hfind] at hf
  have hf1 : m.findNode k = .ok none := hf
  exact ⟨hf1, by simp only [TreeMap.remove, hf1, Res.bind_ok], removeCall_absent hf1⟩

/-- Witness for C7: removing the absent key 5 from the map built from 1, 2, 3. -/
theorem C7_remove_absent_key_throws_witness :
    (TreeMap.ofList [(1, 10), (2, 20), (3, 30)] : Res (TreeMap Nat Nat)) = .ok map123 ∧
      (5 : Nat) ∉ [(1, 10), (2, 20), (3, 30)].map Prod.fst ∧
      map123.findNode 5 = .ok none ∧ map123.remove 5 = .out_of_range ∧
      map123.removeCall 5 = .thrown map123 :=
  ⟨by decide, by decide,
    C7_remove_absent_key_throws [(1, 10), (2, 20), (3, 30)] map123 5 (by decide) (by decide)⟩

/-- C8 (the code departs from the claim): in the map built from 5, 3, 8, 1, 4, 7, 9 the node 5
has two children and its successor 7 lies below the right child 8.  `remove(5)` returns
normally with `count` 6, but the successor is moved without being given the right subtree of
the removed node: afterwards the root is the node 7 with left child 3 and no right child, the
node 8 still names the freed cell of 5 as its parent, and forward traversal visits only
1, 3, 4, 7. -/
theorem C8_two_child_remove_drops_right_subtree :
    (TreeMap.ofList [(5, 50), (3, 30), (8, 80), (1, 10), (4, 40), (7, 70), (9, 90)] :
        Res (TreeMap Nat Nat)) = .ok map7 ∧
      map7.remove 5 = .ok map7Removed5 ∧
      map7Removed5.traverse 0 = .ok [(1, 10), (3, 30), (4, 40), (7, 70)] ∧
      map7Removed5.getSize = 6 := by
  decide

/-- C9: in every state reached from the empty map by insertions and by removals of nodes with
at most one child, `remove(key)` of a present key whose node is a leaf or has exactly one child
returns normally; forward traversal afterwards is the previous traversal with exactly that one
entry deleted; the size is one less; every node is still the left or right child of the node
its parent link points to (or is the root when it has no parent); the only child of the removed
node (or `nullptr` for a leaf) stands where the removed node stood, below the same parent or
as the root, and its parent link is the removed node's parent link. -/
theorem C9_remove_leaf_or_one_child [LinearOrder K] (m : TreeMap K V) (key : K) (p : Nat)
    (n : Node K V) (self : Nat) (hr : Reach1 m) (hf : m.findNode key = .ok (some p))
    (hn : m.cell p = some n) (hc : n.Left = none ∨ n.Right = none) :
    ∃ m1 tr, m.remove key = .ok m1 ∧ m.traverse self = .ok tr ∧
      m1.traverse self = .ok (tr.filter (fun e => decide (e.1 ≠ key))) ∧
      (tr.filter (fun e => decide (e.1 ≠ key))).length + 1 = tr.length ∧
      m1.getSize + 1 = m.getSize ∧
      (∀ q nq, m1.Reaches q → m1.cell q = some nq →
        match nq.Parent with
        | none => m1.Head = some q
        | some pp => ∃ pn, m1.cell pp = some pn ∧ (pn.Left = some q ∨ pn.Right = some q)) ∧
      (match n.Parent with
        | none => m1.Head = (if n.Left = none then n.Right else n.Left)
        | some pp => ∃ pn pn1, m.cell pp = some pn ∧ m1.cell pp = some pn1 ∧
            ((pn.Left = some p ∧ pn1.Left = (if n.Left = none then n.Right else n.Left) ∧
                pn1.Right = pn.Right) ∨
             (pn.Right = some p ∧ pn1.Right = (if n.Left = none then n.Right else n.Left) ∧
                pn1.Left = pn.Left))) ∧
      (∀ c, (if n.Left = none then n.Right else n.Left) = some c →
        ∃ nc, m1.cell c = some nc ∧ nc.Parent = n.Parent) := by
  obtain ⟨t, hs⟩ := reach1_sane hr
  obtain ⟨m1, t1, e, hs1, h1, h2, h3, h4, h5⟩ := sane_remove hs key hf hn hc
  refine ⟨m1, t.toList, e, traverse_spec self hs.rep, ?_, ?_, h3,
    fun q nq hq hcq => parent_ok hs1.rep hq hcq, h4, h5⟩
  · rw [← h1]; exact traverse_spec self hs1.rep
  · rw [← h1]; exact h2

/-- Witness for C9: from 1, 2, 3 the leaf 1 was removed; then the root 2, which has the single
child 3, is removed. -/
theorem C9_remove_leaf_or_one_child_witness :
    Reach1 map23 ∧ map23.findNode 2 = .ok (some 1) ∧
      map23.cell 1 = some ⟨2, 20, none, some 2, none, 2⟩ ∧
      ∃ m1, map23.remove 2 = .ok m1 ∧ m1.traverse 0 = .ok [(3, 30)] ∧ m1.getSize = 1 ∧
        m1.Head = some 2 := by
  have hr : Reach1 map23 :=
    Reach1.remove 1 0 ⟨1, 10, none, none, some 1, 1⟩
      (reach1_insertAll Reach1.empty [(1, 10), (2, 20), (3, 30)]
        (by decide : TreeMap.insertAll TreeMap.empty [(1, 10), (2, 20), (3, 30)] = .ok map123))
      (by decide) (by decide) (Or.inl rfl) (by decide)
  refine ⟨hr, by decide, by decide, ?_⟩
  obtain ⟨m1, tr, h1, h2, h3, -, h5, -, h7, -⟩ :=
    C9_remove_leaf_or_one_child map23 2 1 ⟨2, 20, none, some 2, none, 2⟩ 0 hr
      (by decide) (by decide) (Or.inl rfl)
  have htr : map23.traverse 0 = .ok [(2, 20), (3, 30)] := by decide
  rw [htr] at h2
  simp only [Res.ok.injEq] at h2
  subst h2
  have hsz : map23.getSize = 2 := rfl
  exact ⟨m1, h1, h3, by omega, h7⟩

/-- C10: for every non-empty map built by insertions, decrementing a cursor from `end()` until
it equals `begin()` visits the entries in exactly the reverse of the order in which forward
traversal visits them: the largest key first, then strictly decreasing keys. -/
theorem C10_backward_is_reverse [LinearOrder K] (l : List (K × V)) (self : Nat) (hne : l ≠ []) :
    ∃ m tr, TreeMap.ofList l = .ok m ∧ m.traverse self = .ok tr ∧ tr ≠ [] ∧
      m.traverseBack self = .ok tr.reverse ∧
      (tr.reverse.map Prod.fst).Pairwise (· > ·) := by
  obtain ⟨m, t, e, hv, hl⟩ := valid_ofList l
  have hne1 : t.toList ≠ [] := by
    cases l with
    | nil => exact absurd rfl hne
    | cons q rest =>
      intro h0
      have := (keys_buildL [] (q :: rest) q.1).mpr (Or.inr (by simp))
      rw [← hl, h0] at this
      simp at this
  have hne2 : t ≠ .nil := by
    rintro rfl
    exact hne1 rfl
  refine ⟨m, t.toList, e, traverse_spec self hv.rep, hne1, traverseBack_spec self hv.rep hne2, ?_⟩
  rw [List.map_reverse, List.pairwise_reverse]
  exact hv.bst

/-- Witness for C10: for the keys 1, 2, 3 stepping back from `end()` yields 3, 2, 1. -/
theorem C10_backward_is_reverse_witness :
    [(1, 10), (2, 20), (3, 30)] ≠ [] ∧
      (TreeMap.ofList [(1, 10), (2, 20), (3, 30)] : Res (TreeMap Nat Nat)) = .ok map123 ∧
      map123.traverseBack 0 = .ok [(3, 30), (2, 20), (1, 10)] ∧
      ∃ (m : TreeMap Nat Nat) (tr : List (Nat × Nat)),
        TreeMap.ofList [(1, 10), (2, 20), (3, 30)] = .ok m ∧ m.traverse 0 = .ok tr ∧ tr ≠ [] ∧
        m.traverseBack 0 = .ok tr.reverse ∧ (tr.reverse.map Prod.fst).Pairwise (· > ·) :=
  ⟨by decide, by decide, by decide,
    C10_backward_is_reverse [(1, 10), (2, 20), (3, 30)] 0 (by decide)⟩

/-- C11: for every map built by insertions, `++` on a cursor equal to `end()` throws; `++` on a
cursor at a node always returns, and the result equals `end()` exactly when the node holds the
largest key; `--` on a cursor at a node throws exactly when the node holds the smallest key and
otherwise returns a cursor at a node; for the empty map `begin()` equals `end()` and `--` on it
throws, and for a non-empty map `--` on `end()` returns a cursor at a node. -/
theorem C11_cursor_boundaries [LinearOrder K] (l : List (K × V)) (self : Nat) :
    ∃ m tr, TreeMap.ofList l = .ok m ∧ m.traverse self = .ok tr ∧
      ConstIterator.incr m (m.cend self) = .out_of_range ∧
      (∀ q n, m.Reaches q → m.cell q = some n →
        (∃ it, ConstIterator.incr m ⟨some self, some q⟩ = .ok it ∧
          (it = m.cend self ↔ ∀ e ∈ tr, e.1 ≤ n.key)) ∧
        ((∀ e ∈ tr, n.key ≤ e.1) →
          ConstIterator.decr m ⟨some self, some q⟩ = .out_of_range) ∧
        (¬ (∀ e ∈ tr, n.key ≤ e.1) →
          ∃ b, ConstIterator.decr m ⟨some self, some q⟩ = .ok ⟨some self, some b⟩)) ∧
      (l = [] → m.cbegin self = .ok (m.cend self) ∧
        ConstIterator.decr m (m.cend self) = .out_of_range) ∧
      (l ≠ [] → ∃ b, ConstIterator.decr m (m.cend self) = .ok ⟨some self, some b⟩) := by
  obtain ⟨m, t, e, hv, hl⟩ := valid_ofList l
  refine ⟨m, t.toList, e, traverse_spec self hv.rep, rfl, fun q n hq hn => ?_, fun h0 => ?_,
    fun hne => ?_⟩
  · obtain ⟨⟨nx, e1, h1⟩, h2, h3⟩ := cursor_steps hv.rep hv.bst self hq hn
    refine ⟨⟨_, e1, ?_⟩, h2, h3⟩
    rw [← h1]
    simp [TreeMap.cend]
  · subst h0
    have ht : t.toList = [] := hl
    have ht1 := Tr.toList_eq_nil ht
    subst ht1
    obtain ⟨nx, e1, hf⟩ := cbegin_spec self hv.rep
    have hnx : nx = none := hf.none_iff.mpr rfl
    subst hnx
    exact ⟨e1, (decr_end_cases hv.rep self).1 rfl⟩
  · apply (decr_end_cases hv.rep self).2
    cases l with
    | nil => exact absurd rfl hne
    | cons q rest =>
      intro h0
      have := (keys_buildL [] (q :: rest) q.1).mpr (Or.inr (by simp))
      rw [← hl, h0] at this
      simp at this

/-- C12: for every map `M` built by insertions, `remove(cursor)` throws `out_of_range` when
the cursor is the end marker of `M`, and when the cursor belongs to another container (whatever
that container holds, at its end marker or at any of its entries, also an entry whose key `M`
holds too); in each of these cases the container at the moment the exception leaves the call
is the very state of `M` the call started with.  For a cursor of `M` at one of its entries the
check passes and the call is `remove(Node*)` on that entry's node. -/
theorem C12_remove_cursor_check [LinearOrder K] (l l2 : List (K × V)) (self other : Nat)
    (hne : other ≠ self) :
    ∃ m m2, TreeMap.ofList l = .ok m ∧ TreeMap.ofList l2 = .ok m2 ∧
      m.removeAt self m (m.cend self) = .out_of_range ∧
      m.removeAtCall self m (m.cend self) = .thrown m ∧
      m.removeAt self m2 (m2.cend other) = .out_of_range ∧
      m.removeAtCall self m2 (m2.cend other) = .thrown m ∧
      (∀ q, m2.Reaches q → m.removeAt self m2 ⟨some other, some q⟩ = .out_of_range ∧
        m.removeAtCall self m2 ⟨some other, some q⟩ = .thrown m) ∧
      (∀ q, m.Reaches q → m.removeAt self m ⟨some self, some q⟩ = m.removeNode q ∧
        m.removeAtCall self m ⟨some self, some q⟩ = Outcome.ofRes (m.removeNode q)) := by
  obtain ⟨m, t, e, hv, -⟩ := valid_ofList l
  obtain ⟨m2, t2, e2, hv2, -⟩ := valid_ofList l2
  refine ⟨m, m2, e, e2, removeAt_end m m self _, removeAtCall_end m m self _,
    removeAt_end m m2 self _, removeAtCall_end m m2 self _, fun q hq => ?_,
    fun q hq => ⟨removeAt_own hv.rep hv.bst self hq, removeAtCall_own hv.rep hv.bst self hq⟩⟩
  obtain ⟨lt, k, v, h, rt, ctx, -, hz1⟩ := hv2.rep.view (hv2.rep.mem_of_reaches hq)
  exact ⟨removeAt_foreign hv.rep self other hne hz1.rep.1,
    removeAtCall_foreign hv.rep self other hne hz1.rep.1⟩

/-- Witness for C12: the map built from 1, 2, 3 (container 0) and cursors of the map built from
2 alone (container 1). -/
theorem C12_remove_cursor_check_witness :
    (1 : Nat) ≠ 0 ∧
      map123.removeAtCall 0 map123 (map123.cend 0) = .thrown map123 ∧
      ∃ m m2 : TreeMap Nat Nat, TreeMap.ofList [(1, 10), (2, 20), (3, 30)] = .ok m ∧
        TreeMap.ofList [(2, 20)] = .ok m2 ∧
        m.removeAt 0 m (m.cend 0) = .out_of_range ∧
        m.removeAtCall 0 m (m.cend 0) = .thrown m ∧
        m.removeAt 0 m2 (m2.cend 1) = .out_of_range ∧
        m.removeAtCall 0 m2 (m2.cend 1) = .thrown m ∧
        (∀ q, m2.Reaches q → m.removeAt 0 m2 ⟨some 1, some q⟩ = .out_of_range ∧
          m.removeAtCall 0 m2 ⟨some 1, some q⟩ = .thrown m) ∧
        (∀ q, m.Reaches q → m.removeAt 0 m ⟨some 0, some q⟩ = m.removeNode q ∧
          m.removeAtCall 0 m ⟨some 0, some q⟩ = Outcome.ofRes (m.removeNode q)) :=
  ⟨by decide, by decide,
    C12_remove_cursor_check [(1, 10), (2, 20), (3, 30)] [(2, 20)] 0 1 (by decide)⟩

/-- C13 (the code departs from the claim): a client inserts 5, 3, 8, 1, 4, 7, 9, removes 5 and
inserts 8 again.  Every call returns normally.  Counted on the keys, 7 insertions met no present
key (the second 8 meets the key 8, inserted before and never removed) and 1 removal did not
fail, so the size should be 6; `getSize()` is 7.  The two-child branch of `remove(Node*)` has
put the nodes 8 and 9 out of reach, so the second `insert` of 8 does not meet the key, links a
second node 8 and increments `count`; forward traversal visits 5 entries.  And for the client
that inserts 1, 2, 3 and removes 2 (counted on the keys: size 2) the removal follows a null
link, so there is no size at all. -/
theorem C13_size_off_after_two_child_removal :
    TreeMap.runOps (TreeMap.empty : TreeMap Nat Nat)
        [.insert 5 50, .insert 3 30, .insert 8 80, .insert 1 10, .insert 4 40, .insert 7 70,
          .insert 9 90, .remove 5, .insert 8 88] = .ok map7Reinserted8 ∧
      specTally ([] : List Nat) 0 0
        [Op.insert 5 50, .insert 3 30, .insert 8 80, .insert 1 10, .insert 4 40, .insert 7 70,
          .insert 9 90, .remove 5, .insert 8 (88 : Nat)] = (7, 1) ∧
      map7Reinserted8.getSize = 7 ∧
      map7Reinserted8.traverse 0 = .ok [(1, 10), (3, 30), (4, 40), (7, 70), (8, 88)] ∧
      TreeMap.runOps (TreeMap.empty : TreeMap Nat Nat)
        [.insert 1 10, .insert 2 20, .insert 3 30, .remove 2] = .undefined ∧
      specTally ([] : List Nat) 0 0
        [Op.insert 1 10, .insert 2 20, .insert 3 (30 : Nat), .remove 2] = (3, 1) := by
  decide

/-- C14: for every three keys `a < b < c` with any values, inserted into an empty map in any
of the six possible orders, the resulting tree has `b` at the root (no parent, cached height 2),
`a` as the root's left child and `c` as its right child, and both children are leaves. -/
theorem C14_three_keys_shape [LinearOrder K] (a b c : K) (va vb vc : V) (l : List (K × V))
    (hab : a < b) (hbc : b < c) (hp : l.Perm [(a, va), (b, vb), (c, vc)]) :
    ∃ m pa pb pc, TreeMap.ofList l = .ok m ∧ m.Head = some pb ∧
      m.cell pb = some ⟨b, vb, some pa, some pc, none, 2⟩ ∧
      m.cell pa = some ⟨a, va, none, none, some pb, 1⟩ ∧
      m.cell pc = some ⟨c, vc, none, none, some pb, 1⟩ := by
  obtain ⟨m, t, e, hv, hl⟩ := valid_ofList l
  have hac : a < c := lt_trans hab hbc
  have hnd : ([(a, va), (b, vb), (c, vc)].map Prod.fst).Nodup := by
    simp only [List.map_cons, List.map_nil, List.nodup_cons, List.mem_cons, List.mem_singleton,
      List.not_mem_nil, not_false_eq_true, List.nodup_nil, and_true, not_or]
    exact ⟨⟨ne_of_lt hab, ne_of_lt hac⟩, ne_of_lt hbc⟩
  have hb : buildL [] [(a, va), (b, vb), (c, vc)] = [(a, va), (b, vb), (c, vc)] := by
    simp only [buildL, insL, hab, hbc, hac, if_true, not_lt.mpr (le_of_lt hab),
      not_lt.mpr (le_of_lt hbc), not_lt.mpr (le_of_lt hac), if_false]
  rw [buildL_eq_of_perm _ l hnd hp, hb] at hl
  obtain ⟨pa, pb, pc, ht⟩ := hv.good.three hl
  subst ht
  obtain ⟨c1, ⟨c2, -, -⟩, ⟨c3, -, -⟩⟩ := hv.rep.rep
  exact ⟨m, pa, pb, pc, e, hv.rep.head, c1, c2, c3⟩

/-- Witness for C14: the keys 1, 2, 3 inserted in the order 3, 1, 2 (double rotation). -/
theorem C14_three_keys_shape_witness :
    (1 : Nat) < 2 ∧ (2 : Nat) < 3 ∧
      [(3, 30), (1, 10), (2, 20)].Perm [(1, 10), (2, 20), (3, 30)] ∧
      (TreeMap.ofList [(3, 30), (1, 10), (2, 20)] : Res (TreeMap Nat Nat)) = .ok map312 ∧
      (TreeMap.ofList [(1, 10), (2, 20), (3, 30)] : Res (TreeMap Nat Nat)) = .ok map123 ∧
      ∃ (m : TreeMap Nat Nat) (pa pb pc : Nat),
        TreeMap.ofList [(3, 30), (1, 10), (2, 20)] = .ok m ∧ m.Head = some pb ∧
        m.cell pb = some ⟨2, 20, some pa, some pc, none, 2⟩ ∧
        m.cell pa = some ⟨1, 10, none, none, some pb, 1⟩ ∧
        m.cell pc = some ⟨3, 30, none, none, some pb, 1⟩ :=
  ⟨by decide, by decide, by decide, by decide, by decide,
    C14_three_keys_shape 1 2 3 10 20 30 [(3, 30), (1, 10), (2, 20)] (by decide) (by decide)
      (by decide)⟩

/-- C15: for every map built by insertions only, with `n` entries and a tree of actual height
`h`: `n` is at least the minimum node count `minNodes h`, and `2 ^ (h / 2) ≤ n + 1`; and the
descent of `findNode` for any key ends within `h` passes of its loop. -/
theorem C15_height_logarithmic [LinearOrder K] (l : List (K × V)) (self : Nat) :
    ∃ m tr, TreeMap.ofList l = .ok m ∧ m.traverse self = .ok tr ∧ m.getSize = tr.length ∧
      minNodes (m.subtreeHeight m.Head) ≤ tr.length ∧
      2 ^ (m.subtreeHeight m.Head / 2) ≤ tr.length + 1 ∧
      ∀ key, ∃ r, m.findNode key = .ok r ∧
        m.findNodeFrom key (m.subtreeHeight m.Head) m.Head = .ok r := by
  obtain ⟨m, t, e, hv, -⟩ := valid_ofList l
  have h1 := hv.good.minNodes_le
  have h2 := pow_half_le_minNodes t.height
  have h3 := Tr.size_eq_length t
  refine ⟨m, t.toList, e, traverse_spec self hv.rep, ?_, ?_, ?_,
    fun key => findNode_fuel hv.rep key⟩
  · show m.count = _
    rw [hv.count, h3]
  · rw [subtreeHeight_head hv.rep]
    omega
  · rw [subtreeHeight_head hv.rep]
    omega

/-- C16: in every well-formed tree (child and parent links consistent, no node shared), for
every node `X` with a present right child `C`, `switch_Right_With_Parent(X)` returns; the
forward traversal (keys and values) is as before; `C` stands where `X` stood (same-side child of
the former parent of `X`, or `Head`), with that parent as its parent link; `X` is the left
child of `C` and has `C` as parent; the former left child of `C` is the right child of `X` and
has `X` as parent; every node's parent link names a node that has it as a child and every child
link names a node whose parent link leads back; the cached height of `X` is 1 + the maximum of
the cached heights of its new children.  The mirror statement holds for
`switch_Left_With_Parent(X)` when the left child of `X` is present. -/
theorem C16_rotations (m : TreeMap K V) (t : Tr K V) (self : Nat) (hz : RepZ m t []) :
    (∀ x c nx nc, m.Reaches x → m.cell x = some nx → nx.Right = some c → m.cell c = some nc →
      ∃ m1 nx1 nc1 tr, m.switch_Right_With_Parent (some x) = .ok m1 ∧
        m.traverse self = .ok tr ∧ m1.traverse self = .ok tr ∧
        m1.cell x = some nx1 ∧ m1.cell c = some nc1 ∧
        (match nx.Parent with
          | none => m1.Head = some c
          | some pp => ∃ pn pn1, m.cell pp = some pn ∧ m1.cell pp = some pn1 ∧
              ((pn.Left = some x ∧ pn1.Left = some c ∧ pn1.Right = pn.Right) ∨
               (pn.Right = some x ∧ pn1.Right = some c ∧ pn1.Left = pn.Left))) ∧
        nc1.Parent = nx.Parent ∧ nc1.Left = some x ∧ nc1.Right = nc.Right ∧
        nx1.Parent = some c ∧ nx1.Left = nx.Left ∧ nx1.Right = nc.Left ∧
        (∀ g, nc.Left = some g → ∃ ng, m1.cell g = some ng ∧ ng.Parent = some x) ∧
        (∃ hl hr, m1.getHeight nx1.Left = .ok hl ∧ m1.getHeight nx1.Right = .ok hr ∧
          nx1.Height = 1 + max hl hr) ∧
        (∀ q nq, m1.Reaches q → m1.cell q = some nq →
          (match nq.Parent with
            | none => m1.Head = some q
            | some pp => ∃ pn, m1.cell pp = some pn ∧ (pn.Left = some q ∨ pn.Right = some q)) ∧
          ∀ d, nq.Left = some d ∨ nq.Right = some d →
            ∃ dn, m1.cell d = some dn ∧ dn.Parent = some q)) ∧
    (∀ x c nx nc, m.Reaches x → m.cell x = some nx → nx.Left = some c → m.cell c = some nc →
      ∃ m1 nx1 nc1 tr, m.switch_Left_With_Parent (some x) = .ok m1 ∧
        m.traverse self = .ok tr ∧ m1.traverse self = .ok tr ∧
        m1.cell x = some nx1 ∧ m1.cell c = some nc1 ∧
        (match nx.Parent with
          | none => m1.Head = some c
          | some pp => ∃ pn pn1, m.cell pp = some pn ∧ m1.cell pp = some pn1 ∧
              ((pn.Left = some x ∧ pn1.Left = some c ∧ pn1.Right = pn.Right) ∨
               (pn.Right = some x ∧ pn1.Right = some c ∧ pn1.Left = pn.Left))) ∧
        nc1.Parent = nx.Parent ∧ nc1.Right = some x ∧ nc1.Left = nc.Left ∧
        nx1.Parent = some c ∧ nx1.Right = nx.Right ∧ nx1.Left = nc.Right ∧
        (∀ g, nc.Right = some g → ∃ ng, m1.cell g = some ng ∧ ng.Parent = some x) ∧
        (∃ hl hr, m1.getHeight nx1.Left = .ok hl ∧ m1.getHeight nx1.Right = .ok hr ∧
          nx1.Height = 1 + max hl hr) ∧
        (∀ q nq, m1.Reaches q → m1.cell q = some nq →
          (match nq.Parent with
            | none => m1.Head = some q
            | some pp => ∃ pn, m1.cell pp = some pn ∧ (pn.Left = some q ∨ pn.Right = some q)) ∧
          ∀ d, nq.Left = some d ∨ nq.Right = some d →
            ∃ dn, m1.cell d = some dn ∧ dn.Parent = some q)) := by
  constructor
  · intro x c nx nc hx hnx hr hnc
    obtain ⟨m1, nx1, nc1, t1, e1, hz1, hl, -, c1, c2, f1, f2, f3, f4, f5, f6, f7, f8, f9⟩ :=
      rotate_left_facts hz self hx hnx hr hnc
    refine ⟨m1, nx1, nc1, t.toList, e1, traverse_spec self hz, ?_, c1, c2, f1, f2, f3, f4, f5,
      f6, f7, f8, f9, fun q nq hq hcq => ⟨parent_ok hz1 hq hcq, fun d hd => child_ok hz1 hq hcq d hd⟩⟩
    rw [← hl]
    exact traverse_spec self hz1
  · intro x c nx nc hx hnx hr hnc
    obtain ⟨m1, nx1, nc1, t1, e1, hz1, hl, -, c1, c2, f1, f2, f3, f4, f5, f6, f7, f8, f9⟩ :=
      rotate_right_facts hz self hx hnx hr hnc
    refine ⟨m1, nx1, nc1, t.toList, e1, traverse_spec self hz, ?_, c1, c2, f1, f2, f3, f4, f5,
      f6, f7, f8, f9, fun q nq hq hcq => ⟨parent_ok hz1 hq hcq, fun d hd => child_ok hz1 hq hcq d hd⟩⟩
    rw [← hl]
    exact traverse_spec self hz1

/-- Witness for C16: in the tree with root 2 and children 1 and 3, the left rotation at the
root makes 3 the root, and the right rotation at the root makes 1 the root. -/
theorem C16_rotations_witness :
    RepZ map123 (.node (.node .nil 0 1 10 1 .nil) 1 2 20 2 (.node .nil 2 3 30 1 .nil)) [] ∧
      (∃ m1, map123.switch_Right_With_Parent (some 1) = .ok m1 ∧ m1.Head = some 2 ∧
        m1.traverse 0 = .ok [(1, 10), (2, 20), (3, 30)]) ∧
      (∃ m1, map123.switch_Left_With_Parent (some 1) = .ok m1 ∧ m1.Head = some 0 ∧
        m1.traverse 0 = .ok [(1, 10), (2, 20), (3, 30)]) := by
  have hw := C16_rotations map123 _ 0 repZ_map123
  have htr : map123.traverse 0 = .ok [(1, 10), (2, 20), (3, 30)] := by decide
  refine ⟨repZ_map123, ?_, ?_⟩
  · obtain ⟨m1, nx1, nc1, tr, e1, h1, h2, -, -, h3, -⟩ :=
      hw.1 1 2 ⟨2, 20, some 0, some 2, none, 2⟩ ⟨3, 30, none, none, some 1, 1⟩
        (.head rfl) (by decide) rfl (by decide)
    rw [htr] at h1
    simp only [Res.ok.injEq] at h1
    subst h1
    exact ⟨m1, e1, h3, h2⟩
  · obtain ⟨m1, nx1, nc1, tr, e1, h1, h2, -, -, h3, -⟩ :=
      hw.2 1 0 ⟨2, 20, some 0, some 2, none, 2⟩ ⟨1, 10, none, none, some 1, 1⟩
        (.head rfl) (by decide) rfl (by decide)
    rw [htr] at h1
    simp only [Res.ok.injEq] at h1
    subst h1
    exact ⟨m1, e1, h3, h2⟩

/-- C17, counterexample: insert 5, 2, 8, 1, 3, 9, 0, remove the leaf 3, insert 7.  Every call
returns normally, the last one is an insertion, and in the resulting tree the node 2 has a left
subtree of height 2 (the nodes 1 and 0) and no right subtree: the removal left it out of
balance and the repair walk of the insertion of 7 (from 8 up to the root 5) does not visit
it. -/
theorem C17_unbalanced_after_removal_then_insert :
    (TreeMap.ofList [(5, 50), (2, 20), (8, 80), (1, 10), (3, 30), (9, 90), (0, 0)] >>=
        fun m => m.remove 3 >>= fun m1 => m1.insert 7 70) = .ok mapLeaning ∧
      mapLeaning.Reaches 1 ∧ mapLeaning.cell 1 = some ⟨2, 20, some 3, none, some 0, 3⟩ ∧
      mapLeaning.subtreeHeight (some 3) = 2 ∧ mapLeaning.subtreeHeight none = 0 ∧
      mapLeaning.getHeight (some 3) = .ok 2 ∧ mapLeaning.getHeight none = .ok 0 ∧
      ¬ (∀ p n, mapLeaning.Reaches p → mapLeaning.cell p = some n →
        mapLeaning.subtreeHeight n.Left ≤ mapLeaning.subtreeHeight n.Right + 1 ∧
        mapLeaning.subtreeHeight n.Right ≤ mapLeaning.subtreeHeight n.Left + 1) := by
  have hr : mapLeaning.Reaches 1 :=
    .left (q := 0) (n := ⟨5, 50, some 1, some 2, none, 4⟩) (.head rfl) (by decide) rfl
  refine ⟨by decide, hr, by decide, by decide, by decide, by decide, by decide, fun h => ?_⟩
  have h1 := (h 1 ⟨2, 20, some 3, none, some 0, 3⟩ hr (by decide)).1
  revert h1
  decide

/-- C17, amended: an insertion into a tree that is a search tree with exact cached heights and
balanced at every node (as every tree built by insertions only is) returns and leaves every
node with child subtrees whose actual heights differ by at most 1, and the tree is again of
that kind. -/
theorem C17_insert_keeps_balance [LinearOrder K] (m : TreeMap K V) (t : Tr K V) (key : K)
    (val : V) (hv : Valid m t) :
    ∃ m1, m.insert key val = .ok m1 ∧ (∃ t1, Valid m1 t1) ∧
      ∀ p n, m1.Reaches p → m1.cell p = some n →
        m1.subtreeHeight n.Left ≤ m1.subtreeHeight n.Right + 1 ∧
        m1.subtreeHeight n.Right ≤ m1.subtreeHeight n.Left + 1 := by
  obtain ⟨m1, t1, e, hv1, -⟩ := valid_insert hv key val
  exact ⟨m1, e, ⟨t1, hv1⟩, fun p n hp hn => valid_balanced hv1 hp hn⟩

/-- Witness for C17 (amended): inserting 4 into the tree with root 2 and children 1 and 3. -/
theorem C17_insert_keeps_balance_witness :
    Valid map123 (.node (.node .nil 0 1 10 1 .nil) 1 2 20 2 (.node .nil 2 3 30 1 .nil)) ∧
      ∃ m1, map123.insert 4 40 = .ok m1 ∧ (∃ t1, Valid m1 t1) ∧
        ∀ p n, m1.Reaches p → m1.cell p = some n →
          m1.subtreeHeight n.Left ≤ m1.subtreeHeight n.Right + 1 ∧
          m1.subtreeHeight n.Right ≤ m1.subtreeHeight n.Left + 1 :=
  ⟨valid_map123, C17_insert_keeps_balance map123 _ 4 40 valid_map123⟩

/-- C18, counterexample: insert 1, 2 and remove 2.  Both calls return normally; afterwards the
root 1 has no children and its stored `Height` is still 2, not 1 + max(0, 0). -/
theorem C18_stale_height_after_removal :
    (TreeMap.ofList [(1, 10), (2, 20)] >>= fun m => m.remove 2) = .ok map1Stale ∧
      map1Stale.Reaches 0 ∧ map1Stale.cell 0 = some ⟨1, 10, none, none, none, 2⟩ ∧
      map1Stale.subtreeHeight none = 0 ∧ map1Stale.getHeight none = .ok 0 ∧
      ¬ (∀ p n, map1Stale.Reaches p → map1Stale.cell p = some n →
        n.Height = 1 + max (map1Stale.subtreeHeight n.Left : Int)
          (map1Stale.subtreeHeight n.Right : Int)) := by
  have hr : map1Stale.Reaches 0 := .head rfl
  refine ⟨by decide, hr, by decide, by decide, by decide, fun h => ?_⟩
  have h1 := h 0 ⟨1, 10, none, none, none, 2⟩ hr (by decide)
  revert h1
  decide

/-- C18, amended: in every state reached from the empty map by insertions only, every node's
stored `Height` is 1 + the maximum of the heights of its child subtrees (0 for an absent
child), both as actual heights and as the cached heights `getHeight` reads. -/
theorem C18_heights_exact_after_insertions [LinearOrder K] (l : List (K × V)) :
    ∃ m, TreeMap.ofList l = .ok m ∧
      ∀ p n, m.Reaches p → m.cell p = some n →
        n.Height = 1 + max (m.subtreeHeight n.Left : Int) (m.subtreeHeight n.Right : Int) ∧
        ∃ hl hr, m.getHeight n.Left = .ok hl ∧ m.getHeight n.Right = .ok hr ∧
          n.Height = 1 + max hl hr ∧ hl = m.subtreeHeight n.Left ∧
          hr = m.subtreeHeight n.Right := by
  obtain ⟨m, t, e, hv, -⟩ := valid_ofList l
  exact ⟨m, e, fun p n hp hn => valid_heights hv hp hn⟩

/-- C19 (the code departs from the claim): in the tree with root 2, left child 1 and right
child 3 the node 2 has two children and its successor 3 is its right child, which has no left
child.  `remove(2)` finds the node and then follows a null link: the statement
`current->Parent->Left = current->Right` clears the left link of the node being removed
(`current->Parent` is that node), so `current->Left = old->Left` stores `nullptr` and
`current->Left->Parent = current` dereferences it. -/
theorem C19_remove_with_successor_child_derefs_null :
    (TreeMap.ofList [(1, 10), (2, 20), (3, 30)] : Res (TreeMap Nat Nat)) = .ok map123 ∧
      map123.findNode 2 = .ok (some 1) ∧
      map123.cell 1 = some ⟨2, 20, some 0, some 2, none, 2⟩ ∧
      map123.cell 2 = some ⟨3, 30, none, none, some 1, 1⟩ ∧
      map123.unlink 1 = .undefined ∧ map123.remove 2 = .undefined := by
  decide

/-- C20: in a well-formed tree whose cached heights are arbitrary values `≥ 1` (they need be
neither exact nor balanced), when `isBalance` reports a node as unbalanced the block of
rotations in `repairsTree` returns without following an absent link: if the left cached height
is at most the right one, the right child is present, and if moreover its left cached height
exceeds its right one (double rotation), its left child is present; symmetrically on the other
side.  The resulting tree is again well-formed with cached heights `≥ 1`, and so is the tree
after the whole pass of the loop, so the same holds at every later pass. -/
theorem C20_rebalance_follows_present_links (m : TreeMap K V) (t : Tr K V) (x : Nat)
    (n : Node K V) (hz : RepZ m t []) (hp : t.Pos) (hx : m.Reaches x) (hn : m.cell x = some n)
    (hb : m.isBalance (some x) = .ok false) :
    (∃ hl hr m1 t1, m.getHeight n.Left = .ok hl ∧ m.getHeight n.Right = .ok hr ∧
      m.rebalance x = .ok m1 ∧ RepZ m1 t1 [] ∧ t1.Pos ∧
      (hl ≤ hr → ∃ c nc hcl hcr, n.Right = some c ∧ m.cell c = some nc ∧
        m.getHeight nc.Left = .ok hcl ∧ m.getHeight nc.Right = .ok hcr ∧
        (¬ hcl ≤ hcr → ∃ g ng, nc.Left = some g ∧ m.cell g = some ng)) ∧
      (¬ hl ≤ hr → ∃ c nc hcl hcr, n.Left = some c ∧ m.cell c = some nc ∧
        m.getHeight nc.Left = .ok hcl ∧ m.getHeight nc.Right = .ok hcr ∧
        (¬ hcl ≥ hcr → ∃ g ng, nc.Right = some g ∧ m.cell g = some ng))) ∧
    (∃ m2 next t2, m.repairStep x = .ok (m2, next) ∧ RepZ m2 t2 [] ∧ t2.Pos) :=
  ⟨rebalance_safe hz hp hx hn hb, repairStep_safe hz hp hx⟩

/-- Witness for C20: the chain 1, 2, 3 of right children, out of balance at the root 1. -/
theorem C20_rebalance_follows_present_links_witness :
    RepZ mapChain (.node .nil 0 1 10 2 (.node .nil 1 2 20 2 (.node .nil 2 3 30 1 .nil))) [] ∧
      mapChain.isBalance (some 0) = .ok false ∧
      (∃ m1, mapChain.rebalance 0 = .ok m1) ∧
      (∃ m2 next, mapChain.repairStep 0 = .ok (m2, next)) := by
  obtain ⟨⟨hl, hr, m1, t1, -, -, e1, -⟩, ⟨m2, next, t2, e2, -⟩⟩ :=
    C20_rebalance_follows_present_links mapChain _ 0 ⟨1, 10, none, some 1, none, 2⟩
      repZ_mapChain (by simp [Tr.Pos]) (.head rfl) (by decide) (by decide)
  exact ⟨repZ_mapChain, by decide, ⟨m1, e1⟩, ⟨m2, next, e2⟩⟩

end aisdi
